import Mathlib

/-!
Verification of the immutable radix tree (package iradix, files
iradix.go and node.go).

Keys are byte sequences, modelled as lists of naturals; lexicographic
order on byte slices coincides with lexicographic order on these lists.
Values are an arbitrary type `V`.

Edge collections in the source are slices sorted by label, manipulated
through binary search (sort.Search with the monotone predicate
`edges[i].label >= label`, which yields the least index satisfying it).
We model each such operation by a recursive function that walks to the
same lower-bound position and performs the same action.
-/

set_option maxHeartbeats 1000000
set_option linter.unusedVariables false
set_option linter.unnecessarySeqFocus false

namespace Iradix

/-- Keys are byte sequences; bytes are modelled as naturals. -/
abbrev Key := List Nat

/-! ### Edge-list operations (node.go: addEdge, replaceEdge, getEdge, delEdge)

These are generic in the child type so that they can be reused by both
the value-level tree model and the heap (address) model. -/

/-- Lookup of an edge by label (node.go Node.getEdge): binary search for
the least index whose label is `>= label`, then an equality check.
Returns the index together with the child; `none` models the Go result
`(-1, nil)`. -/
def getEdge (label : Nat) : List (Nat × α) → Option (Nat × α)
  | [] => none
  | e :: rest =>
    if label ≤ e.1 then
      if e.1 = label then some (0, e.2) else none
    else
      (getEdge label rest).map (fun p => (p.1 + 1, p.2))

/-- Insertion of an edge at its lower-bound position (node.go Node.addEdge:
append then rotate into the position found by sort.Search). -/
def addEdge (e : Nat × α) : List (Nat × α) → List (Nat × α)
  | [] => [e]
  | x :: rest => if e.1 ≤ x.1 then e :: x :: rest else x :: addEdge e rest

/-- Replacement of the child at an existing label (node.go Node.replaceEdge).
The Go code panics with "replacing missing edge" when the label is absent;
that fatal path is modelled by `none`. -/
def replaceEdge (label : Nat) (nd : α) : List (Nat × α) → Option (List (Nat × α))
  | [] => none
  | x :: rest =>
    if label ≤ x.1 then
      if x.1 = label then some ((label, nd) :: rest) else none
    else
      (replaceEdge label nd rest).map (fun es => x :: es)

/-- Removal of the edge with the given label, a no-op when absent
(node.go Node.delEdge). -/
def delEdge (label : Nat) : List (Nat × α) → List (Nat × α)
  | [] => []
  | x :: rest =>
    if label ≤ x.1 then
      if x.1 = label then rest else x :: rest
    else
      x :: delEdge label rest

/-- In-place update of the child stored at a known index, keeping the label
(iradix.go: the assignment nc.edges[idx].node = newChild). Out-of-range
indices leave the list unchanged (never reached by the callers). -/
def setEdgeNode (es : List (Nat × α)) (idx : Nat) (nd : α) : List (Nat × α) :=
  match es[idx]? with
  | some e => es.set idx (e.1, nd)
  | none => es

/-- Length of the longest shared prefix of two keys (iradix.go longestPrefix). -/
def longestPrefix : Key → Key → Nat
  | a :: as, b :: bs => if a = b then longestPrefix as bs + 1 else 0
  | _, _ => 0

/-! ### The node structure (node.go) -/

/-- An immutable node of the radix tree: an optional leaf (key stored in
full, with its value), the compressed prefix, and the edge list sorted by
label (node.go: Node, leafNode, edge). -/
inductive Node (V : Type) : Type where
  | mk (leaf : Option (Key × V)) (pfx : Key) (edges : List (Nat × Node V)) : Node V

variable {V : Type}

/-- The optional leaf of a node. -/
def Node.leaf : Node V → Option (Key × V)
  | .mk l _ _ => l

/-- The compressed prefix of a node. -/
def Node.pfx : Node V → Key
  | .mk _ p _ => p

/-- The sorted edge list of a node. -/
def Node.edges : Node V → List (Nat × Node V)
  | .mk _ _ es => es

@[simp] theorem Node.leaf_mk (l : Option (Key × V)) (p : Key) (es : List (Nat × Node V)) :
    (Node.mk l p es).leaf = l := rfl

@[simp] theorem Node.pfx_mk (l : Option (Key × V)) (p : Key) (es : List (Nat × Node V)) :
    (Node.mk l p es).pfx = p := rfl

@[simp] theorem Node.edges_mk (l : Option (Key × V)) (p : Key) (es : List (Nat × Node V)) :
    (Node.mk l p es).edges = es := rfl

theorem Node.eta (n : Node V) : Node.mk n.leaf n.pfx n.edges = n := by
  cases n <;> rfl

/-- A child reachable through an edge is structurally smaller than its node. -/
theorem sizeOf_edge_child {l : Nat} {c : Node V} {n : Node V}
    (h : (l, c) ∈ n.edges) : sizeOf c < sizeOf n := by
  cases n with
  | mk lf p es =>
    have h1 : sizeOf (l, c) < sizeOf es := List.sizeOf_lt_of_mem h
    have h2 : sizeOf c < sizeOf (l, c) := by
      simp only [Prod.mk.sizeOf_spec]
      omega
    simp only [Node.mk.sizeOf_spec]
    omega

/-- A successful edge lookup returns an edge of the list. -/
theorem getEdge_mem {label : Nat} {es : List (Nat × α)} {idx : Nat} {c : α}
    (h : getEdge label es = some (idx, c)) : (label, c) ∈ es := by
  induction es generalizing idx with
  | nil => simp [getEdge] at h
  | cons e rest ih =>
    by_cases hle : label ≤ e.1
    · by_cases heq : e.1 = label
      · simp only [getEdge, if_pos hle, if_pos heq, Option.some.injEq, Prod.mk.injEq] at h
        subst heq
        have : e = (e.1, c) := by rw [← h.2]
        rw [← this]
        exact List.mem_cons_self _ _
      · simp [getEdge, hle, heq] at h
    · simp only [getEdge, if_neg hle] at h
      cases hrec : getEdge label rest with
      | none => rw [hrec] at h; simp at h
      | some p =>
        rw [hrec] at h
        simp only [Option.map_some', Option.some.injEq, Prod.mk.injEq] at h
        have hp : getEdge label rest = some (p.1, c) := by
          rw [hrec, ← h.2]
        exact List.mem_cons_of_mem _ (ih hp)

/-- The last element of a list is a member. -/
theorem mem_of_getLast?_eq {l : List α} {a : α} (h : l.getLast? = some a) : a ∈ l := by
  obtain ⟨hne, rfl⟩ := List.mem_getLast?_eq_getLast (show a ∈ l.getLast? from h)
  exact List.getLast_mem _

/-- Strong-induction principle for nodes following the edge structure. -/
theorem node_ind (P : Node V → Prop)
    (h : ∀ n : Node V, (∀ l c, (l, c) ∈ n.edges → P c) → P n) : ∀ n, P n := by
  intro n
  apply h
  intro l c hmem
  have : sizeOf c < sizeOf n := sizeOf_edge_child hmem
  exact node_ind P h c
termination_by n => sizeOf n

mutual
/-- The (key, value) pairs visited, in order, by a full pre-order walk of a
node (node.go recursiveWalk with a callback that never aborts): the leaf
first, then the children in edge order. -/
def leaves : Node V → List (Key × V)
  | .mk lf _ es => lf.toList ++ leavesL es

/-- Pre-order walk of a list of edges, in order. -/
def leavesL : List (Nat × Node V) → List (Key × V)
  | [] => []
  | e :: rest => leaves e.2 ++ leavesL rest
end

@[simp] theorem leaves_mk (lf : Option (Key × V)) (p : Key) (es : List (Nat × Node V)) :
    leaves (Node.mk lf p es) = lf.toList ++ leavesL es := by
  rw [leaves]

@[simp] theorem leavesL_nil : leavesL ([] : List (Nat × Node V)) = [] := by
  rw [leavesL]

@[simp] theorem leavesL_cons (e : Nat × Node V) (rest : List (Nat × Node V)) :
    leavesL (e :: rest) = leaves e.2 ++ leavesL rest := by
  rw [leavesL]

/-- Point lookup (node.go Node.Get): descend by the first byte of the
remaining search key; at each edge the child's prefix must be a prefix of
the remaining search, which is then consumed; on exhaustion return the
node's leaf value. -/
def get (n : Node V) (search : Key) : Option V :=
  match search with
  | [] => n.leaf.map Prod.snd
  | b :: rest =>
    match hE : getEdge b n.edges with
    | none => none
    | some (_, child) =>
      if child.pfx.isPrefixOf (b :: rest) then
        get child ((b :: rest).drop child.pfx.length)
      else none
termination_by sizeOf n
decreasing_by exact sizeOf_edge_child (getEdge_mem hE)

/-- Recursive insertion (iradix.go Txn.insert). `k` is the full key, `search`
the remaining suffix. Returns the replacement node, the previous value and
whether an existing value was updated. The outer Option models the fatal
"replacing missing edge" panic (`none`), which theorem `insert_isSome`
shows is never reached; the Go nil-newChild propagation branch is likewise
dead because the recursion always yields a node. -/
def insert (n : Node V) (k search : Key) (v : V) : Option (Node V × Option V × Bool) :=
  match search with
  | [] =>
    -- key exhaustion: path-copy and set the leaf
    some (Node.mk (some (k, v)) n.pfx n.edges, n.leaf.map Prod.snd, n.leaf.isSome)
  | b :: rest =>
    match hE : getEdge b n.edges with
    | none =>
      -- no edge: attach a fresh leaf node under label b
      some (Node.mk n.leaf n.pfx
              (addEdge (b, Node.mk (some (k, v)) (b :: rest) []) n.edges),
            none, false)
    | some (idx, child) =>
      let cp := longestPrefix (b :: rest) child.pfx
      if cp = child.pfx.length then
        -- full match of the child's prefix: consume and recurse
        match insert child k ((b :: rest).drop cp) v with
        | some (newChild, old, upd) =>
          some (Node.mk n.leaf n.pfx (setEdgeNode n.edges idx newChild), old, upd)
        | none => none
      else
        -- split the edge at the longest common prefix
        let modChild := Node.mk child.leaf (child.pfx.drop cp) child.edges
        let splitEdges := addEdge (child.pfx.getD cp 0, modChild) []
        let searchRest := (b :: rest).drop cp
        let splitNode :=
          match searchRest with
          | [] => Node.mk (some (k, v)) ((b :: rest).take cp) splitEdges
          | sb :: srest =>
            Node.mk none ((b :: rest).take cp)
              (addEdge (sb, Node.mk (some (k, v)) (sb :: srest) []) splitEdges)
        match replaceEdge b splitNode n.edges with
        | some es => some (Node.mk n.leaf n.pfx es, none, false)
        | none => none
termination_by sizeOf n
decreasing_by exact sizeOf_edge_child (getEdge_mem hE)

/-- Collapse of a single-edge node with its child (iradix.go Txn.mergeChild):
absorb the sole child's prefix, leaf and edges. Callers guarantee exactly
one edge; the empty case is unreachable and returns the node unchanged. -/
def mergeChild (n : Node V) : Node V :=
  match n.edges with
  | (_, child) :: _ => Node.mk child.leaf (n.pfx ++ child.pfx) child.edges
  | [] => n

/-- Recursive deletion (iradix.go Txn.delete). `isRoot` records whether `n`
is the transaction's working root (the Go code compares pointers with
t.root; only the top-level call can be the root since the graph is acyclic).
`none` models the nil return meaning "no change"; on success the removed
leaf is returned with the replacement node. -/
def delete (isRoot : Bool) (n : Node V) (search : Key) : Option (Node V × (Key × V)) :=
  match search with
  | [] =>
    match n.leaf with
    | none => none
    | some lf =>
      -- remove the leaf, then merge when a lone edge remains on a non-root
      let nc := Node.mk none n.pfx n.edges
      some (if isRoot = false ∧ nc.edges.length = 1 then mergeChild nc else nc, lf)
  | b :: rest =>
    match hE : getEdge b n.edges with
    | none => none
    | some (idx, child) =>
      if child.pfx.isPrefixOf (b :: rest) then
        match delete false child ((b :: rest).drop child.pfx.length) with
        | none => none
        | some (newChild, lf) =>
          if newChild.leaf.isNone ∧ newChild.edges.isEmpty then
            -- the child became empty: drop the edge, then maybe merge
            let nc := Node.mk n.leaf n.pfx (delEdge b n.edges)
            some (if isRoot = false ∧ nc.edges.length = 1 ∧ nc.leaf.isNone then
                    mergeChild nc
                  else nc, lf)
          else
            some (Node.mk n.leaf n.pfx (setEdgeNode n.edges idx newChild), lf)
      else none
termination_by sizeOf n
decreasing_by exact sizeOf_edge_child (getEdge_mem hE)

/-- Minimum (node.go Node.Minimum): return the leaf if present, otherwise
descend the first edge; `none` on an empty subtree. -/
def minimum (n : Node V) : Option (Key × V) :=
  match n.leaf with
  | some lf => some lf
  | none =>
    match hE : n.edges with
    | (_, c) :: _ => minimum c
    | [] => none
termination_by sizeOf n
decreasing_by exact sizeOf_edge_child (hE ▸ List.mem_cons_self _ _)

/-- Maximum (node.go Node.Maximum): descend the last edge while edges exist,
preferring descent over the current node's own leaf; at an edge-less node
return its leaf if any. -/
def maximum (n : Node V) : Option (Key × V) :=
  match hE : n.edges.getLast? with
  | some (_, c) => maximum c
  | none => n.leaf
termination_by sizeOf n
decreasing_by exact sizeOf_edge_child (mem_of_getLast?_eq hE)

/-! ### The transaction layer (iradix.go) -/

/-- Txn.Insert: run the recursive insertion from the working root and adopt
the returned root (always non-nil in the source; the impossible panic case
leaves the root unchanged). Returns the new root, the previous value and
the update flag. -/
def txnInsert (root : Node V) (k : Key) (v : V) : Node V × Option V × Bool :=
  match insert root k k v with
  | some (nr, old, upd) => (nr, old, upd)
  | none => (root, none, false)

/-- Txn.Delete: run the recursive deletion from the working root; on a miss
the root is unchanged and no value is reported. -/
def txnDelete (root : Node V) (k : Key) : Node V × Option V :=
  match delete true root k with
  | some (nr, lf) => (nr, some lf.2)
  | none => (root, none)

/-- A public mutating operation on a tree. -/
inductive Op (V : Type) : Type where
  | ins (k : Key) (v : V) : Op V
  | del (k : Key) : Op V

/-- Application of one operation to a committed root (Tree.Insert and
Tree.Delete each run a one-shot transaction and commit). -/
def applyOp (root : Node V) : Op V → Node V
  | .ins k v => (txnInsert root k v).1
  | .del k => (txnDelete root k).1

/-- The root produced by a sequence of operations. -/
def applyOps (root : Node V) (ops : List (Op V)) : Node V :=
  ops.foldl applyOp root

/-- The empty root created by New(). -/
def emptyNode : Node V := Node.mk none [] []

/-- The committed tree obtained from New() by a sequence of Insert and
Delete operations. -/
def build (ops : List (Op V)) : Node V := applyOps emptyNode ops

/-- Reference model of the operation history: the value associated with a
key is that of the last insert of the key not followed by a delete of it. -/
def modelFind (ops : List (Op V)) (K : Key) : Option V :=
  ops.foldl
    (fun acc op =>
      match op with
      | .ins k v => if k = K then some v else acc
      | .del k => if k = K then none else acc)
    none

/-! ### Unfolding equations for the recursive operations -/

@[simp] theorem get_nil (n : Node V) : get n [] = n.leaf.map Prod.snd := by
  rw [get]

theorem get_cons_none {n : Node V} {b : Nat} {rest : Key}
    (h : getEdge b n.edges = none) : get n (b :: rest) = none := by
  rw [get]; split <;> simp_all

theorem get_cons_some {n : Node V} {b : Nat} {rest : Key} {idx : Nat} {child : Node V}
    (h : getEdge b n.edges = some (idx, child)) :
    get n (b :: rest) =
      if child.pfx.isPrefixOf (b :: rest) then
        get child ((b :: rest).drop child.pfx.length)
      else none := by
  rw [get]; split <;> simp_all

@[simp] theorem insert_nil (n : Node V) (k : Key) (v : V) :
    insert n k [] v =
      some (Node.mk (some (k, v)) n.pfx n.edges, n.leaf.map Prod.snd, n.leaf.isSome) := by
  rw [insert]

theorem insert_cons_none {n : Node V} {b : Nat} {rest : Key} (k : Key) (v : V)
    (h : getEdge b n.edges = none) :
    insert n k (b :: rest) v =
      some (Node.mk n.leaf n.pfx
              (addEdge (b, Node.mk (some (k, v)) (b :: rest) []) n.edges),
            none, false) := by
  rw [insert]; split <;> simp_all

theorem insert_cons_descend {n : Node V} {b : Nat} {rest : Key} {idx : Nat} {child : Node V}
    (k : Key) (v : V) (h : getEdge b n.edges = some (idx, child))
    (hcp : longestPrefix (b :: rest) child.pfx = child.pfx.length) :
    insert n k (b :: rest) v =
      match insert child k ((b :: rest).drop (longestPrefix (b :: rest) child.pfx)) v with
      | some (newChild, old, upd) =>
        some (Node.mk n.leaf n.pfx (setEdgeNode n.edges idx newChild), old, upd)
      | none => none := by
  rw [insert]
  split
  · simp_all
  · next idx' child' heq =>
    rw [h] at heq
    injection heq with heq
    injection heq with h1 h2
    subst h1; subst h2
    rw [if_pos hcp]

theorem insert_cons_split {n : Node V} {b : Nat} {rest : Key} {idx : Nat} {child : Node V}
    (k : Key) (v : V) (h : getEdge b n.edges = some (idx, child))
    (hcp : longestPrefix (b :: rest) child.pfx ≠ child.pfx.length) :
    insert n k (b :: rest) v =
      (let cp := longestPrefix (b :: rest) child.pfx
       let modChild := Node.mk child.leaf (child.pfx.drop cp) child.edges
       let splitEdges := addEdge (child.pfx.getD cp 0, modChild) []
       let splitNode :=
         match (b :: rest).drop cp with
         | [] => Node.mk (some (k, v)) ((b :: rest).take cp) splitEdges
         | sb :: srest =>
           Node.mk none ((b :: rest).take cp)
             (addEdge (sb, Node.mk (some (k, v)) (sb :: srest) []) splitEdges)
       match replaceEdge b splitNode n.edges with
       | some es => some (Node.mk n.leaf n.pfx es, none, false)
       | none => none) := by
  rw [insert]
  split
  · simp_all
  · next idx' child' heq =>
    rw [h] at heq
    injection heq with heq
    injection heq with h1 h2
    subst h1; subst h2
    rw [if_neg hcp]

theorem delete_nil_none {n : Node V} (isRoot : Bool) (h : n.leaf = none) :
    delete isRoot n [] = none := by
  rw [delete]; simp [h]

theorem delete_nil_some {n : Node V} {lf : Key × V} (isRoot : Bool) (h : n.leaf = some lf) :
    delete isRoot n [] =
      some (if isRoot = false ∧ n.edges.length = 1 then
              mergeChild (Node.mk none n.pfx n.edges)
            else Node.mk none n.pfx n.edges, lf) := by
  rw [delete]; simp [h]

theorem delete_cons_none {n : Node V} {b : Nat} {rest : Key} (isRoot : Bool)
    (h : getEdge b n.edges = none) : delete isRoot n (b :: rest) = none := by
  rw [delete]; split <;> simp_all

theorem delete_cons_nopfx {n : Node V} {b : Nat} {rest : Key} {idx : Nat} {child : Node V}
    (isRoot : Bool) (h : getEdge b n.edges = some (idx, child))
    (hp : child.pfx.isPrefixOf (b :: rest) = false) :
    delete isRoot n (b :: rest) = none := by
  rw [delete]
  split
  · simp_all
  · next idx' child' heq =>
    rw [h] at heq
    injection heq with heq
    injection heq with h1 h2
    subst h1; subst h2
    rw [if_neg]
    simp [hp]

theorem delete_cons_some {n : Node V} {b : Nat} {rest : Key} {idx : Nat} {child : Node V}
    (isRoot : Bool) (h : getEdge b n.edges = some (idx, child))
    (hp : child.pfx.isPrefixOf (b :: rest) = true) :
    delete isRoot n (b :: rest) =
      match delete false child ((b :: rest).drop child.pfx.length) with
      | none => none
      | some (newChild, lf) =>
        if newChild.leaf.isNone ∧ newChild.edges.isEmpty then
          some (if isRoot = false ∧ (delEdge b n.edges).length = 1 ∧ n.leaf.isNone then
                  mergeChild (Node.mk n.leaf n.pfx (delEdge b n.edges))
                else Node.mk n.leaf n.pfx (delEdge b n.edges), lf)
        else
          some (Node.mk n.leaf n.pfx (setEdgeNode n.edges idx newChild), lf) := by
  rw [delete]
  split
  · simp_all
  · next idx' child' heq =>
    rw [h] at heq
    injection heq with heq
    injection heq with h1 h2
    subst h1; subst h2
    rw [if_pos hp]
    simp only [Node.edges_mk, Node.leaf_mk]

theorem minimum_leaf {n : Node V} {lf : Key × V} (h : n.leaf = some lf) :
    minimum n = some lf := by
  rw [minimum]; simp [h]

theorem minimum_noleaf_cons {n : Node V} {l : Nat} {c : Node V} {rest : List (Nat × Node V)}
    (h : n.leaf = none) (he : n.edges = (l, c) :: rest) : minimum n = minimum c := by
  rw [minimum]; simp only [h]; split <;> simp_all

theorem minimum_empty {n : Node V} (h : n.leaf = none) (he : n.edges = []) :
    minimum n = none := by
  rw [minimum]; simp only [h]; split <;> simp_all

theorem maximum_last {n : Node V} {l : Nat} {c : Node V}
    (h : n.edges.getLast? = some (l, c)) : maximum n = maximum c := by
  rw [maximum]; split <;> simp_all

theorem maximum_noedges {n : Node V} (h : n.edges = []) : maximum n = n.leaf := by
  rw [maximum]; split <;> simp_all

/-! ### Lexicographic order on keys

Key comparison in the source is raw lexicographic byte comparison
(bytes.Compare / string comparison on byte slices). -/

/-- Strict lexicographic order on keys. -/
def keyLt : Key → Key → Bool
  | [], [] => false
  | [], _ :: _ => true
  | _ :: _, [] => false
  | a :: as, b :: bs => if a < b then true else if b < a then false else keyLt as bs

/-- Reflexive lexicographic order on keys. -/
def keyLe (x y : Key) : Bool := !keyLt y x

@[simp] theorem keyLt_nil_right (x : Key) : keyLt x [] = false := by
  cases x <;> rfl

@[simp] theorem keyLt_nil_cons (b : Nat) (bs : Key) : keyLt [] (b :: bs) = true := rfl

theorem keyLt_cons_cons (a b : Nat) (as bs : Key) :
    keyLt (a :: as) (b :: bs) =
      if a < b then true else if b < a then false else keyLt as bs := rfl

@[simp] theorem keyLt_irrefl (x : Key) : keyLt x x = false := by
  induction x with
  | nil => rfl
  | cons a as ih => simp [keyLt_cons_cons, ih]

@[simp] theorem keyLt_append_append (p x y : Key) :
    keyLt (p ++ x) (p ++ y) = keyLt x y := by
  induction p with
  | nil => rfl
  | cons a p ih => simp [keyLt_cons_cons, ih]

theorem keyLt_append_self (p t : Key) : keyLt (p ++ t) p = false := by
  induction p with
  | nil => simp
  | cons a p ih => simp [keyLt_cons_cons, ih]

/-- A proper extension of a key is strictly greater. -/
theorem keyLt_self_append {t : Key} (p : Key) (h : t ≠ []) :
    keyLt p (p ++ t) = true := by
  induction p with
  | nil => cases t with
    | nil => exact absurd rfl h
    | cons b bs => rfl
  | cons a p ih => simp [keyLt_cons_cons, ih]

/-- Keys whose first difference is an ordered byte pair are ordered. -/
theorem keyLt_append_head {a b : Nat} (p x y : Key) (h : a < b) :
    keyLt (p ++ a :: x) (p ++ b :: y) = true := by
  rw [keyLt_append_append, keyLt_cons_cons, if_pos h]

theorem keyLt_asymm {x y : Key} (h : keyLt x y = true) : keyLt y x = false := by
  induction x generalizing y with
  | nil =>
    cases y with
    | nil => simp at h
    | cons b bs => simp
  | cons a as ih =>
    cases y with
    | nil => simp at h
    | cons b bs =>
      simp only [keyLt_cons_cons] at h ⊢
      by_cases hab : a < b
      · have hba : ¬ b < a := by omega
        simp [hba, hab]
      · by_cases hba : b < a
        · simp [hab, hba] at h
        · simp only [if_neg hab, if_neg hba] at h
          simp [hab, hba, ih h]

theorem keyLt_trans {x y z : Key} (h1 : keyLt x y = true) (h2 : keyLt y z = true) :
    keyLt x z = true := by
  induction x generalizing y z with
  | nil =>
    cases z with
    | nil => cases y <;> simp_all
    | cons c cs => simp
  | cons a as ih =>
    cases y with
    | nil => simp at h1
    | cons b bs =>
      cases z with
      | nil => simp at h2
      | cons c cs =>
        simp only [keyLt_cons_cons] at h1 h2 ⊢
        by_cases hab : a < b <;> by_cases hbc : b < c
        · have : a < c := by omega
          simp [this]
        · simp only [if_neg hbc] at h2
          by_cases hcb : c < b
          · simp [hcb] at h2
          · have : b = c := by omega
            subst this
            simp [hab]
        · simp only [if_neg hab] at h1
          by_cases hba : b < a
          · simp [hba] at h1
          · have : a = b := by omega
            subst this
            simp [hbc]
        · simp only [if_neg hab, if_neg hbc] at h1 h2
          by_cases hba : b < a
          · simp [hba] at h1
          · by_cases hcb : c < b
            · simp [hcb] at h2
            · have hab' : a = b := by omega
              have hbc' : b = c := by omega
              subst hab'; subst hbc'
              simp only [Nat.lt_irrefl, if_false] at h1 h2 ⊢
              exact ih h1 h2

/-- Keys incomparable by the strict order are equal. -/
theorem keyLt_conn {x y : Key} (h1 : keyLt x y = false) (h2 : keyLt y x = false) :
    x = y := by
  induction x generalizing y with
  | nil => cases y with
    | nil => rfl
    | cons b bs => simp at h1
  | cons a as ih =>
    cases y with
    | nil => simp at h2
    | cons b bs =>
      simp only [keyLt_cons_cons] at h1 h2
      by_cases hab : a < b
      · simp [hab] at h1
      · by_cases hba : b < a
        · simp [hba, hab] at h2
        · have : a = b := by omega
          subst this
          simp only [if_neg hab, if_neg hba] at h1 h2
          rw [ih h1 h2]

/-- A key is never smaller than its own prefix. -/
theorem keyLt_eq_false_ofPrefix {p x : Key} (h : p <+: x) : keyLt x p = false := by
  obtain ⟨t, rfl⟩ := h
  exact keyLt_append_self p t

/-- If a take-slice of `s` is lexicographically below a key of the slice's
length, then `s` is below any extension of that key. -/
theorem keyLt_of_take_lt {s cp r : Key} {L : Nat}
    (h : keyLt (s.take L) cp = true) (hl : cp.length = L) :
    keyLt s (cp ++ r) = true := by
  induction cp generalizing s L r with
  | nil => simp at h
  | cons c cs ih =>
    cases s with
    | nil => simp
    | cons a as =>
      cases L with
      | zero => simp at hl
      | succ L' =>
        simp only [List.take_succ_cons, keyLt_cons_cons] at h
        simp only [List.cons_append, keyLt_cons_cons]
        by_cases hac : a < c
        · simp [hac]
        · by_cases hca : c < a
          · simp [hca, hac] at h
          · simp only [if_neg hac, if_neg hca] at h ⊢
            exact ih h (by simpa using hl)

/-- If a key of the length of a take-slice of `s` is lexicographically below
that slice, then any extension of the key is below `s`. -/
theorem keyLt_of_lt_take {s cp r : Key} {L : Nat}
    (h : keyLt cp (s.take L) = true) (hl : cp.length = L) :
    keyLt (cp ++ r) s = true := by
  induction cp generalizing s L r with
  | nil =>
    subst hl
    simp at h
  | cons c cs ih =>
    cases s with
    | nil => simp at h
    | cons a as =>
      cases L with
      | zero => simp at hl
      | succ L' =>
        simp only [List.take_succ_cons, keyLt_cons_cons] at h
        simp only [List.cons_append, keyLt_cons_cons]
        by_cases hca : c < a
        · simp [hca]
        · by_cases hac : a < c
          · simp [hac, hca] at h
          · simp only [if_neg hca, if_neg hac] at h ⊢
            exact ih h (by simpa using hl)

/-! ### Sorted edge lists -/

/-- The labels of an edge list are strictly increasing (the invariant kept
by addEdge, replaceEdge and delEdge). -/
def edgesSorted (es : List (Nat × α)) : Prop :=
  List.Pairwise (fun a b => a.1 < b.1) es

theorem edgesSorted_nil : edgesSorted ([] : List (Nat × α)) := List.Pairwise.nil

theorem edgesSorted_cons {e : Nat × α} {es : List (Nat × α)} (h : edgesSorted (e :: es)) :
    (∀ y ∈ es, e.1 < y.1) ∧ edgesSorted es :=
  ⟨fun _ hy => List.rel_of_pairwise_cons h hy, h.of_cons⟩

/-- A successful lookup in a sorted list finds the unique edge with the label. -/
theorem getEdge_some_of_mem {es : List (Nat × α)} {b : Nat} {c : α}
    (hs : edgesSorted es) (h : (b, c) ∈ es) : ∃ i, getEdge b es = some (i, c) := by
  induction es with
  | nil => simp at h
  | cons x rest ih =>
    obtain ⟨hlt, hrest⟩ := edgesSorted_cons hs
    rcases List.mem_cons.mp h with heq | hmem
    · refine ⟨0, ?_⟩
      rw [← heq]
      simp [getEdge]
    · have hxb : x.1 < b := hlt _ hmem
      obtain ⟨i, hi⟩ := ih hrest hmem
      refine ⟨i + 1, ?_⟩
      have : ¬ b ≤ x.1 := by omega
      simp [getEdge, this, hi]

/-- A failed lookup in a sorted list means the label is absent. -/
theorem getEdge_none_not_mem {es : List (Nat × α)} {b : Nat} {c : α}
    (hs : edgesSorted es) (h : getEdge b es = none) : (b, c) ∉ es := by
  intro hmem
  obtain ⟨i, hi⟩ := getEdge_some_of_mem hs hmem
  rw [h] at hi
  cases hi

/-- Membership after addEdge. -/
theorem addEdge_mem {e y : Nat × α} {es : List (Nat × α)} :
    y ∈ addEdge e es ↔ y = e ∨ y ∈ es := by
  induction es with
  | nil => simp [addEdge]
  | cons x rest ih =>
    by_cases hle : e.1 ≤ x.1
    · simp [addEdge, hle]
    · simp only [addEdge, if_neg hle, List.mem_cons, ih]
      tauto

/-- addEdge keeps the list sorted when the new label is absent. -/
theorem addEdge_sorted {e : Nat × α} {es : List (Nat × α)}
    (hs : edgesSorted es) (habs : ∀ y ∈ es, y.1 ≠ e.1) :
    edgesSorted (addEdge e es) := by
  induction es with
  | nil => exact List.pairwise_singleton _ _
  | cons x rest ih =>
    obtain ⟨hlt, hrest⟩ := edgesSorted_cons hs
    by_cases hle : e.1 ≤ x.1
    · have hex : e.1 < x.1 := by
        have := habs x (List.mem_cons_self _ _)
        omega
      rw [addEdge, if_pos hle]
      refine List.Pairwise.cons ?_ hs
      intro y hy
      rcases List.mem_cons.mp hy with rfl | hmem
      · exact hex
      · exact Nat.lt_trans hex (hlt _ hmem)
    · rw [addEdge, if_neg hle]
      refine List.Pairwise.cons ?_ (ih hrest (fun y hy => habs y (List.mem_cons_of_mem _ hy)))
      intro y hy
      rcases addEdge_mem.mp hy with rfl | hmem
      · omega
      · exact hlt _ hmem

/-- The index returned by a successful lookup is in range. -/
theorem getEdge_idx_lt {es : List (Nat × α)} {b : Nat} {i : Nat} {c : α}
    (h : getEdge b es = some (i, c)) : i < es.length := by
  induction es generalizing i with
  | nil => simp [getEdge] at h
  | cons x rest ih =>
    by_cases hle : b ≤ x.1
    · by_cases heq : x.1 = b
      · simp only [getEdge, if_pos hle, if_pos heq, Option.some.injEq, Prod.mk.injEq] at h
        rw [← h.1]
        simp
      · simp [getEdge, hle, heq] at h
    · simp only [getEdge, if_neg hle] at h
      cases hrec : getEdge b rest with
      | none => rw [hrec] at h; simp at h
      | some p =>
        rw [hrec] at h
        simp only [Option.map_some', Option.some.injEq, Prod.mk.injEq] at h
        have hp : getEdge b rest = some (p.1, c) := by rw [hrec, ← h.2]
        have := ih hp
        rw [← h.1]
        simp only [List.length_cons]
        omega

/-- replaceEdge succeeds exactly when the lookup for the label succeeds, and
produces the pointwise update at the found index (the source writes
n.edges[idx].node = e.node through the index found by the same search). -/
theorem replaceEdge_of_getEdge {es : List (Nat × α)} {b : Nat} {c : α} {idx : Nat}
    (h : getEdge b es = some (idx, c)) (nd : α) :
    replaceEdge b nd es = some (setEdgeNode es idx nd) := by
  induction es generalizing idx with
  | nil => simp [getEdge] at h
  | cons x rest ih =>
    by_cases hle : b ≤ x.1
    · by_cases heq : x.1 = b
      · simp only [getEdge, if_pos hle, if_pos heq, Option.some.injEq, Prod.mk.injEq] at h
        obtain ⟨h0, hc⟩ := h
        subst heq
        rw [replaceEdge, if_pos hle, if_pos rfl]
        rw [setEdgeNode, ← h0]
        simp [List.set]
      · simp [getEdge, hle, heq] at h
    · simp only [getEdge, if_neg hle] at h
      cases hrec : getEdge b rest with
      | none => rw [hrec] at h; simp at h
      | some p =>
        rw [hrec] at h
        simp only [Option.map_some', Option.some.injEq, Prod.mk.injEq] at h
        obtain ⟨hidx, hc⟩ := h
        have hp : getEdge b rest = some (p.1, c) := by rw [hrec, ← hc]
        rw [replaceEdge, if_neg hle, ih hp]
        rw [← hidx]
        simp only [Option.map_some', Option.some.injEq]
        rw [setEdgeNode, setEdgeNode]
        simp only [List.getElem?_cons_succ]
        cases hg : rest[p.1]? with
        | none => rfl
        | some e => simp [List.set]

/-- Membership after a setEdgeNode at an index holding label `b`, on a
sorted list: the entry at `b` is replaced, everything else is kept. -/
theorem setEdgeNode_mem {es : List (Nat × α)} {b : Nat} {c : α} {idx : Nat}
    (hs : edgesSorted es) (h : getEdge b es = some (idx, c)) (nd : α) (y : Nat × α) :
    y ∈ setEdgeNode es idx nd ↔ y = (b, nd) ∨ (y ∈ es ∧ y.1 ≠ b) := by
  induction es generalizing idx with
  | nil => simp [getEdge] at h
  | cons x rest ih =>
    obtain ⟨hlt, hrest⟩ := edgesSorted_cons hs
    by_cases hle : b ≤ x.1
    · by_cases heq : x.1 = b
      · simp only [getEdge, if_pos hle, if_pos heq, Option.some.injEq, Prod.mk.injEq] at h
        obtain ⟨h0, hc⟩ := h
        subst heq
        rw [setEdgeNode, ← h0]
        simp only [List.getElem?_cons_zero, List.set_cons_zero, List.mem_cons]
        constructor
        · rintro (rfl | hmem)
          · left; rfl
          · right
            refine ⟨Or.inr hmem, ?_⟩
            have := hlt _ hmem
            omega
        · rintro (rfl | ⟨hmem, hne⟩)
          · left; rfl
          · rcases hmem with rfl | hmem'
            · exact absurd rfl hne
            · right; exact hmem'
      · simp [getEdge, hle, heq] at h
    · simp only [getEdge, if_neg hle] at h
      cases hrec : getEdge b rest with
      | none => rw [hrec] at h; simp at h
      | some p =>
        rw [hrec] at h
        simp only [Option.map_some', Option.some.injEq, Prod.mk.injEq] at h
        obtain ⟨hidx, hc⟩ := h
        have hp : getEdge b rest = some (p.1, c) := by rw [hrec, ← hc]
        rw [setEdgeNode, ← hidx]
        simp only [List.getElem?_cons_succ]
        cases hg : rest[p.1]? with
        | none =>
          have hlt' := getEdge_idx_lt hp
          have := List.getElem?_eq_none_iff.mp hg
          omega
        | some e =>
          have ihm := ih hrest hp
          rw [setEdgeNode, hg] at ihm
          dsimp only at ihm ⊢
          have hset : (x :: rest).set (p.1 + 1) (e.1, nd) = x :: rest.set p.1 (e.1, nd) := by
            simp [List.set]
          rw [hset]
          have hxb : x.1 < b := by omega
          simp only [List.mem_cons]
          constructor
          · rintro (rfl | hy)
            · right
              refine ⟨Or.inl rfl, ?_⟩
              omega
            · rcases ihm.mp hy with rfl | ⟨hmem, hne⟩
              · left; rfl
              · right; exact ⟨Or.inr hmem, hne⟩
          · rintro (rfl | ⟨hmem, hne⟩)
            · right; exact ihm.mpr (Or.inl rfl)
            · rcases hmem with rfl | hmem'
              · left; rfl
              · right; exact ihm.mpr (Or.inr ⟨hmem', hne⟩)

/-- setEdgeNode keeps the labels unchanged. -/
theorem setEdgeNode_map_fst (es : List (Nat × α)) (idx : Nat) (nd : α) :
    (setEdgeNode es idx nd).map Prod.fst = es.map Prod.fst := by
  induction es generalizing idx with
  | nil => rfl
  | cons x rest ih =>
    cases idx with
    | zero => simp [setEdgeNode]
    | succ i =>
      rw [setEdgeNode]
      simp only [List.getElem?_cons_succ]
      cases hg : rest[i]? with
      | none => rfl
      | some e =>
        dsimp only
        have := ih i
        rw [setEdgeNode, hg] at this
        dsimp only at this
        simp [List.set, this]

/-- setEdgeNode preserves sortedness. -/
theorem setEdgeNode_sorted {es : List (Nat × α)} (hs : edgesSorted es) (idx : Nat) (nd : α) :
    edgesSorted (setEdgeNode es idx nd) := by
  have h1 : List.Pairwise (· < ·) ((setEdgeNode es idx nd).map Prod.fst) := by
    rw [setEdgeNode_map_fst]
    exact (List.pairwise_map).mpr hs
  exact (List.pairwise_map).mp h1

/-- delEdge yields a sublist. -/
theorem delEdge_sublist (b : Nat) (es : List (Nat × α)) :
    List.Sublist (delEdge b es) es := by
  induction es with
  | nil => simp [delEdge]
  | cons x rest ih =>
    by_cases hle : b ≤ x.1
    · by_cases heq : x.1 = b
      · rw [delEdge, if_pos hle, if_pos heq]
        exact (List.sublist_cons_self _ _)
      · rw [delEdge, if_pos hle, if_neg heq]
    · rw [delEdge, if_neg hle]
      exact List.Sublist.cons₂ _ ih

/-- delEdge preserves sortedness. -/
theorem delEdge_sorted {es : List (Nat × α)} (hs : edgesSorted es) (b : Nat) :
    edgesSorted (delEdge b es) :=
  List.Pairwise.sublist (delEdge_sublist b es) hs

/-- Membership after delEdge on a sorted list: the entry with the label is
removed, everything else is kept. -/
theorem delEdge_mem {es : List (Nat × α)} (hs : edgesSorted es) (b : Nat) (y : Nat × α) :
    y ∈ delEdge b es ↔ y ∈ es ∧ y.1 ≠ b := by
  induction es with
  | nil => simp [delEdge]
  | cons x rest ih =>
    obtain ⟨hlt, hrest⟩ := edgesSorted_cons hs
    by_cases hle : b ≤ x.1
    · by_cases heq : x.1 = b
      · rw [delEdge, if_pos hle, if_pos heq]
        subst heq
        simp only [List.mem_cons]
        constructor
        · intro hmem
          have hgt := hlt _ hmem
          refine ⟨Or.inr hmem, ?_⟩
          omega
        · rintro ⟨rfl | hmem, hne⟩
          · exact absurd rfl hne
          · exact hmem
      · rw [delEdge, if_pos hle, if_neg heq]
        simp only [List.mem_cons]
        constructor
        · rintro (rfl | hmem)
          · refine ⟨Or.inl rfl, ?_⟩
            omega
          · have := hlt _ hmem
            refine ⟨Or.inr hmem, ?_⟩
            omega
        · rintro ⟨hmem, hne⟩
          exact hmem
    · rw [delEdge, if_neg hle]
      simp only [List.mem_cons, ih hrest]
      constructor
      · rintro (rfl | ⟨hmem, hne⟩)
        · refine ⟨Or.inl rfl, ?_⟩
          omega
        · exact ⟨Or.inr hmem, hne⟩
      · rintro ⟨rfl | hmem, hne⟩
        · left; rfl
        · right; exact ⟨hmem, hne⟩

/-- Labels of members of a sorted list with a failed lookup differ from the
searched label. -/
theorem ne_label_of_getEdge_none {es : List (Nat × α)} {b : Nat}
    (hs : edgesSorted es) (h : getEdge b es = none) : ∀ y ∈ es, y.1 ≠ b := by
  intro y hy hyb
  exact getEdge_none_not_mem hs h (show (b, y.2) ∈ es by rw [← hyb]; exact hy)

/-! ### Well-formedness of nodes

`WfUnder q n` states that the subtree rooted at `n` hangs under the key
path `q` (the concatenation of all prefixes strictly above `n`): its leaf,
if any, stores exactly the key `q ++ n.pfx`; its edges are sorted with the
label equal to the first byte of the child's (non-empty) prefix; every
child subtree is non-empty and well-formed under `q ++ n.pfx`.  Committed
roots satisfy `WfUnder []` together with an empty own prefix. -/

inductive WfUnder : Key → Node V → Prop where
  | mk : ∀ (q : Key) (lf : Option (Key × V)) (pfx : Key) (es : List (Nat × Node V)),
      (∀ kk vv, lf = some (kk, vv) → kk = q ++ pfx) →
      edgesSorted es →
      (∀ l c, (l, c) ∈ es → c.pfx.head? = some l) →
      (∀ l c, (l, c) ∈ es → leaves c ≠ []) →
      (∀ l c, (l, c) ∈ es → WfUnder (q ++ pfx) c) →
      WfUnder q (Node.mk lf pfx es)

theorem WfUnder.leafKey {q : Key} {n : Node V} (h : WfUnder q n) :
    ∀ kk vv, n.leaf = some (kk, vv) → kk = q ++ n.pfx := by
  cases h with
  | mk q lf pfx es h1 h2 h3 h4 h5 => simpa using h1

theorem WfUnder.sortedEdges {q : Key} {n : Node V} (h : WfUnder q n) :
    edgesSorted n.edges := by
  cases h with
  | mk q lf pfx es h1 h2 h3 h4 h5 => simpa using h2

theorem WfUnder.childHead {q : Key} {n : Node V} (h : WfUnder q n) :
    ∀ l c, (l, c) ∈ n.edges → c.pfx.head? = some l := by
  cases h with
  | mk q lf pfx es h1 h2 h3 h4 h5 => simpa using h3

theorem WfUnder.childNonempty {q : Key} {n : Node V} (h : WfUnder q n) :
    ∀ l c, (l, c) ∈ n.edges → leaves c ≠ [] := by
  cases h with
  | mk q lf pfx es h1 h2 h3 h4 h5 => simpa using h4

theorem WfUnder.childWf {q : Key} {n : Node V} (h : WfUnder q n) :
    ∀ l c, (l, c) ∈ n.edges → WfUnder (q ++ n.pfx) c := by
  cases h with
  | mk q lf pfx es h1 h2 h3 h4 h5 => simpa using h5

theorem WfUnder.ofParts {q : Key} (n : Node V)
    (h1 : ∀ kk vv, n.leaf = some (kk, vv) → kk = q ++ n.pfx)
    (h2 : edgesSorted n.edges)
    (h3 : ∀ l c, (l, c) ∈ n.edges → c.pfx.head? = some l)
    (h4 : ∀ l c, (l, c) ∈ n.edges → leaves c ≠ [])
    (h5 : ∀ l c, (l, c) ∈ n.edges → WfUnder (q ++ n.pfx) c) :
    WfUnder q n := by
  cases n with
  | mk lf pfx es =>
    exact WfUnder.mk q lf pfx es (by simpa using h1) (by simpa using h2)
      (by simpa using h3) (by simpa using h4) (by simpa using h5)

/-- Well-formedness can be re-rooted along a split of the prefix. -/
theorem wfUnder_shift {q p1 p2 : Key} {lf : Option (Key × V)} {es : List (Nat × Node V)} :
    WfUnder q (Node.mk lf (p1 ++ p2) es) ↔ WfUnder (q ++ p1) (Node.mk lf p2 es) := by
  constructor
  · intro h
    cases h with
    | mk _ _ _ _ h1 h2 h3 h4 h5 =>
      refine WfUnder.mk _ _ _ _ ?_ h2 h3 h4 ?_
      · intro kk vv hkk
        rw [h1 kk vv hkk, List.append_assoc]
      · intro l c hmem
        have hc := h5 l c hmem
        rwa [← List.append_assoc] at hc
  · intro h
    cases h with
    | mk _ _ _ _ h1 h2 h3 h4 h5 =>
      refine WfUnder.mk _ _ _ _ ?_ h2 h3 h4 ?_
      · intro kk vv hkk
        rw [h1 kk vv hkk, List.append_assoc]
      · intro l c hmem
        have hc := h5 l c hmem
        rwa [List.append_assoc] at hc

/-- Membership in the walk of an edge list. -/
theorem mem_leavesL {kv : Key × V} {es : List (Nat × Node V)} :
    kv ∈ leavesL es ↔ ∃ l c, (l, c) ∈ es ∧ kv ∈ leaves c := by
  induction es with
  | nil => simp
  | cons e rest ih =>
    simp only [leavesL_cons, List.mem_append, ih]
    constructor
    · rintro (h | ⟨l, c, hmem, hkv⟩)
      · exact ⟨e.1, e.2, List.mem_cons_self _ _, h⟩
      · exact ⟨l, c, List.mem_cons_of_mem _ hmem, hkv⟩
    · rintro ⟨l, c, hmem, hkv⟩
      rcases List.mem_cons.mp hmem with heq | hmem'
      · left
        have : e.2 = c := by rw [← heq]
        rwa [this]
      · right
        exact ⟨l, c, hmem', hkv⟩

/-- Every key in a well-formed subtree extends the subtree's full path. -/
theorem leaves_keyPrefix {n : Node V} :
    ∀ q, WfUnder q n → ∀ kv ∈ leaves n, (q ++ n.pfx) <+: kv.1 := by
  induction n using node_ind with
  | _ n IH =>
    intro q hwf kv hkv
    cases n with
    | mk lf p es =>
      simp only [leaves_mk, List.mem_append] at hkv
      rcases hkv with hlf | hes
      · cases lf with
        | none => simp at hlf
        | some x =>
          simp only [Option.toList_some, List.mem_singleton] at hlf
          subst hlf
          have hkey := hwf.leafKey kv.1 kv.2 (by simp)
          simp only [Node.pfx_mk] at hkey ⊢
          rw [hkey]
      · obtain ⟨l, c, hmem, hkv'⟩ := mem_leavesL.mp hes
        have hwfc := hwf.childWf l c (by simpa using hmem)
        have := IH l c (by simpa using hmem) (q ++ p) hwfc kv hkv'
        simp only [Node.pfx_mk] at this ⊢
        calc (q ++ p) <+: (q ++ p) ++ c.pfx := List.prefix_append _ _
        _ <+: kv.1 := this

/-- Descending through an edge consumes the child's whole prefix. -/
theorem get_descend {n : Node V} {l : Nat} {c : Node V}
    (hs : edgesSorted n.edges) (hmem : (l, c) ∈ n.edges) (hhead : c.pfx.head? = some l)
    (s' : Key) : get n (c.pfx ++ s') = get c s' := by
  obtain ⟨i, hi⟩ := getEdge_some_of_mem hs hmem
  cases hpfx : c.pfx with
  | nil => rw [hpfx] at hhead; simp at hhead
  | cons pb ptl =>
    have hl : pb = l := by rw [hpfx] at hhead; simpa using hhead
    subst hl
    have hsplit : (c.pfx ++ s' : Key) = pb :: (ptl ++ s') := by rw [hpfx]; rfl
    have hpre : c.pfx.isPrefixOf (pb :: (ptl ++ s')) = true := by
      rw [← hsplit]
      exact List.isPrefixOf_iff_prefix.mpr (List.prefix_append _ _)
    have hdrop : (pb :: (ptl ++ s')).drop c.pfx.length = s' := by
      rw [← hsplit]
      exact List.drop_left _ _
    rw [List.cons_append, get_cons_some hi, if_pos hpre, hdrop]

/-- Characterization of lookup through the leaf listing: a pair is walked
exactly when lookup at the corresponding search suffix returns its value. -/
theorem mem_leaves_get {n : Node V} :
    ∀ q, WfUnder q n → ∀ (K : Key) (w : V),
      ((K, w) ∈ leaves n ↔ ∃ s, K = (q ++ n.pfx) ++ s ∧ get n s = some w) := by
  induction n using node_ind with
  | _ n IH =>
    intro q hwf K w
    cases n with
    | mk lf p es =>
      simp only [Node.pfx_mk]
      constructor
      · intro hmem
        simp only [leaves_mk, List.mem_append] at hmem
        rcases hmem with hlf | hes
        · cases lf with
          | none => simp at hlf
          | some x =>
            simp only [Option.toList_some, List.mem_singleton] at hlf
            refine ⟨[], ?_, ?_⟩
            · rw [List.append_nil]
              have := hwf.leafKey K w (by simp [← hlf])
              simpa using this
            · simp [← hlf]
        · obtain ⟨l, c, hmemc, hkv⟩ := mem_leavesL.mp hes
          have hwfc := hwf.childWf l c (by simpa using hmemc)
          have hhead := hwf.childHead l c (by simpa using hmemc)
          obtain ⟨s', hK, hget⟩ := ((IH l c (by simpa using hmemc)) (q ++ p) hwfc K w).mp hkv
          refine ⟨c.pfx ++ s', ?_, ?_⟩
          · rw [hK]
            simp only [Node.pfx_mk] at *
            rw [List.append_assoc]
          · rw [show get (Node.mk lf p es) (c.pfx ++ s') = get c s' from
              get_descend (by simpa using hwf.sortedEdges) (by simpa using hmemc) hhead s']
            exact hget
      · rintro ⟨s, rfl, hget⟩
        cases s with
        | nil =>
          cases hlf : lf with
          | none => rw [hlf] at hget; simp at hget
          | some x =>
            rw [hlf] at hget
            simp only [get_nil, Node.leaf_mk, Option.map_some'] at hget
            injection hget with hw
            have hkey := hwf.leafKey x.1 x.2 (by simp [hlf])
            simp only [leaves_mk, hlf, List.mem_append, Option.toList_some, List.mem_singleton]
            left
            simp only [Node.pfx_mk] at hkey
            rw [List.append_nil, ← hkey, ← hw]
        | cons b rest =>
          cases hE : getEdge b (Node.mk lf p es).edges with
          | none => rw [get_cons_none hE] at hget; cases hget
          | some ic =>
            obtain ⟨i, child⟩ := ic
            rw [get_cons_some hE] at hget
            by_cases hpre : child.pfx.isPrefixOf (b :: rest) = true
            · rw [if_pos hpre] at hget
              have hmemc : (b, child) ∈ es := by simpa using getEdge_mem hE
              have hwfc := hwf.childWf b child (by simpa using hmemc)
              obtain ⟨t, ht⟩ := List.isPrefixOf_iff_prefix.mp hpre
              have hdrop : (b :: rest).drop child.pfx.length = t := by
                rw [← ht]; exact List.drop_left _ _
              rw [hdrop] at hget
              have := ((IH b child (by simpa using hmemc)) (q ++ p) hwfc
                        ((q ++ p) ++ (b :: rest)) w).mpr
                ⟨t, by rw [← ht]; simp [List.append_assoc], hget⟩
              simp only [leaves_mk, List.mem_append]
              right
              exact mem_leavesL.mpr ⟨b, child, hmemc, this⟩
            · rw [if_neg hpre] at hget; cases hget

/-- Comparison of walked pairs by their keys. -/
def pairKeyLt (x y : Key × V) : Prop := keyLt x.1 y.1 = true

/-- Auxiliary: the walk of a sorted edge list is sorted, given that each
child's keys start with the child's label after the common path and each
child's walk is sorted. -/
theorem pairwise_leavesL {base : Key} {es : List (Nat × Node V)}
    (hsort : edgesSorted es)
    (hshape : ∀ l c, (l, c) ∈ es → ∀ kv ∈ leaves c, ∃ t, kv.1 = base ++ l :: t)
    (hrec : ∀ l c, (l, c) ∈ es → List.Pairwise (pairKeyLt (V := V)) (leaves c)) :
    List.Pairwise (pairKeyLt (V := V)) (leavesL es) := by
  induction es with
  | nil => simp
  | cons e rest ih =>
    obtain ⟨l, c⟩ := e
    obtain ⟨hlt, hrest⟩ := edgesSorted_cons hsort
    simp only [leavesL_cons]
    apply List.pairwise_append.mpr
    refine ⟨hrec l c (List.mem_cons_self _ _), ?_, ?_⟩
    · exact ih hrest
        (fun l' c' hm => hshape l' c' (List.mem_cons_of_mem _ hm))
        (fun l' c' hm => hrec l' c' (List.mem_cons_of_mem _ hm))
    · intro x hx y hy
      obtain ⟨l2, c2, hm2, hy2⟩ := mem_leavesL.mp hy
      obtain ⟨t1, ht1⟩ := hshape l c (List.mem_cons_self _ _) x hx
      obtain ⟨t2, ht2⟩ := hshape l2 c2 (List.mem_cons_of_mem _ hm2) y hy2
      have hll : l < l2 := hlt _ hm2
      unfold pairKeyLt
      rw [ht1, ht2]
      exact keyLt_append_head _ _ _ hll

/-- The walk of a well-formed subtree lists keys in strictly increasing
lexicographic order. -/
theorem sorted_leaves {n : Node V} :
    ∀ q, WfUnder q n → List.Pairwise (pairKeyLt (V := V)) (leaves n) := by
  induction n using node_ind with
  | _ n IH =>
    intro q hwf
    cases n with
    | mk lf p es =>
      simp only [leaves_mk]
      apply List.pairwise_append.mpr
      have hshape : ∀ l c, (l, c) ∈ es → ∀ kv ∈ leaves c, ∃ t, kv.1 = (q ++ p) ++ l :: t := by
        intro l c hm kv hkv
        have hhead := hwf.childHead l c (by simpa using hm)
        have hwfc := hwf.childWf l c (by simpa using hm)
        have hpref := leaves_keyPrefix (q ++ p) (by simpa using hwfc) kv hkv
        cases hpfx : c.pfx with
        | nil => rw [hpfx] at hhead; cases hhead
        | cons pb ptl =>
          have hl : pb = l := by rw [hpfx] at hhead; simpa using hhead
          obtain ⟨t, ht⟩ := hpref
          refine ⟨ptl ++ t, ?_⟩
          rw [← ht, hpfx, hl]
          simp
      refine ⟨?_, ?_, ?_⟩
      · cases lf with
        | none => exact List.Pairwise.nil
        | some x => exact List.pairwise_singleton _ _
      · exact pairwise_leavesL (by simpa using hwf.sortedEdges) hshape
          (fun l c hm => IH l c (by simpa using hm) (q ++ p) (hwf.childWf l c (by simpa using hm)))
      · intro x hx y hy
        cases lf with
        | none => simp at hx
        | some z =>
          simp only [Option.toList_some, List.mem_singleton] at hx
          obtain ⟨l, c, hm, hyc⟩ := mem_leavesL.mp hy
          obtain ⟨t, ht⟩ := hshape l c hm y hyc
          have hkey := hwf.leafKey x.1 x.2 (by simp [← hx])
          unfold pairKeyLt
          simp only [Node.pfx_mk] at hkey
          rw [hkey, ht]
          exact keyLt_self_append _ (by simp)

/-! ### Properties of longestPrefix -/

theorem longestPrefix_le_left : ∀ s t : Key, longestPrefix s t ≤ s.length := by
  intro s
  induction s with
  | nil => intro t; cases t <;> simp [longestPrefix]
  | cons a as ih =>
    intro t
    cases t with
    | nil => simp [longestPrefix]
    | cons b bs =>
      rw [longestPrefix]
      by_cases hab : a = b
      · rw [if_pos hab]
        simp only [List.length_cons]
        have := ih bs
        omega
      · rw [if_neg hab]
        omega

theorem longestPrefix_le_right : ∀ s t : Key, longestPrefix s t ≤ t.length := by
  intro s
  induction s with
  | nil => intro t; cases t <;> simp [longestPrefix]
  | cons a as ih =>
    intro t
    cases t with
    | nil => simp [longestPrefix]
    | cons b bs =>
      rw [longestPrefix]
      by_cases hab : a = b
      · rw [if_pos hab]
        simp only [List.length_cons]
        have := ih bs
        omega
      · rw [if_neg hab]
        omega

/-- Both keys agree on the longest common prefix. -/
theorem longestPrefix_take_eq : ∀ s t : Key,
    s.take (longestPrefix s t) = t.take (longestPrefix s t) := by
  intro s
  induction s with
  | nil => intro t; cases t <;> simp [longestPrefix]
  | cons a as ih =>
    intro t
    cases t with
    | nil => simp [longestPrefix]
    | cons b bs =>
      rw [longestPrefix]
      by_cases hab : a = b
      · rw [if_pos hab, hab]
        simp [ih bs]
      · rw [if_neg hab]
        simp

theorem longestPrefix_ofPrefix : ∀ {s t : Key}, t <+: s → longestPrefix s t = t.length := by
  intro s
  induction s with
  | nil =>
    intro t h
    rw [List.prefix_nil.mp h]
    rfl
  | cons a as ih =>
    intro t h
    cases t with
    | nil => rfl
    | cons b bs =>
      obtain ⟨r, hr⟩ := h
      injection hr with h1 h2
      subst h1
      rw [longestPrefix, if_pos rfl, ih ⟨r, h2⟩]
      rfl

theorem prefix_of_longestPrefix_eq : ∀ {s t : Key},
    longestPrefix s t = t.length → t <+: s := by
  intro s
  induction s with
  | nil =>
    intro t h
    cases t with
    | nil => exact List.prefix_refl _
    | cons b bs => simp [longestPrefix] at h
  | cons a as ih =>
    intro t h
    cases t with
    | nil => exact List.nil_prefix
    | cons b bs =>
      rw [longestPrefix] at h
      by_cases hab : a = b
      · rw [if_pos hab] at h
        subst hab
        simp only [List.length_cons] at h
        have hpre := ih (t := bs) (by omega)
        exact (List.prefix_cons_inj _).mpr hpre
      · rw [if_neg hab] at h
        simp only [List.length_cons] at h
        omega

/-- The bytes right after the longest common prefix differ. -/
theorem longestPrefix_getD_ne : ∀ {s t : Key},
    longestPrefix s t < s.length → longestPrefix s t < t.length →
    s.getD (longestPrefix s t) 0 ≠ t.getD (longestPrefix s t) 0 := by
  intro s
  induction s with
  | nil => intro t h1 h2; simp at h1
  | cons a as ih =>
    intro t h1 h2
    cases t with
    | nil => simp at h2
    | cons b bs =>
      rw [longestPrefix] at h1 h2 ⊢
      by_cases hab : a = b
      · rw [if_pos hab] at h1 h2 ⊢
        simp only [List.length_cons] at h1 h2
        simpa using ih (by omega) (by omega)
      · rw [if_neg hab] at h1 h2 ⊢
        simpa using hab

/-- The recursive insertion never reaches the "replacing missing edge"
fatal path: its only caller, the split case, looks up the same label that
getEdge just found. -/
theorem insert_isSome (n : Node V) : ∀ (k s : Key) (v : V), (insert n k s v).isSome := by
  induction n using node_ind with
  | _ n IH =>
    intro k s v
    cases s with
    | nil => simp
    | cons b rest =>
      cases hE : getEdge b n.edges with
      | none => rw [insert_cons_none k v hE]; rfl
      | some ic =>
        obtain ⟨idx, child⟩ := ic
        by_cases hcp : longestPrefix (b :: rest) child.pfx = child.pfx.length
        · rw [insert_cons_descend k v hE hcp]
          have hmem : (b, child) ∈ n.edges := getEdge_mem hE
          have hsome := IH b child hmem k ((b :: rest).drop (longestPrefix (b :: rest) child.pfx)) v
          cases hrec : insert child k ((b :: rest).drop (longestPrefix (b :: rest) child.pfx)) v with
          | none => rw [hrec] at hsome; cases hsome
          | some r =>
            obtain ⟨newChild, old, upd⟩ := r
            rfl
        · rw [insert_cons_split k v hE hcp]
          dsimp only
          rw [replaceEdge_of_getEdge hE]
          rfl

/-! ### Key and child-shape helpers -/

/-- A proper extension differs from the base key. -/
theorem append_ne_self {x t : Key} (h : t ≠ []) : x ++ t ≠ x := by
  intro he
  have hlen := congrArg List.length he
  simp only [List.length_append] at hlen
  have : t.length = 0 := by omega
  exact h (List.length_eq_zero.mp this)

theorem append_cons_inj {x t t' : Key} {a b : Nat} (h : x ++ a :: t = x ++ b :: t') :
    a = b := by
  have h2 := List.append_cancel_left h
  injection h2

theorem head?_drop_getD : ∀ {l : Key} {i : Nat}, i < l.length →
    (l.drop i).head? = some (l.getD i 0) := by
  intro l
  induction l with
  | nil => intro i h; simp at h
  | cons a as ih =>
    intro i h
    cases i with
    | zero => simp
    | succ j =>
      simp only [List.drop_succ_cons, List.getD_cons_succ]
      exact ih (by simpa using h)

/-- The child at a label of a sorted edge list is unique. -/
theorem mem_label_unique {es : List (Nat × α)} (hs : edgesSorted es) {b : Nat} {c1 c2 : α}
    (h1 : (b, c1) ∈ es) (h2 : (b, c2) ∈ es) : c1 = c2 := by
  obtain ⟨i1, hi1⟩ := getEdge_some_of_mem hs h1
  obtain ⟨i2, hi2⟩ := getEdge_some_of_mem hs h2
  rw [hi1] at hi2
  simp only [Option.some.injEq, Prod.mk.injEq] at hi2
  exact hi2.2

/-- Keys walked under a child of a well-formed node start with the node's
full path followed by the child's label. -/
theorem child_key_shape {q : Key} {n : Node V} (hwf : WfUnder q n) {l : Nat} {c : Node V}
    (hm : (l, c) ∈ n.edges) : ∀ K w, (K, w) ∈ leaves c →
      ∃ t, K = (q ++ n.pfx) ++ (l :: t) := by
  intro K w hkv
  have hhead := hwf.childHead l c hm
  have hwfc := hwf.childWf l c hm
  have hpre := leaves_keyPrefix (q ++ n.pfx) hwfc (K, w) hkv
  cases hpfx : c.pfx with
  | nil => rw [hpfx] at hhead; cases hhead
  | cons pb ptl =>
    have hl : pb = l := by rw [hpfx] at hhead; simpa using hhead
    obtain ⟨t, ht⟩ := hpre
    have ht' : (q ++ n.pfx) ++ c.pfx ++ t = K := ht
    refine ⟨ptl ++ t, ?_⟩
    rw [← ht', hpfx, hl]
    simp

/-- Walked pairs of an edge list with an added edge. -/
theorem mem_leavesL_addEdge {e : Nat × Node V} {es : List (Nat × Node V)} {kv : Key × V} :
    kv ∈ leavesL (addEdge e es) ↔ kv ∈ leaves e.2 ∨ kv ∈ leavesL es := by
  constructor
  · intro h
    obtain ⟨l, c, hm, hkv⟩ := mem_leavesL.mp h
    rcases addEdge_mem.mp hm with heq | hmem
    · left
      have : e.2 = c := by rw [← heq]
      rwa [this]
    · right
      exact mem_leavesL.mpr ⟨l, c, hmem, hkv⟩
  · intro h
    rcases h with h | h
    · exact mem_leavesL.mpr ⟨e.1, e.2, addEdge_mem.mpr (Or.inl rfl), h⟩
    · obtain ⟨l, c, hm, hkv⟩ := mem_leavesL.mp h
      exact mem_leavesL.mpr ⟨l, c, addEdge_mem.mpr (Or.inr hm), hkv⟩

/-- Walked pairs of an edge list with the child at a label replaced. -/
theorem mem_leavesL_setEdge {es : List (Nat × Node V)} {b idx : Nat} {child : Node V}
    (hs : edgesSorted es) (hE : getEdge b es = some (idx, child)) (nc : Node V)
    (kv : Key × V) :
    kv ∈ leavesL (setEdgeNode es idx nc) ↔
      kv ∈ leaves nc ∨ ∃ l c, (l, c) ∈ es ∧ l ≠ b ∧ kv ∈ leaves c := by
  constructor
  · intro h
    obtain ⟨l, c, hm, hkv⟩ := mem_leavesL.mp h
    rcases (setEdgeNode_mem hs hE nc (l, c)).mp hm with heq | ⟨hmem, hne⟩
    · left
      have hcn : c = nc := by
        injection heq with e1 e2
      rwa [← hcn]
    · right
      exact ⟨l, c, hmem, by simpa using hne, hkv⟩
  · intro h
    rcases h with h | ⟨l, c, hm, hne, hkv⟩
    · exact mem_leavesL.mpr ⟨b, nc, (setEdgeNode_mem hs hE nc (b, nc)).mpr (Or.inl rfl), h⟩
    · exact mem_leavesL.mpr ⟨l, c, (setEdgeNode_mem hs hE nc (l, c)).mpr
        (Or.inr ⟨hm, by simpa using hne⟩), hkv⟩

/-- The walk of any node, through its components. -/
theorem leaves_eta (n : Node V) : leaves n = n.leaf.toList ++ leavesL n.edges := by
  cases n with
  | mk lf p es => simp

/-- The leaf of a well-formed node never stores the key of a strictly longer
search, and pairs walked from it differ from such keys. -/
theorem leaf_key_ne {q : Key} {n : Node V} (hwf : WfUnder q n) {k : Key}
    {b : Nat} {rest : Key} (hk : k = (q ++ n.pfx) ++ (b :: rest)) :
    ∀ K w, (K, w) ∈ n.leaf.toList → K ≠ k := by
  intro K w hmem hKk
  have hopt : n.leaf = some (K, w) := by
    cases hl : n.leaf with
    | none => rw [hl] at hmem; simp at hmem
    | some x =>
      rw [hl] at hmem
      simp only [Option.toList_some, List.mem_singleton] at hmem
      exact congrArg some hmem.symm
  have hkey := hwf.leafKey K w hopt
  rw [hKk, hk] at hkey
  exact append_ne_self (by simp) hkey

/-- Common assembly for the two insert cases that replace the child found at
a label: if the replacement subtree is well-formed, keeps the label as the
head of its prefix, and walks exactly the child's pairs with the inserted
key replaced, then the updated node is well-formed and walks exactly the
original pairs with the inserted key replaced. -/
theorem insert_child_replace {q : Key} {n : Node V} (hwf : WfUnder q n) {b idx : Nat}
    {child : Node V} (hE : getEdge b n.edges = some (idx, child))
    {k : Key} {v : V} {rest : Key} (hk : k = (q ++ n.pfx) ++ (b :: rest))
    (sn : Node V)
    (hsnwf : WfUnder (q ++ n.pfx) sn)
    (hsnhead : sn.pfx.head? = some b)
    (hsnmem : ∀ K w, ((K, w) ∈ leaves sn ↔ ((K, w) = (k, v) ∨ ((K, w) ∈ leaves child ∧ K ≠ k)))) :
    WfUnder q (Node.mk n.leaf n.pfx (setEdgeNode n.edges idx sn)) ∧
    (∀ K w, ((K, w) ∈ leaves (Node.mk n.leaf n.pfx (setEdgeNode n.edges idx sn)) ↔
      ((K, w) = (k, v) ∨ ((K, w) ∈ leaves n ∧ K ≠ k)))) := by
  have hsorted := hwf.sortedEdges
  have hmem : (b, child) ∈ n.edges := getEdge_mem hE
  have hsn_ne : leaves sn ≠ [] :=
    List.ne_nil_of_mem ((hsnmem k v).mpr (Or.inl rfl))
  constructor
  · apply WfUnder.ofParts
    · intro kk vv hkk
      simp only [Node.leaf_mk] at hkk
      have := hwf.leafKey kk vv hkk
      simpa using this
    · simpa using setEdgeNode_sorted hsorted idx sn
    · intro l c hmc
      simp only [Node.edges_mk] at hmc
      rcases (setEdgeNode_mem hsorted hE sn (l, c)).mp hmc with heq | ⟨hmemc, hne⟩
      · injection heq with e1 e2
        subst e1; subst e2
        exact hsnhead
      · exact hwf.childHead l c hmemc
    · intro l c hmc
      simp only [Node.edges_mk] at hmc
      rcases (setEdgeNode_mem hsorted hE sn (l, c)).mp hmc with heq | ⟨hmemc, hne⟩
      · injection heq with e1 e2
        subst e1; subst e2
        exact hsn_ne
      · exact hwf.childNonempty l c hmemc
    · intro l c hmc
      simp only [Node.edges_mk] at hmc
      rcases (setEdgeNode_mem hsorted hE sn (l, c)).mp hmc with heq | ⟨hmemc, hne⟩
      · injection heq with e1 e2
        subst e1; subst e2
        simpa using hsnwf
      · have := hwf.childWf l c hmemc
        simpa using this
  · intro K w
    have hlfne := leaf_key_ne hwf hk
    rw [leaves_mk, List.mem_append,
        mem_leavesL_setEdge hsorted hE sn (K, w), leaves_eta n, List.mem_append]
    constructor
    · rintro (hlf | (hsn | ⟨l, c, hmc, hlb, hkv⟩))
      · exact Or.inr ⟨Or.inl hlf, hlfne K w hlf⟩
      · rcases (hsnmem K w).mp hsn with heq | ⟨hc, hne⟩
        · exact Or.inl heq
        · exact Or.inr ⟨Or.inr (mem_leavesL.mpr ⟨b, child, hmem, hc⟩), hne⟩
      · refine Or.inr ⟨Or.inr (mem_leavesL.mpr ⟨l, c, hmc, hkv⟩), ?_⟩
        obtain ⟨t, ht⟩ := child_key_shape hwf hmc K w hkv
        intro hKk
        rw [hKk, hk] at ht
        exact hlb (append_cons_inj ht.symm)
    · rintro (heq | ⟨hlf | hes, hne⟩)
      · exact Or.inr (Or.inl ((hsnmem K w).mpr (Or.inl heq)))
      · exact Or.inl hlf
      · obtain ⟨l, c, hmc, hkv⟩ := mem_leavesL.mp hes
        by_cases hlb : l = b
        · subst hlb
          have hcc : c = child := mem_label_unique hsorted hmc hmem
          subst hcc
          exact Or.inr (Or.inl ((hsnmem K w).mpr (Or.inr ⟨hkv, hne⟩)))
        · exact Or.inr (Or.inr ⟨l, c, hmc, hlb, hkv⟩)

/-- Full characterization of the recursive insertion on well-formed subtrees:
it succeeds, keeps the node's prefix, preserves well-formedness, walks
exactly the old pairs with the inserted key replaced by the new value, and
reports the previously stored value together with the update flag. -/
theorem insert_spec {n : Node V} :
    ∀ (q s k : Key) (v : V), WfUnder q n → k = (q ++ n.pfx) ++ s →
      ∃ r old upd, insert n k s v = some (r, old, upd) ∧
        r.pfx = n.pfx ∧ WfUnder q r ∧
        (∀ K w, ((K, w) ∈ leaves r ↔ ((K, w) = (k, v) ∨ ((K, w) ∈ leaves n ∧ K ≠ k)))) ∧
        old = get n s ∧ upd = (get n s).isSome := by
  induction n using node_ind with
  | _ n IH =>
    intro q s k v hwf hk
    cases s with
    | nil =>
      rw [List.append_nil] at hk
      refine ⟨Node.mk (some (k, v)) n.pfx n.edges, n.leaf.map Prod.snd, n.leaf.isSome,
        by simp, by simp, ?_, ?_, by simp, by simp⟩
      · apply WfUnder.ofParts
        · intro kk vv hkk
          simp only [Node.leaf_mk, Option.some.injEq, Prod.mk.injEq] at hkk
          rw [← hkk.1, hk]
          simp
        · simpa using hwf.sortedEdges
        · intro l c hmc
          exact hwf.childHead l c (by simpa using hmc)
        · intro l c hmc
          exact hwf.childNonempty l c (by simpa using hmc)
        · intro l c hmc
          have := hwf.childWf l c (by simpa using hmc)
          simpa using this
      · intro K w
        rw [leaves_mk, leaves_eta n]
        simp only [Option.toList_some, List.cons_append, List.nil_append, List.mem_cons,
          List.mem_append]
        constructor
        · rintro (heq | hes)
          · exact Or.inl heq
          · refine Or.inr ⟨Or.inr hes, ?_⟩
            obtain ⟨l, c, hmc, hkv⟩ := mem_leavesL.mp hes
            obtain ⟨t, ht⟩ := child_key_shape hwf hmc K w hkv
            rw [ht, hk]
            exact append_ne_self (by simp)
        · rintro (heq | ⟨hlf | hes, hne⟩)
          · exact Or.inl heq
          · exfalso
            apply hne
            have hopt : n.leaf = some (K, w) := by
              cases hl : n.leaf with
              | none => rw [hl] at hlf; simp at hlf
              | some x =>
                rw [hl] at hlf
                simp only [Option.toList_some, List.mem_singleton] at hlf
                exact congrArg some hlf.symm
            rw [hwf.leafKey K w hopt, hk]
          · exact Or.inr hes
    | cons b rest =>
      cases hE : getEdge b n.edges with
      | none =>
        refine ⟨Node.mk n.leaf n.pfx
            (addEdge (b, Node.mk (some (k, v)) (b :: rest) []) n.edges),
          none, false, insert_cons_none k v hE, by simp, ?_, ?_, ?_, ?_⟩
        · apply WfUnder.ofParts
          · intro kk vv hkk
            simp only [Node.leaf_mk] at hkk
            have := hwf.leafKey kk vv hkk
            simpa using this
          · simp only [Node.edges_mk]
            exact addEdge_sorted hwf.sortedEdges
              (fun y hy => ne_label_of_getEdge_none hwf.sortedEdges hE y hy)
          · intro l c hmc
            simp only [Node.edges_mk] at hmc
            rcases addEdge_mem.mp hmc with heq | hmemc
            · injection heq with e1 e2
              subst e1; subst e2
              simp
            · exact hwf.childHead l c hmemc
          · intro l c hmc
            simp only [Node.edges_mk] at hmc
            rcases addEdge_mem.mp hmc with heq | hmemc
            · injection heq with e1 e2
              subst e1; subst e2
              simp
            · exact hwf.childNonempty l c hmemc
          · intro l c hmc
            simp only [Node.edges_mk] at hmc
            rcases addEdge_mem.mp hmc with heq | hmemc
            · injection heq with e1 e2
              subst e1; subst e2
              apply WfUnder.ofParts
              · intro kk vv hkk
                simp only [Node.leaf_mk, Option.some.injEq, Prod.mk.injEq] at hkk
                rw [← hkk.1, hk]
                simp
              · simp [edgesSorted]
              · intro l' c' hmc'
                simp at hmc'
              · intro l' c' hmc'
                simp at hmc'
              · intro l' c' hmc'
                simp at hmc'
            · have := hwf.childWf l c hmemc
              simpa using this
        · intro K w
          have hlfne := leaf_key_ne hwf hk
          rw [leaves_mk, List.mem_append, mem_leavesL_addEdge, leaves_eta n, List.mem_append]
          simp only [Node.leaf_mk]
          constructor
          · rintro (hlf | (hnew | hes))
            · exact Or.inr ⟨Or.inl hlf, hlfne K w hlf⟩
            · left
              simpa using hnew
            · refine Or.inr ⟨Or.inr hes, ?_⟩
              obtain ⟨l, c, hmc, hkv⟩ := mem_leavesL.mp hes
              obtain ⟨t, ht⟩ := child_key_shape hwf hmc K w hkv
              have hlb : l ≠ b := by
                intro hlB
                exact ne_label_of_getEdge_none hwf.sortedEdges hE (l, c) hmc hlB
              intro hKk
              rw [hKk, hk] at ht
              exact hlb (append_cons_inj ht.symm)
          · rintro (heq | ⟨hlf | hes, hne⟩)
            · right; left
              simpa using heq
            · exact Or.inl hlf
            · right; right
              exact hes
        · rw [get_cons_none hE]
        · rw [get_cons_none hE]
          rfl
      | some ic =>
        obtain ⟨idx, child⟩ := ic
        have hmem : (b, child) ∈ n.edges := getEdge_mem hE
        have hhead := hwf.childHead b child hmem
        have hwfc := hwf.childWf b child hmem
        by_cases hcp : longestPrefix (b :: rest) child.pfx = child.pfx.length
        · -- the child's prefix fully matches: consume and recurse
          have hpre : child.pfx <+: (b :: rest) := prefix_of_longestPrefix_eq hcp
          obtain ⟨t, ht⟩ := hpre
          have hdrop : (b :: rest).drop child.pfx.length = t := by
            rw [← ht]
            exact List.drop_left _ _
          have hk' : k = ((q ++ n.pfx) ++ child.pfx) ++ t := by
            rw [hk, ← ht]
            simp [List.append_assoc]
          obtain ⟨nc, old, upd, hIeq, hIpfx, hIwf, hImem, hIold, hIupd⟩ :=
            IH b child hmem (q ++ n.pfx) t k v hwfc hk'
          have hget : get n (b :: rest) = get child t := by
            rw [← ht]
            exact get_descend hwf.sortedEdges hmem hhead t
          obtain ⟨hwfr, hmemr⟩ := insert_child_replace hwf hE hk nc hIwf
            (by rw [hIpfx]; exact hhead) hImem
          refine ⟨Node.mk n.leaf n.pfx (setEdgeNode n.edges idx nc), old, upd, ?_,
            by simp, hwfr, hmemr, by rw [hget]; exact hIold, by rw [hget]; exact hIupd⟩
          rw [insert_cons_descend k v hE hcp, hcp, hdrop, hIeq]
        · -- partial overlap: split the edge
          have hcplt : longestPrefix (b :: rest) child.pfx < child.pfx.length :=
            lt_of_le_of_ne (longestPrefix_le_right _ _) hcp
          have hcpleft : longestPrefix (b :: rest) child.pfx ≤ (b :: rest).length :=
            longestPrefix_le_left _ _
          have htake_eq : (b :: rest).take (longestPrefix (b :: rest) child.pfx) =
              child.pfx.take (longestPrefix (b :: rest) child.pfx) :=
            longestPrefix_take_eq _ _
          obtain ⟨ctl, hctl⟩ : ∃ ctl, child.pfx = b :: ctl := by
            cases hpfx : child.pfx with
            | nil => rw [hpfx] at hhead; cases hhead
            | cons x xs =>
              rw [hpfx] at hhead
              simp only [List.head?_cons, Option.some.injEq] at hhead
              exact ⟨xs, by rw [hhead]⟩
          have hcp1 : 1 ≤ longestPrefix (b :: rest) child.pfx := by
            rw [hctl, longestPrefix, if_pos rfl]
            omega
          have hsplit_head : ∀ m : Nat, 1 ≤ m → ((b :: rest).take m).head? = some b := by
            intro m hm
            cases m with
            | zero => omega
            | succ m' => simp
          -- the child with the common prefix stripped
          have hmodwf : WfUnder ((q ++ n.pfx) ++
              (b :: rest).take (longestPrefix (b :: rest) child.pfx))
              (Node.mk child.leaf
                (child.pfx.drop (longestPrefix (b :: rest) child.pfx)) child.edges) := by
            rw [htake_eq]
            apply wfUnder_shift.mp
            rw [List.take_append_drop]
            rw [show Node.mk child.leaf child.pfx child.edges = child from Node.eta child]
            exact hwfc
          have hmod_head : ((child.pfx.drop (longestPrefix (b :: rest) child.pfx)).head?) =
              some (child.pfx.getD (longestPrefix (b :: rest) child.pfx) 0) :=
            head?_drop_getD hcplt
          have hmleaves : leaves (Node.mk child.leaf
              (child.pfx.drop (longestPrefix (b :: rest) child.pfx)) child.edges) =
              leaves child := by
            rw [leaves_mk, leaves_eta child]
          have hchild_notpre : child.pfx.isPrefixOf (b :: rest) = false := by
            cases hb : child.pfx.isPrefixOf (b :: rest) with
            | false => rfl
            | true =>
              exact absurd (longestPrefix_ofPrefix (List.isPrefixOf_iff_prefix.mp hb)) hcp
          have hchild_ne : ∀ KK w, (KK, w) ∈ leaves child → KK ≠ k := by
            intro KK w hkv hKk
            obtain ⟨t, ht⟩ := leaves_keyPrefix (q ++ n.pfx) hwfc (KK, w) hkv
            have ht2 : ((q ++ n.pfx) ++ child.pfx) ++ t = KK := ht
            have ht' : (q ++ n.pfx) ++ (child.pfx ++ t) = KK := by
              rw [← List.append_assoc]
              exact ht2
            rw [hKk, hk] at ht'
            have hcancel := List.append_cancel_left ht'
            have hpre : child.pfx <+: (b :: rest) := ⟨t, hcancel⟩
            exact hcp (longestPrefix_ofPrefix hpre)
          have hgetnone : get n (b :: rest) = none := by
            rw [get_cons_some hE, if_neg]
            rw [hchild_notpre]
            simp
          -- case on whether the new key ends at the split node
          cases hdrop : (b :: rest).drop (longestPrefix (b :: rest) child.pfx) with
          | nil =>
            have htake_s : (b :: rest).take (longestPrefix (b :: rest) child.pfx) =
                b :: rest := by
              have : (b :: rest).length ≤ longestPrefix (b :: rest) child.pfx := by
                have := List.drop_eq_nil_iff.mp hdrop
                omega
              exact List.take_of_length_le this
            -- splitNode carries the new leaf and the single child edge
            have hsnwf : WfUnder (q ++ n.pfx)
                (Node.mk (some (k, v))
                  ((b :: rest).take (longestPrefix (b :: rest) child.pfx))
                  (addEdge (child.pfx.getD (longestPrefix (b :: rest) child.pfx) 0,
                    Node.mk child.leaf
                      (child.pfx.drop (longestPrefix (b :: rest) child.pfx)) child.edges)
                    [])) := by
              apply WfUnder.ofParts
              · intro kk vv hkk
                simp only [Node.leaf_mk, Option.some.injEq, Prod.mk.injEq] at hkk
                rw [← hkk.1, hk]
                simp [htake_s]
              · simp only [Node.edges_mk, addEdge]
                exact List.pairwise_singleton _ _
              · intro l c hmc
                simp only [Node.edges_mk, addEdge, List.mem_singleton] at hmc
                injection hmc with e1 e2
                subst e1; subst e2
                simpa using hmod_head
              · intro l c hmc
                simp only [Node.edges_mk, addEdge, List.mem_singleton] at hmc
                injection hmc with e1 e2
                subst e1; subst e2
                rw [hmleaves]
                exact hwf.childNonempty b child hmem
              · intro l c hmc
                simp only [Node.edges_mk, addEdge, List.mem_singleton] at hmc
                injection hmc with e1 e2
                subst e1; subst e2
                simpa using hmodwf
            have hsnmem : ∀ K w,
                ((K, w) ∈ leaves (Node.mk (some (k, v))
                  ((b :: rest).take (longestPrefix (b :: rest) child.pfx))
                  (addEdge (child.pfx.getD (longestPrefix (b :: rest) child.pfx) 0,
                    Node.mk child.leaf
                      (child.pfx.drop (longestPrefix (b :: rest) child.pfx)) child.edges)
                    [])) ↔
                  ((K, w) = (k, v) ∨ ((K, w) ∈ leaves child ∧ K ≠ k))) := by
              intro K w
              rw [leaves_mk]
              simp only [addEdge, Option.toList_some, List.cons_append, List.nil_append,
                List.mem_cons, leavesL_cons, leavesL_nil, List.append_nil]
              rw [hmleaves]
              constructor
              · rintro (heq | hc)
                · exact Or.inl heq
                · exact Or.inr ⟨hc, hchild_ne K w hc⟩
              · rintro (heq | ⟨hc, hne⟩)
                · exact Or.inl heq
                · exact Or.inr hc
            obtain ⟨hwfr, hmemr⟩ := insert_child_replace hwf hE hk _ hsnwf
              (by simpa using hsplit_head _ hcp1) hsnmem
            refine ⟨_, none, false, ?_, by simp, hwfr, hmemr,
              by rw [hgetnone], by rw [hgetnone]; rfl⟩
            rw [insert_cons_split k v hE hcp]
            dsimp only
            rw [hdrop]
            rw [replaceEdge_of_getEdge hE]
          | cons sb srest =>
            have hcplts : longestPrefix (b :: rest) child.pfx < (b :: rest).length := by
              by_contra hcon
              have : (b :: rest).drop (longestPrefix (b :: rest) child.pfx) = [] :=
                List.drop_eq_nil_of_le (by omega)
              rw [this] at hdrop
              cases hdrop
            have hsb : sb = (b :: rest).getD (longestPrefix (b :: rest) child.pfx) 0 := by
              have := head?_drop_getD (l := b :: rest) hcplts
              rw [hdrop] at this
              simpa using this
            have hsb_ne : sb ≠ child.pfx.getD (longestPrefix (b :: rest) child.pfx) 0 := by
              rw [hsb]
              exact longestPrefix_getD_ne hcplts hcplt
            have hksplit : k = ((q ++ n.pfx) ++
                (b :: rest).take (longestPrefix (b :: rest) child.pfx)) ++ (sb :: srest) := by
              rw [hk]
              conv_lhs => rw [show (b :: rest : Key) =
                (b :: rest).take (longestPrefix (b :: rest) child.pfx) ++
                (b :: rest).drop (longestPrefix (b :: rest) child.pfx) from
                (List.take_append_drop _ _).symm]
              rw [hdrop]
              simp [List.append_assoc]
            have hsnwf : WfUnder (q ++ n.pfx)
                (Node.mk none
                  ((b :: rest).take (longestPrefix (b :: rest) child.pfx))
                  (addEdge (sb, Node.mk (some (k, v)) (sb :: srest) [])
                    (addEdge (child.pfx.getD (longestPrefix (b :: rest) child.pfx) 0,
                      Node.mk child.leaf
                        (child.pfx.drop (longestPrefix (b :: rest) child.pfx)) child.edges)
                      []))) := by
              apply WfUnder.ofParts
              · intro kk vv hkk
                simp at hkk
              · simp only [Node.edges_mk]
                apply addEdge_sorted
                · simp only [addEdge]
                  exact List.pairwise_singleton _ _
                · intro y hy
                  simp only [addEdge, List.mem_singleton] at hy
                  rw [hy]
                  simp only
                  exact fun hc => hsb_ne hc.symm
              · intro l c hmc
                simp only [Node.edges_mk] at hmc
                rcases addEdge_mem.mp hmc with heq | hmc'
                · injection heq with e1 e2
                  subst e1; subst e2
                  simp
                · simp only [addEdge, List.mem_singleton] at hmc'
                  injection hmc' with e1 e2
                  subst e1; subst e2
                  simpa using hmod_head
              · intro l c hmc
                simp only [Node.edges_mk] at hmc
                rcases addEdge_mem.mp hmc with heq | hmc'
                · injection heq with e1 e2
                  subst e1; subst e2
                  simp
                · simp only [addEdge, List.mem_singleton] at hmc'
                  injection hmc' with e1 e2
                  subst e1; subst e2
                  rw [hmleaves]
                  exact hwf.childNonempty b child hmem
              · intro l c hmc
                simp only [Node.edges_mk] at hmc
                rcases addEdge_mem.mp hmc with heq | hmc'
                · injection heq with e1 e2
                  subst e1; subst e2
                  apply WfUnder.ofParts
                  · intro kk vv hkk
                    simp only [Node.leaf_mk, Option.some.injEq, Prod.mk.injEq] at hkk
                    rw [← hkk.1, hksplit]
                    simp
                  · simp [edgesSorted]
                  · intro l' c' hmc'
                    simp at hmc'
                  · intro l' c' hmc'
                    simp at hmc'
                  · intro l' c' hmc'
                    simp at hmc'
                · simp only [addEdge, List.mem_singleton] at hmc'
                  injection hmc' with e1 e2
                  subst e1; subst e2
                  simpa using hmodwf
            have hsnmem : ∀ K w,
                ((K, w) ∈ leaves (Node.mk none
                  ((b :: rest).take (longestPrefix (b :: rest) child.pfx))
                  (addEdge (sb, Node.mk (some (k, v)) (sb :: srest) [])
                    (addEdge (child.pfx.getD (longestPrefix (b :: rest) child.pfx) 0,
                      Node.mk child.leaf
                        (child.pfx.drop (longestPrefix (b :: rest) child.pfx)) child.edges)
                      []))) ↔
                  ((K, w) = (k, v) ∨ ((K, w) ∈ leaves child ∧ K ≠ k))) := by
              intro K w
              rw [leaves_mk]
              simp only [Option.toList_none, List.nil_append]
              rw [mem_leavesL_addEdge]
              simp only [addEdge, leavesL_cons, leavesL_nil, List.append_nil, leaves_mk,
                Option.toList_some, List.cons_append, List.nil_append, List.mem_singleton]
              rw [← leaves_eta child]
              constructor
              · rintro (heq | hc)
                · exact Or.inl heq
                · exact Or.inr ⟨hc, hchild_ne K w hc⟩
              · rintro (heq | ⟨hc, hne⟩)
                · exact Or.inl heq
                · exact Or.inr hc
            obtain ⟨hwfr, hmemr⟩ := insert_child_replace hwf hE hk _ hsnwf
              (by simpa using hsplit_head _ hcp1) hsnmem
            refine ⟨_, none, false, ?_, by simp, hwfr, hmemr,
              by rw [hgetnone], by rw [hgetnone]; rfl⟩
            rw [insert_cons_split k v hE hcp]
            dsimp only
            rw [hdrop]
            rw [replaceEdge_of_getEdge hE]

/-! ### Deletion -/

@[simp] theorem mergeChild_cons {lf : Option (Key × V)} {p : Key} {l1 : Nat} {c1 : Node V}
    {rest : List (Nat × Node V)} :
    mergeChild (Node.mk lf p ((l1, c1) :: rest)) =
      Node.mk c1.leaf (p ++ c1.pfx) c1.edges := by
  rw [mergeChild]
  simp

/-- The head of a list survives extension. -/
theorem head?_ofPrefix {p1 p2 : Key} {x : Nat} (h : p1 <+: p2)
    (hh : p1.head? = some x) : p2.head? = some x := by
  obtain ⟨t, rfl⟩ := h
  cases p1 with
  | nil => simp at hh
  | cons a as => simpa using hh

/-- A well-formed node with a leaf or an edge has a non-empty walk. -/
theorem leaves_ne_nil_of_wf {q : Key} {m : Node V} (hwf : WfUnder q m)
    (h : ¬(m.leaf = none ∧ m.edges = [])) : leaves m ≠ [] := by
  rw [leaves_eta]
  intro hc
  rcases List.append_eq_nil.mp hc with ⟨h1, h2⟩
  apply h
  constructor
  · cases hl : m.leaf with
    | none => rfl
    | some x => rw [hl] at h1; simp at h1
  · cases he : m.edges with
    | nil => rfl
    | cons e es =>
      rw [he] at h2
      simp only [leavesL_cons, List.append_eq_nil] at h2
      have hccne := hwf.childNonempty e.1 e.2 (by rw [he]; exact List.mem_cons_self _ _)
      exact absurd h2.1 hccne

/-- Merging the sole child of a prefix re-roots well-formedness. -/
theorem merged_wf {q p : Key} {c1 : Node V} (hwfc : WfUnder (q ++ p) c1) :
    WfUnder q (Node.mk c1.leaf (p ++ c1.pfx) c1.edges) := by
  apply wfUnder_shift.mpr
  rw [show Node.mk c1.leaf c1.pfx c1.edges = c1 from Node.eta c1]
  exact hwfc

/-- Common assembly for the delete case that replaces the child found at a
label by a pruned subtree. -/
theorem delete_child_replace {q : Key} {n : Node V} (hwf : WfUnder q n) {b idx : Nat}
    {child : Node V} (hE : getEdge b n.edges = some (idx, child))
    {kfull : Key} {rest : Key} (hkf : kfull = (q ++ n.pfx) ++ (b :: rest))
    (sn : Node V)
    (hsnwf : WfUnder (q ++ n.pfx) sn)
    (hsnhead : sn.pfx.head? = some b)
    (hsnne : leaves sn ≠ [])
    (hsnmem : ∀ K w, ((K, w) ∈ leaves sn ↔ ((K, w) ∈ leaves child ∧ K ≠ kfull))) :
    WfUnder q (Node.mk n.leaf n.pfx (setEdgeNode n.edges idx sn)) ∧
    (∀ K w, ((K, w) ∈ leaves (Node.mk n.leaf n.pfx (setEdgeNode n.edges idx sn)) ↔
      ((K, w) ∈ leaves n ∧ K ≠ kfull))) := by
  have hsorted := hwf.sortedEdges
  have hmem : (b, child) ∈ n.edges := getEdge_mem hE
  constructor
  · apply WfUnder.ofParts
    · intro kk vv hkk
      simp only [Node.leaf_mk] at hkk
      have := hwf.leafKey kk vv hkk
      simpa using this
    · simpa using setEdgeNode_sorted hsorted idx sn
    · intro l c hmc
      simp only [Node.edges_mk] at hmc
      rcases (setEdgeNode_mem hsorted hE sn (l, c)).mp hmc with heq | ⟨hmemc, hne⟩
      · injection heq with e1 e2
        subst e1; subst e2
        exact hsnhead
      · exact hwf.childHead l c hmemc
    · intro l c hmc
      simp only [Node.edges_mk] at hmc
      rcases (setEdgeNode_mem hsorted hE sn (l, c)).mp hmc with heq | ⟨hmemc, hne⟩
      · injection heq with e1 e2
        subst e1; subst e2
        exact hsnne
      · exact hwf.childNonempty l c hmemc
    · intro l c hmc
      simp only [Node.edges_mk] at hmc
      rcases (setEdgeNode_mem hsorted hE sn (l, c)).mp hmc with heq | ⟨hmemc, hne⟩
      · injection heq with e1 e2
        subst e1; subst e2
        simpa using hsnwf
      · have := hwf.childWf l c hmemc
        simpa using this
  · intro K w
    have hlfne := leaf_key_ne hwf hkf
    rw [leaves_mk, List.mem_append,
        mem_leavesL_setEdge hsorted hE sn (K, w), leaves_eta n, List.mem_append]
    constructor
    · rintro (hlf | (hsn | ⟨l, c, hmc, hlb, hkv⟩))
      · exact ⟨Or.inl hlf, hlfne K w hlf⟩
      · obtain ⟨hc, hne⟩ := (hsnmem K w).mp hsn
        exact ⟨Or.inr (mem_leavesL.mpr ⟨b, child, hmem, hc⟩), hne⟩
      · refine ⟨Or.inr (mem_leavesL.mpr ⟨l, c, hmc, hkv⟩), ?_⟩
        obtain ⟨t, ht⟩ := child_key_shape hwf hmc K w hkv
        intro hKk
        rw [hKk, hkf] at ht
        exact hlb (append_cons_inj ht.symm)
    · rintro ⟨hlf | hes, hne⟩
      · exact Or.inl hlf
      · obtain ⟨l, c, hmc, hkv⟩ := mem_leavesL.mp hes
        by_cases hlb : l = b
        · subst hlb
          have hcc : c = child := mem_label_unique hsorted hmc hmem
          subst hcc
          exact Or.inr (Or.inl ((hsnmem K w).mpr ⟨hkv, hne⟩))
        · exact Or.inr (Or.inr ⟨l, c, hmc, hlb, hkv⟩)

/-- Full characterization of the recursive deletion on well-formed subtrees:
it fails exactly when lookup fails; on success it returns the removed leaf
(the full key with the stored value), extends the node prefix only through
merging (and only on non-roots), preserves well-formedness, and walks
exactly the old pairs minus the removed key. -/
theorem delete_spec {n : Node V} :
    ∀ (q s : Key) (isRoot : Bool), WfUnder q n →
      ((delete isRoot n s = none ↔ get n s = none) ∧
       ∀ r lf, delete isRoot n s = some (r, lf) →
         (lf.1 = (q ++ n.pfx) ++ s ∧ get n s = some lf.2 ∧
          n.pfx <+: r.pfx ∧ (isRoot = true → r.pfx = n.pfx) ∧ WfUnder q r ∧
          (∀ K w, ((K, w) ∈ leaves r ↔
            ((K, w) ∈ leaves n ∧ K ≠ (q ++ n.pfx) ++ s))))) := by
  induction n using node_ind with
  | _ n IH =>
    intro q s isRoot hwf
    cases s with
    | nil =>
      cases hlf : n.leaf with
      | none =>
        constructor
        · rw [delete_nil_none isRoot hlf]
          simp [hlf]
        · intro r lf hr
          rw [delete_nil_none isRoot hlf] at hr
          cases hr
      | some lf0 =>
        constructor
        · rw [delete_nil_some isRoot hlf]
          simp [hlf]
        · intro r lf hr
          rw [delete_nil_some isRoot hlf] at hr
          injection hr with hr
          injection hr with hr1 hr2
          obtain rfl : lf0 = lf := hr2
          have hkey := hwf.leafKey lf0.1 lf0.2
            (by simp [hlf])
          have hmemtarget : ∀ K w, ((K, w) ∈ leavesL n.edges ↔
              ((K, w) ∈ leaves n ∧ K ≠ (q ++ n.pfx) ++ [])) := by
            intro K w
            rw [List.append_nil, leaves_eta n, List.mem_append]
            constructor
            · intro hes
              refine ⟨Or.inr hes, ?_⟩
              obtain ⟨l, c, hmc, hkv⟩ := mem_leavesL.mp hes
              obtain ⟨t, ht⟩ := child_key_shape hwf hmc K w hkv
              rw [ht]
              exact append_ne_self (by simp)
            · rintro ⟨hlfm | hes, hne⟩
              · exfalso
                apply hne
                rw [hlf] at hlfm
                simp only [Option.toList_some, List.mem_singleton] at hlfm
                have : n.leaf = some (K, w) := by
                  rw [hlf]
                  exact congrArg some hlfm.symm
                exact hwf.leafKey K w this
              · exact hes
          by_cases hcond : isRoot = false ∧ n.edges.length = 1
          · rw [if_pos (by simpa using hcond)] at hr1
            obtain ⟨e1, he1⟩ := List.length_eq_one.mp hcond.2
            obtain ⟨l1, c1⟩ := e1
            have hmem1 : (l1, c1) ∈ n.edges := by rw [he1]; exact List.mem_cons_self _ _
            have hwfc1 := hwf.childWf l1 c1 hmem1
            rw [show Node.mk none n.pfx n.edges = Node.mk none n.pfx ((l1, c1) :: []) from
              by rw [he1]] at hr1
            rw [mergeChild_cons] at hr1
            subst hr1
            refine ⟨by rw [hkey]; simp, by rw [get_nil, hlf]; simp, ?_, ?_, ?_, ?_⟩
            · simp
            · intro hroot
              rw [hroot] at hcond
              cases hcond.1
            · exact merged_wf hwfc1
            · intro K w
              rw [show leaves (Node.mk c1.leaf (n.pfx ++ c1.pfx) c1.edges) = leaves c1 from
                by rw [leaves_mk, leaves_eta c1]]
              rw [← hmemtarget K w]
              rw [he1]
              simp
          · rw [if_neg (by simpa using hcond)] at hr1
            subst hr1
            refine ⟨by rw [hkey]; simp, by rw [get_nil, hlf]; simp, by simp, by simp, ?_, ?_⟩
            · apply WfUnder.ofParts
              · intro kk vv hkk
                simp at hkk
              · simpa using hwf.sortedEdges
              · intro l c hmc
                exact hwf.childHead l c (by simpa using hmc)
              · intro l c hmc
                exact hwf.childNonempty l c (by simpa using hmc)
              · intro l c hmc
                have := hwf.childWf l c (by simpa using hmc)
                simpa using this
            · intro K w
              rw [show leaves (Node.mk none n.pfx n.edges) = leavesL n.edges from
                by rw [leaves_mk]; simp]
              exact hmemtarget K w
    | cons b rest =>
      cases hE : getEdge b n.edges with
      | none =>
        constructor
        · rw [delete_cons_none isRoot hE, get_cons_none hE]
          simp
        · intro r lf hr
          rw [delete_cons_none isRoot hE] at hr
          cases hr
      | some ic =>
        obtain ⟨idx, child⟩ := ic
        have hmem : (b, child) ∈ n.edges := getEdge_mem hE
        have hhead := hwf.childHead b child hmem
        have hwfc := hwf.childWf b child hmem
        cases hpreB : child.pfx.isPrefixOf (b :: rest) with
        | false =>
          constructor
          · rw [delete_cons_nopfx isRoot hE hpreB, get_cons_some hE, if_neg (by rw [hpreB]; simp)]
            simp
          · intro r lf hr
            rw [delete_cons_nopfx isRoot hE hpreB] at hr
            cases hr
        | true =>
          obtain ⟨t, ht⟩ := List.isPrefixOf_iff_prefix.mp hpreB
          have hdrop : (b :: rest).drop child.pfx.length = t := by
            rw [← ht]
            exact List.drop_left _ _
          have hget : get n (b :: rest) = get child t := by
            rw [← ht]
            exact get_descend hwf.sortedEdges hmem hhead t
          have hkfull : (q ++ n.pfx) ++ (b :: rest) = ((q ++ n.pfx) ++ child.pfx) ++ t := by
            rw [← ht]
            simp [List.append_assoc]
          obtain ⟨hIiff, hIsome⟩ := IH b child hmem (q ++ n.pfx) t false hwfc
          rw [delete_cons_some isRoot hE hpreB, hdrop]
          cases hD : delete false child t with
          | none =>
            constructor
            · dsimp only
              rw [hget, ← hIiff, hD]
            · intro r lf hr
              simp at hr
          | some pair =>
            obtain ⟨newChild, lfD⟩ := pair
            obtain ⟨hlf1, hlf2, hncpfx, _, hncwf, hncmem⟩ := hIsome newChild lfD hD
            constructor
            · dsimp only
              rw [hget]
              constructor
              · intro hc
                split at hc <;> simp at hc
              · intro hc
                rw [hlf2] at hc
                cases hc
            · intro r lf hr
              dsimp only at hr
              have hlfkey : lf.1 = (q ++ n.pfx) ++ (b :: rest) → True := fun _ => trivial
              by_cases hempty : newChild.leaf.isNone = true ∧ newChild.edges.isEmpty = true
              · rw [if_pos hempty] at hr
                -- the pruned child is empty: remove the edge
                have hchildall : ∀ K w, (K, w) ∈ leaves child → K = ((q ++ n.pfx) ++ child.pfx) ++ t := by
                  intro K w hkv
                  by_contra hne
                  have : (K, w) ∈ leaves newChild := (hncmem K w).mpr ⟨hkv, hne⟩
                  rw [leaves_eta newChild] at this
                  rw [Option.isNone_iff_eq_none.mp hempty.1,
                    List.isEmpty_iff.mp hempty.2] at this
                  simp at this
                have hmemtarget : ∀ K w, ((K, w) ∈ n.leaf.toList ∨ (K, w) ∈ leavesL (delEdge b n.edges) ↔
                    ((K, w) ∈ leaves n ∧ K ≠ (q ++ n.pfx) ++ (b :: rest)))  := by
                  intro K w
                  have hlfne := leaf_key_ne hwf (rfl :
                    (q ++ n.pfx) ++ (b :: rest) = (q ++ n.pfx) ++ (b :: rest))
                  rw [leaves_eta n, List.mem_append]
                  constructor
                  · rintro (hlfm | hes)
                    · exact ⟨Or.inl hlfm, leaf_key_ne hwf rfl K w hlfm⟩
                    · obtain ⟨l, c, hmc, hkv⟩ := mem_leavesL.mp hes
                      obtain ⟨hmc', hlb⟩ := (delEdge_mem hwf.sortedEdges b (l, c)).mp hmc
                      refine ⟨Or.inr (mem_leavesL.mpr ⟨l, c, hmc', hkv⟩), ?_⟩
                      obtain ⟨tt, htt⟩ := child_key_shape hwf hmc' K w hkv
                      intro hKk
                      rw [hKk] at htt
                      exact hlb (append_cons_inj htt.symm)
                  · rintro ⟨hlfm | hes, hne⟩
                    · exact Or.inl hlfm
                    · obtain ⟨l, c, hmc, hkv⟩ := mem_leavesL.mp hes
                      by_cases hlb : l = b
                      · subst hlb
                        have hcc : c = child := mem_label_unique hwf.sortedEdges hmc hmem
                        subst hcc
                        exfalso
                        apply hne
                        rw [hkfull]
                        exact hchildall K w hkv
                      · exact Or.inr (mem_leavesL.mpr ⟨l, c,
                          (delEdge_mem hwf.sortedEdges b (l, c)).mpr ⟨hmc, hlb⟩, hkv⟩)
                have hwf0 : WfUnder q (Node.mk n.leaf n.pfx (delEdge b n.edges)) := by
                  apply WfUnder.ofParts
                  · intro kk vv hkk
                    simp only [Node.leaf_mk] at hkk
                    have := hwf.leafKey kk vv hkk
                    simpa using this
                  · simpa using delEdge_sorted hwf.sortedEdges b
                  · intro l c hmc
                    simp only [Node.edges_mk] at hmc
                    exact hwf.childHead l c ((delEdge_mem hwf.sortedEdges b (l, c)).mp hmc).1
                  · intro l c hmc
                    simp only [Node.edges_mk] at hmc
                    exact hwf.childNonempty l c ((delEdge_mem hwf.sortedEdges b (l, c)).mp hmc).1
                  · intro l c hmc
                    simp only [Node.edges_mk] at hmc
                    have := hwf.childWf l c ((delEdge_mem hwf.sortedEdges b (l, c)).mp hmc).1
                    simpa using this
                by_cases hcond : isRoot = false ∧ (delEdge b n.edges).length = 1 ∧
                    n.leaf.isNone = true
                · rw [if_pos (by simpa using hcond)] at hr
                  obtain ⟨e1, he1⟩ := List.length_eq_one.mp hcond.2.1
                  obtain ⟨l1, c1⟩ := e1
                  have hmem1 : (l1, c1) ∈ n.edges :=
                    ((delEdge_mem hwf.sortedEdges b (l1, c1)).mp
                      (by rw [he1]; exact List.mem_cons_self _ _)).1
                  have hwfc1 := hwf.childWf l1 c1 hmem1
                  rw [show Node.mk n.leaf n.pfx (delEdge b n.edges) =
                      Node.mk n.leaf n.pfx ((l1, c1) :: []) from by rw [he1]] at hr
                  rw [mergeChild_cons] at hr
                  injection hr with hr
                  injection hr with hr1 hr2
                  obtain rfl : lfD = lf := hr2
                  subst hr1
                  refine ⟨by rw [hlf1, hkfull], by rw [hget, hlf2], by simp, ?_, ?_, ?_⟩
                  · intro hroot
                    rw [hroot] at hcond
                    cases hcond.1
                  · exact merged_wf hwfc1
                  · intro K w
                    rw [show leaves (Node.mk c1.leaf (n.pfx ++ c1.pfx) c1.edges) = leaves c1 from
                      by rw [leaves_mk, leaves_eta c1]]
                    rw [← hmemtarget K w]
                    have hlfn : n.leaf = none := Option.isNone_iff_eq_none.mp hcond.2.2
                    rw [hlfn, he1]
                    simp
                · rw [if_neg (by simpa using hcond)] at hr
                  injection hr with hr
                  injection hr with hr1 hr2
                  obtain rfl : lfD = lf := hr2
                  subst hr1
                  refine ⟨by rw [hlf1, hkfull], by rw [hget, hlf2], by simp, by simp, hwf0, ?_⟩
                  intro K w
                  rw [leaves_mk, List.mem_append]
                  exact hmemtarget K w
              · rw [if_neg hempty] at hr
                injection hr with hr
                injection hr with hr1 hr2
                obtain rfl : lfD = lf := hr2
                subst hr1
                have hsnhead : newChild.pfx.head? = some b := head?_ofPrefix hncpfx hhead
                have hsnne : leaves newChild ≠ [] := by
                  apply leaves_ne_nil_of_wf hncwf
                  intro ⟨h1, h2⟩
                  apply hempty
                  constructor
                  · rw [h1]; rfl
                  · rw [h2]; rfl
                have hsnmem : ∀ K w, ((K, w) ∈ leaves newChild ↔
                    ((K, w) ∈ leaves child ∧ K ≠ (q ++ n.pfx) ++ (b :: rest))) := by
                  intro K w
                  rw [hncmem K w, hkfull]
                obtain ⟨hwfr, hmemr⟩ := delete_child_replace hwf hE rfl newChild hncwf
                  hsnhead hsnne hsnmem
                refine ⟨by rw [hlf1, hkfull], by rw [hget, hlf2], by simp, by simp, hwfr, hmemr⟩

/-! ### Committed roots -/

/-- Invariant of committed roots: well-formed under the empty path with an
empty own prefix (New() creates the root with no prefix, and no operation
ever changes the root's prefix since the root is never merged). -/
def WfRoot (t : Node V) : Prop := WfUnder [] t ∧ t.pfx = []

theorem wfRoot_empty : WfRoot (emptyNode : Node V) := by
  constructor
  · apply WfUnder.ofParts
    · intro kk vv hkk
      simp [emptyNode] at hkk
    · simp [emptyNode, edgesSorted]
    · intro l c hmc
      simp [emptyNode] at hmc
    · intro l c hmc
      simp [emptyNode] at hmc
    · intro l c hmc
      simp [emptyNode] at hmc
  · rfl

/-- On a committed root, the walked pairs are exactly the successful lookups. -/
theorem mem_leaves_get_root {t : Node V} (hwf : WfRoot t) (K : Key) (w : V) :
    ((K, w) ∈ leaves t ↔ get t K = some w) := by
  rw [mem_leaves_get [] hwf.1 K w]
  rw [hwf.2]
  constructor
  · rintro ⟨s, rfl, hget⟩
    simpa using hget
  · intro hget
    exact ⟨K, by simp, hget⟩

/-- The transaction-level insert on a committed root: the new root is again
a committed root and lookups change exactly at the inserted key. -/
theorem txnInsert_spec {t : Node V} (hwf : WfRoot t) (k : Key) (v : V) :
    WfRoot (txnInsert t k v).1 ∧
    (∀ K, get (txnInsert t k v).1 K = if k = K then some v else get t K) ∧
    (txnInsert t k v).2.1 = get t k ∧ (txnInsert t k v).2.2 = (get t k).isSome := by
  have hk : k = ([] ++ t.pfx) ++ k := by rw [hwf.2]; simp
  obtain ⟨r, old, upd, heq, hpfx, hwfr, hmem, hold, hupd⟩ :=
    insert_spec [] k k v hwf.1 hk
  have hwfr' : WfRoot r := ⟨hwfr, by rw [hpfx, hwf.2]⟩
  have htxn : txnInsert t k v = (r, old, upd) := by
    rw [txnInsert, heq]
  rw [htxn]
  refine ⟨hwfr', ?_, hold, hupd⟩
  intro K
  by_cases hKk : k = K
  · subst hKk
    rw [if_pos rfl]
    exact (mem_leaves_get_root hwfr' k v).mp ((hmem k v).mpr (Or.inl rfl))
  · rw [if_neg hKk]
    apply Option.ext
    intro w
    simp only [Option.mem_def]
    rw [← mem_leaves_get_root hwfr' K w, ← mem_leaves_get_root hwf K w, hmem K w]
    constructor
    · rintro (heq2 | ⟨hmemt, hne⟩)
      · injection heq2 with h1 h2
        exact absurd h1.symm hKk
      · exact hmemt
    · intro hmemt
      exact Or.inr ⟨hmemt, fun hc => hKk hc.symm⟩

/-- The transaction-level delete on a committed root: the new root is again
a committed root, lookups change exactly at the deleted key, and the
reported value is the previously stored one. -/
theorem txnDelete_spec {t : Node V} (hwf : WfRoot t) (k : Key) :
    WfRoot (txnDelete t k).1 ∧
    (∀ K, get (txnDelete t k).1 K = if k = K then none else get t K) ∧
    (txnDelete t k).2 = get t k := by
  obtain ⟨hiff, hsome⟩ := delete_spec [] k true hwf.1
  cases hD : delete true t k with
  | none =>
    have hget : get t k = none := hiff.mp hD
    have htxn : txnDelete t k = (t, none) := by rw [txnDelete, hD]
    rw [htxn]
    refine ⟨hwf, ?_, hget.symm⟩
    intro K
    by_cases hKk : k = K
    · subst hKk
      rw [if_pos rfl, hget]
    · rw [if_neg hKk]
  | some pair =>
    obtain ⟨r, lfD⟩ := pair
    obtain ⟨hlf1, hlf2, hpfx, hpfxroot, hwfr, hmem⟩ := hsome r lfD hD
    have hwfr' : WfRoot r := ⟨hwfr, by rw [hpfxroot rfl, hwf.2]⟩
    have htxn : txnDelete t k = (r, some lfD.2) := by rw [txnDelete, hD]
    rw [htxn]
    have hkfull : ([] ++ t.pfx) ++ k = k := by rw [hwf.2]; simp
    refine ⟨hwfr', ?_, hlf2.symm⟩
    intro K
    by_cases hKk : k = K
    · subst hKk
      rw [if_pos rfl]
      cases hg : get r k with
      | none => rfl
      | some w =>
        have := (mem_leaves_get_root hwfr' k w).mpr hg
        obtain ⟨hmemt, hne⟩ := (hmem k w).mp this
        rw [hkfull] at hne
        exact absurd rfl hne
    · rw [if_neg hKk]
      apply Option.ext
      intro w
      simp only [Option.mem_def]
      rw [← mem_leaves_get_root hwfr' K w, ← mem_leaves_get_root hwf K w, hmem K w, hkfull]
      constructor
      · rintro ⟨hmemt, hne⟩
        exact hmemt
      · intro hmemt
        exact ⟨hmemt, fun hc => hKk hc.symm⟩

/-- Committed roots stay committed roots under any operation. -/
theorem wfRoot_applyOp {t : Node V} (hwf : WfRoot t) (op : Op V) :
    WfRoot (applyOp t op) := by
  cases op with
  | ins k v => exact (txnInsert_spec hwf k v).1
  | del k => exact (txnDelete_spec hwf k).1

theorem wfRoot_applyOps {t : Node V} (hwf : WfRoot t) (ops : List (Op V)) :
    WfRoot (applyOps t ops) := by
  induction ops generalizing t with
  | nil => exact hwf
  | cons op rest ih =>
    rw [applyOps, List.foldl_cons]
    exact ih (wfRoot_applyOp hwf op)

theorem build_wfRoot (ops : List (Op V)) : WfRoot (build ops) :=
  wfRoot_applyOps wfRoot_empty ops

/-- Lookup after a sequence of operations folds the operations over the
initial lookup result. -/
theorem get_applyOps (ops : List (Op V)) : ∀ (t : Node V), WfRoot t → ∀ K,
    get (applyOps t ops) K =
      ops.foldl
        (fun acc op =>
          match op with
          | .ins k v => if k = K then some v else acc
          | .del k => if k = K then none else acc)
        (get t K) := by
  induction ops with
  | nil =>
    intro t hwf K
    rw [applyOps]
    simp
  | cons op rest ih =>
    intro t hwf K
    rw [applyOps, List.foldl_cons, ← applyOps, List.foldl_cons]
    have hstep : get (applyOp t op) K =
        (match op with
         | .ins k v => if k = K then some v else get t K
         | .del k => if k = K then none else get t K) := by
      cases op with
      | ins k v => exact ((txnInsert_spec hwf k v).2.1) K
      | del k => exact ((txnDelete_spec hwf k).2.1) K
    rw [ih (applyOp t op) (wfRoot_applyOp hwf op) K, hstep]

/-- Lookup on a committed tree returns the last inserted value for the key,
and nothing when the key was never inserted or was deleted afterwards. -/
theorem get_build_models (ops : List (Op V)) (K : Key) :
    get (build ops) K = modelFind ops K := by
  rw [build, get_applyOps ops emptyNode wfRoot_empty K, modelFind]
  have : get (emptyNode : Node V) K = none := by
    cases K with
    | nil => simp [emptyNode]
    | cons b rest =>
      apply get_cons_none
      simp [emptyNode, getEdge]
  rw [this]

/-! ### Extensionality of sorted walks -/

/-- Two strictly sorted pair lists with the same members are equal. -/
theorem sorted_eq_of_mem_iff :
    ∀ {l1 l2 : List (Key × V)}, List.Pairwise (pairKeyLt (V := V)) l1 →
      List.Pairwise (pairKeyLt (V := V)) l2 →
      (∀ kv, kv ∈ l1 ↔ kv ∈ l2) → l1 = l2 := by
  intro l1
  induction l1 with
  | nil =>
    intro l2 h1 h2 hmem
    cases l2 with
    | nil => rfl
    | cons y ys =>
      have := (hmem y).mpr (List.mem_cons_self _ _)
      simp at this
  | cons x xs ih =>
    intro l2 h1 h2 hmem
    cases l2 with
    | nil =>
      have := (hmem x).mp (List.mem_cons_self _ _)
      simp at this
    | cons y ys =>
      obtain ⟨hx1, hxs⟩ := List.pairwise_cons.mp h1
      obtain ⟨hy2, hys⟩ := List.pairwise_cons.mp h2
      have hxy : x = y := by
        have hxin := (hmem x).mp (List.mem_cons_self _ _)
        have hyin := (hmem y).mpr (List.mem_cons_self _ _)
        rcases List.mem_cons.mp hxin with heq | hxys
        · exact heq
        · rcases List.mem_cons.mp hyin with heq | hyxs
          · exact heq.symm
          · have h1' : pairKeyLt x y := hx1 y hyxs
            have h2' : pairKeyLt y x := hy2 x hxys
            unfold pairKeyLt at h1' h2'
            rw [keyLt_asymm h1'] at h2'
            cases h2'
      subst hxy
      have htail : ∀ kv, kv ∈ xs ↔ kv ∈ ys := by
        intro kv
        constructor
        · intro hkv
          have hin := (hmem kv).mp (List.mem_cons_of_mem _ hkv)
          rcases List.mem_cons.mp hin with heq | hys'
          · exfalso
            have := hx1 kv hkv
            rw [heq] at this
            unfold pairKeyLt at this
            rw [keyLt_irrefl] at this
            cases this
          · exact hys'
        · intro hkv
          have hin := (hmem kv).mpr (List.mem_cons_of_mem _ hkv)
          rcases List.mem_cons.mp hin with heq | hxs'
          · exfalso
            have := hy2 kv hkv
            rw [heq] at this
            unfold pairKeyLt at this
            rw [keyLt_irrefl] at this
            cases this
          · exact hxs'
      rw [ih hxs hys htail]

/-- Committed roots with the same lookup function have the same walk. -/
theorem leaves_eq_of_get_eq {t1 t2 : Node V} (h1 : WfRoot t1) (h2 : WfRoot t2)
    (h : ∀ K, get t1 K = get t2 K) : leaves t1 = leaves t2 := by
  apply sorted_eq_of_mem_iff (sorted_leaves [] h1.1) (sorted_leaves [] h2.1)
  intro kv
  obtain ⟨K, w⟩ := kv
  rw [mem_leaves_get_root h1 K w, mem_leaves_get_root h2 K w, h K]

/-- Inserting an absent key and deleting it again restores every lookup. -/
theorem insert_delete_get {t : Node V} (hwf : WfRoot t) (k : Key) (v : V)
    (habs : get t k = none) :
    ∀ K, get ((txnDelete ((txnInsert t k v).1) k).1) K = get t K := by
  intro K
  obtain ⟨hwf1, hget1, _, _⟩ := txnInsert_spec hwf k v
  obtain ⟨hwf2, hget2, _⟩ := txnDelete_spec hwf1 k
  rw [hget2 K, hget1 K]
  by_cases hKk : k = K
  · subst hKk
    rw [if_pos rfl, habs]
  · rw [if_neg hKk, if_neg hKk]

/-- Inserting an absent key and deleting it again restores the walk. -/
theorem insert_delete_leaves {t : Node V} (hwf : WfRoot t) (k : Key) (v : V)
    (habs : get t k = none) :
    leaves ((txnDelete ((txnInsert t k v).1) k).1) = leaves t := by
  obtain ⟨hwf1, _, _, _⟩ := txnInsert_spec hwf k v
  obtain ⟨hwf2, _, _⟩ := txnDelete_spec hwf1 k
  exact leaves_eq_of_get_eq hwf2 hwf (insert_delete_get hwf k v habs)

/-- Deleting an absent key leaves the transaction root untouched and reports
no previous value. -/
theorem txnDelete_absent {t : Node V} (hwf : WfRoot t) (k : Key)
    (habs : get t k = none) : txnDelete t k = (t, none) := by
  obtain ⟨hiff, _⟩ := delete_spec [] k true hwf.1
  rw [txnDelete, hiff.mpr habs]

/-! ### The merge-child invariant -/

/-- A node with exactly one edge and no leaf (the shape that mergeChild
must collapse everywhere below the root). -/
def singleEdgeNoLeaf (m : Node V) : Prop := m.leaf = none ∧ m.edges.length = 1

/-- A property holding of every proper descendant of a node. -/
inductive AllDesc (P : Node V → Prop) : Node V → Prop where
  | mk : ∀ (lf : Option (Key × V)) (pfx : Key) (es : List (Nat × Node V)),
      (∀ l c, (l, c) ∈ es → P c) →
      (∀ l c, (l, c) ∈ es → AllDesc P c) →
      AllDesc P (Node.mk lf pfx es)

theorem AllDesc.childP {P : Node V → Prop} {n : Node V} (h : AllDesc P n) :
    ∀ l c, (l, c) ∈ n.edges → P c := by
  cases h with
  | mk lf pfx es h1 h2 => simpa using h1

theorem AllDesc.childD {P : Node V → Prop} {n : Node V} (h : AllDesc P n) :
    ∀ l c, (l, c) ∈ n.edges → AllDesc P c := by
  cases h with
  | mk lf pfx es h1 h2 => simpa using h2

theorem AllDesc.ofChildren {P : Node V → Prop} (n : Node V)
    (h1 : ∀ l c, (l, c) ∈ n.edges → P c)
    (h2 : ∀ l c, (l, c) ∈ n.edges → AllDesc P c) : AllDesc P n := by
  cases n with
  | mk lf pfx es => exact AllDesc.mk lf pfx es (by simpa using h1) (by simpa using h2)

/-- The merge-child invariant: no proper descendant has exactly one edge and
no leaf. -/
def NoLonely (n : Node V) : Prop := AllDesc (fun c => ¬ singleEdgeNoLeaf c) n

theorem addEdge_length (e : Nat × α) : ∀ es : List (Nat × α),
    (addEdge e es).length = es.length + 1 := by
  intro es
  induction es with
  | nil => rfl
  | cons x rest ih =>
    by_cases hle : e.1 ≤ x.1
    · rw [addEdge, if_pos hle]
      simp
    · rw [addEdge, if_neg hle]
      simp [ih]

theorem setEdgeNode_length (es : List (Nat × α)) (idx : Nat) (nd : α) :
    (setEdgeNode es idx nd).length = es.length := by
  rw [setEdgeNode]
  cases hg : es[idx]? with
  | none => rfl
  | some e => simp

/-- Insertion preserves the merge-child invariant; below subtrees that are
non-empty and not collapsible it never creates a collapsible replacement. -/
theorem insert_noLonely {n : Node V} :
    ∀ (q s k : Key) (v : V) r old upd, WfUnder q n → NoLonely n →
      insert n k s v = some (r, old, upd) →
      NoLonely r ∧ (leaves n ≠ [] → ¬ singleEdgeNoLeaf n → ¬ singleEdgeNoLeaf r) := by
  induction n using node_ind with
  | _ n IH =>
    intro q s k v r old upd hwf hnl heq
    cases s with
    | nil =>
      rw [insert_nil] at heq
      injection heq with heq
      injection heq with heq1 heq2
      subst heq1
      constructor
      · apply AllDesc.ofChildren
        · intro l c hmc
          exact hnl.childP l c (by simpa using hmc)
        · intro l c hmc
          exact hnl.childD l c (by simpa using hmc)
      · intro hne hnlonely
        intro ⟨h1, h2⟩
        simp at h1
    | cons b rest =>
      cases hE : getEdge b n.edges with
      | none =>
        rw [insert_cons_none k v hE] at heq
        injection heq with heq
        injection heq with heq1 heq2
        subst heq1
        constructor
        · apply AllDesc.ofChildren
          · intro l c hmc
            simp only [Node.edges_mk] at hmc
            rcases addEdge_mem.mp hmc with hx | hmc'
            · injection hx with e1 e2
              subst e2
              intro ⟨h1, h2⟩
              simp at h1
            · exact hnl.childP l c hmc'
          · intro l c hmc
            simp only [Node.edges_mk] at hmc
            rcases addEdge_mem.mp hmc with hx | hmc'
            · injection hx with e1 e2
              subst e2
              apply AllDesc.ofChildren <;> intro l' c' hmc' <;> simp at hmc'
            · exact hnl.childD l c hmc'
        · intro hne hnlonely
          intro ⟨h1, h2⟩
          simp only [Node.leaf_mk] at h1
          simp only [Node.edges_mk, addEdge_length] at h2
          have hes : n.edges = [] := by
            cases he : n.edges with
            | nil => rfl
            | cons x xs =>
              rw [he] at h2
              simp at h2
          rw [leaves_eta n, hes, h1] at hne
          simp at hne
      | some ic =>
        obtain ⟨idx, child⟩ := ic
        have hmem : (b, child) ∈ n.edges := getEdge_mem hE
        have hwfc := hwf.childWf b child hmem
        have hcne := hwf.childNonempty b child hmem
        have hclonely := hnl.childP b child hmem
        have hcd := hnl.childD b child hmem
        by_cases hcp : longestPrefix (b :: rest) child.pfx = child.pfx.length
        · rw [insert_cons_descend k v hE hcp] at heq
          cases hrec : insert child k ((b :: rest).drop (longestPrefix (b :: rest) child.pfx)) v with
          | none => rw [hrec] at heq; cases heq
          | some res =>
            obtain ⟨newChild, old2, upd2⟩ := res
            rw [hrec] at heq
            dsimp only at heq
            injection heq with heq
            injection heq with heq1 heq2
            subst heq1
            obtain ⟨hnlc, hlc⟩ := IH b child hmem (q ++ n.pfx) _ k v newChild old2 upd2 hwfc hcd hrec
            have hncnl : ¬ singleEdgeNoLeaf newChild := hlc hcne hclonely
            constructor
            · apply AllDesc.ofChildren
              · intro l c hmc
                simp only [Node.edges_mk] at hmc
                rcases (setEdgeNode_mem hwf.sortedEdges hE newChild (l, c)).mp hmc with hx | ⟨hmc', _⟩
                · injection hx with e1 e2
                  subst e2
                  exact hncnl
                · exact hnl.childP l c hmc'
              · intro l c hmc
                simp only [Node.edges_mk] at hmc
                rcases (setEdgeNode_mem hwf.sortedEdges hE newChild (l, c)).mp hmc with hx | ⟨hmc', _⟩
                · injection hx with e1 e2
                  subst e2
                  exact hnlc
                · exact hnl.childD l c hmc'
            · intro hne hnlonely
              intro ⟨h1, h2⟩
              simp only [Node.leaf_mk] at h1
              simp only [Node.edges_mk, setEdgeNode_length] at h2
              exact hnlonely ⟨h1, h2⟩
        · rw [insert_cons_split k v hE hcp] at heq
          dsimp only at heq
          rw [replaceEdge_of_getEdge hE] at heq
          injection heq with heq
          injection heq with heq1 heq2
          subst heq1
          have hmodP : ¬ singleEdgeNoLeaf (Node.mk child.leaf
              (child.pfx.drop (longestPrefix (b :: rest) child.pfx)) child.edges) := by
            intro ⟨h1, h2⟩
            exact hclonely ⟨by simpa using h1, by simpa using h2⟩
          have hmodD : AllDesc (fun c => ¬ singleEdgeNoLeaf c) (Node.mk child.leaf
              (child.pfx.drop (longestPrefix (b :: rest) child.pfx)) child.edges) := by
            apply AllDesc.ofChildren
            · intro l c hmc
              exact hcd.childP l c (by simpa using hmc)
            · intro l c hmc
              exact hcd.childD l c (by simpa using hmc)
          have hsplitP : ∀ sn, (match (b :: rest).drop (longestPrefix (b :: rest) child.pfx) with
              | [] => Node.mk (some (k, v))
                  ((b :: rest).take (longestPrefix (b :: rest) child.pfx))
                  (addEdge (child.pfx.getD (longestPrefix (b :: rest) child.pfx) 0,
                    Node.mk child.leaf
                      (child.pfx.drop (longestPrefix (b :: rest) child.pfx)) child.edges) [])
              | sb :: srest => Node.mk none
                  ((b :: rest).take (longestPrefix (b :: rest) child.pfx))
                  (addEdge (sb, Node.mk (some (k, v)) (sb :: srest) [])
                    (addEdge (child.pfx.getD (longestPrefix (b :: rest) child.pfx) 0,
                      Node.mk child.leaf
                        (child.pfx.drop (longestPrefix (b :: rest) child.pfx)) child.edges) []))) = sn →
              ¬ singleEdgeNoLeaf sn ∧ AllDesc (fun c => ¬ singleEdgeNoLeaf c) sn := by
            intro sn hsn
            cases hdrop : (b :: rest).drop (longestPrefix (b :: rest) child.pfx) with
            | nil =>
              rw [hdrop] at hsn
              subst hsn
              dsimp only
              constructor
              · intro ⟨h1, h2⟩
                simp at h1
              · apply AllDesc.ofChildren
                · intro l c hmc
                  simp only [Node.edges_mk, addEdge, List.mem_singleton] at hmc
                  injection hmc with e1 e2
                  subst e2
                  exact hmodP
                · intro l c hmc
                  simp only [Node.edges_mk, addEdge, List.mem_singleton] at hmc
                  injection hmc with e1 e2
                  subst e2
                  exact hmodD
            | cons sb srest =>
              rw [hdrop] at hsn
              subst hsn
              dsimp only
              constructor
              · intro ⟨h1, h2⟩
                simp only [Node.edges_mk, addEdge_length, List.length_nil] at h2
                omega
              · apply AllDesc.ofChildren
                · intro l c hmc
                  simp only [Node.edges_mk] at hmc
                  rcases addEdge_mem.mp hmc with hx | hmc'
                  · injection hx with e1 e2
                    subst e2
                    intro ⟨h1, h2⟩
                    simp at h1
                  · simp only [addEdge, List.mem_singleton] at hmc'
                    injection hmc' with e1 e2
                    subst e2
                    exact hmodP
                · intro l c hmc
                  simp only [Node.edges_mk] at hmc
                  rcases addEdge_mem.mp hmc with hx | hmc'
                  · injection hx with e1 e2
                    subst e2
                    apply AllDesc.ofChildren <;> intro l' c' hmc'' <;> simp at hmc''
                  · simp only [addEdge, List.mem_singleton] at hmc'
                    injection hmc' with e1 e2
                    subst e2
                    exact hmodD
          obtain ⟨hsnP, hsnD⟩ := hsplitP _ rfl
          constructor
          · apply AllDesc.ofChildren
            · intro l c hmc
              simp only [Node.edges_mk] at hmc
              rcases (setEdgeNode_mem hwf.sortedEdges hE _ (l, c)).mp hmc with hx | ⟨hmc', _⟩
              · injection hx with e1 e2
                subst e2
                exact hsnP
              · exact hnl.childP l c hmc'
            · intro l c hmc
              simp only [Node.edges_mk] at hmc
              rcases (setEdgeNode_mem hwf.sortedEdges hE _ (l, c)).mp hmc with hx | ⟨hmc', _⟩
              · injection hx with e1 e2
                subst e2
                exact hsnD
              · exact hnl.childD l c hmc'
          · intro hne hnlonely
            intro ⟨h1, h2⟩
            simp only [Node.leaf_mk] at h1
            simp only [Node.edges_mk, setEdgeNode_length] at h2
            exact hnlonely ⟨h1, h2⟩

/-- Deletion preserves the merge-child invariant, and on non-roots never
returns a collapsible node. -/
theorem delete_noLonely {n : Node V} :
    ∀ (q s : Key) (isRoot : Bool) r lf, WfUnder q n → NoLonely n →
      (isRoot = false → ¬ singleEdgeNoLeaf n) →
      delete isRoot n s = some (r, lf) →
      NoLonely r ∧ (isRoot = false → ¬ singleEdgeNoLeaf r) := by
  induction n using node_ind with
  | _ n IH =>
    intro q s isRoot r lf hwf hnl hroot heq
    cases s with
    | nil =>
      cases hlf : n.leaf with
      | none => rw [delete_nil_none isRoot hlf] at heq; cases heq
      | some lf0 =>
        rw [delete_nil_some isRoot hlf] at heq
        injection heq with heq
        injection heq with heq1 heq2
        by_cases hcond : isRoot = false ∧ n.edges.length = 1
        · rw [if_pos (by simpa using hcond)] at heq1
          obtain ⟨e1, he1⟩ := List.length_eq_one.mp hcond.2
          obtain ⟨l1, c1⟩ := e1
          have hmem1 : (l1, c1) ∈ n.edges := by rw [he1]; exact List.mem_cons_self _ _
          rw [show Node.mk none n.pfx n.edges = Node.mk none n.pfx ((l1, c1) :: []) from
            by rw [he1]] at heq1
          rw [mergeChild_cons] at heq1
          subst heq1
          have hc1P := hnl.childP l1 c1 hmem1
          have hc1D := hnl.childD l1 c1 hmem1
          constructor
          · apply AllDesc.ofChildren
            · intro l c hmc
              exact hc1D.childP l c (by simpa using hmc)
            · intro l c hmc
              exact hc1D.childD l c (by simpa using hmc)
          · intro _
            intro ⟨h1, h2⟩
            exact hc1P ⟨by simpa using h1, by simpa using h2⟩
        · rw [if_neg (by simpa using hcond)] at heq1
          subst heq1
          constructor
          · apply AllDesc.ofChildren
            · intro l c hmc
              exact hnl.childP l c (by simpa using hmc)
            · intro l c hmc
              exact hnl.childD l c (by simpa using hmc)
          · intro hr
            intro ⟨h1, h2⟩
            simp only [Node.edges_mk] at h2
            exact hcond ⟨hr, h2⟩
    | cons b rest =>
      cases hE : getEdge b n.edges with
      | none => rw [delete_cons_none isRoot hE] at heq; cases heq
      | some ic =>
        obtain ⟨idx, child⟩ := ic
        have hmem : (b, child) ∈ n.edges := getEdge_mem hE
        have hwfc := hwf.childWf b child hmem
        have hclonely := hnl.childP b child hmem
        have hcd := hnl.childD b child hmem
        cases hpreB : child.pfx.isPrefixOf (b :: rest) with
        | false => rw [delete_cons_nopfx isRoot hE hpreB] at heq; cases heq
        | true =>
          rw [delete_cons_some isRoot hE hpreB] at heq
          cases hD : delete false child ((b :: rest).drop child.pfx.length) with
          | none => rw [hD] at heq; cases heq
          | some pair =>
            obtain ⟨newChild, lfD⟩ := pair
            rw [hD] at heq
            dsimp only at heq
            obtain ⟨hnlc, hncP⟩ := IH b child hmem (q ++ n.pfx) _ false newChild lfD hwfc hcd
              (fun _ => hclonely) hD
            by_cases hempty : newChild.leaf.isNone = true ∧ newChild.edges.isEmpty = true
            · rw [if_pos hempty] at heq
              injection heq with heq
              injection heq with heq1 heq2
              by_cases hcond : isRoot = false ∧ (delEdge b n.edges).length = 1 ∧
                  n.leaf.isNone = true
              · rw [if_pos (by simpa using hcond)] at heq1
                obtain ⟨e1, he1⟩ := List.length_eq_one.mp hcond.2.1
                obtain ⟨l1, c1⟩ := e1
                have hmem1 : (l1, c1) ∈ n.edges :=
                  ((delEdge_mem hwf.sortedEdges b (l1, c1)).mp
                    (by rw [he1]; exact List.mem_cons_self _ _)).1
                rw [show Node.mk n.leaf n.pfx (delEdge b n.edges) =
                    Node.mk n.leaf n.pfx ((l1, c1) :: []) from by rw [he1]] at heq1
                rw [mergeChild_cons] at heq1
                subst heq1
                have hc1P := hnl.childP l1 c1 hmem1
                have hc1D := hnl.childD l1 c1 hmem1
                constructor
                · apply AllDesc.ofChildren
                  · intro l c hmc
                    exact hc1D.childP l c (by simpa using hmc)
                  · intro l c hmc
                    exact hc1D.childD l c (by simpa using hmc)
                · intro _
                  intro ⟨h1, h2⟩
                  exact hc1P ⟨by simpa using h1, by simpa using h2⟩
              · rw [if_neg (by simpa using hcond)] at heq1
                subst heq1
                constructor
                · apply AllDesc.ofChildren
                  · intro l c hmc
                    simp only [Node.edges_mk] at hmc
                    exact hnl.childP l c ((delEdge_mem hwf.sortedEdges b (l, c)).mp hmc).1
                  · intro l c hmc
                    simp only [Node.edges_mk] at hmc
                    exact hnl.childD l c ((delEdge_mem hwf.sortedEdges b (l, c)).mp hmc).1
                · intro hr
                  intro ⟨h1, h2⟩
                  simp only [Node.leaf_mk] at h1
                  simp only [Node.edges_mk] at h2
                  apply hcond
                  refine ⟨hr, h2, ?_⟩
                  rw [h1]
                  rfl
            · rw [if_neg hempty] at heq
              injection heq with heq
              injection heq with heq1 heq2
              subst heq1
              have hncP' : ¬ singleEdgeNoLeaf newChild := hncP rfl
              constructor
              · apply AllDesc.ofChildren
                · intro l c hmc
                  simp only [Node.edges_mk] at hmc
                  rcases (setEdgeNode_mem hwf.sortedEdges hE newChild (l, c)).mp hmc with
                    hx | ⟨hmc', _⟩
                  · injection hx with e1 e2
                    subst e2
                    exact hncP'
                  · exact hnl.childP l c hmc'
                · intro l c hmc
                  simp only [Node.edges_mk] at hmc
                  rcases (setEdgeNode_mem hwf.sortedEdges hE newChild (l, c)).mp hmc with
                    hx | ⟨hmc', _⟩
                  · injection hx with e1 e2
                    subst e2
                    exact hnlc
                  · exact hnl.childD l c hmc'
              · intro hr
                intro ⟨h1, h2⟩
                simp only [Node.leaf_mk] at h1
                simp only [Node.edges_mk, setEdgeNode_length] at h2
                exact hroot hr ⟨h1, h2⟩

/-- The merge-child invariant holds of every committed tree. -/
theorem build_noLonely (ops : List (Op V)) : NoLonely (build ops) := by
  have hstep : ∀ (t : Node V) (op : Op V), WfRoot t → NoLonely t → NoLonely (applyOp t op) := by
    intro t op hwf hnl
    cases op with
    | ins k v =>
      rw [applyOp, txnInsert]
      cases heq : insert t k k v with
      | none =>
        have := insert_isSome t k k v
        rw [heq] at this
        cases this
      | some res =>
        obtain ⟨r, old, upd⟩ := res
        have hk : k = ([] ++ t.pfx) ++ k := by rw [hwf.2]; simp
        exact (insert_noLonely [] k k v r old upd hwf.1 hnl heq).1
    | del k =>
      rw [applyOp, txnDelete]
      cases heq : delete true t k with
      | none => exact hnl
      | some pair =>
        obtain ⟨r, lfD⟩ := pair
        exact (delete_noLonely [] k true r lfD hwf.1 hnl (by intro h; cases h) heq).1
  have hmain : ∀ (ops : List (Op V)) (t : Node V), WfRoot t → NoLonely t →
      NoLonely (applyOps t ops) := by
    intro ops
    induction ops with
    | nil => intro t hwf hnl; exact hnl
    | cons op rest ih =>
      intro t hwf hnl
      rw [applyOps, List.foldl_cons, ← applyOps]
      exact ih (applyOp t op) (wfRoot_applyOp hwf op) (hstep t op hwf hnl)
  apply hmain ops emptyNode wfRoot_empty
  apply AllDesc.ofChildren <;> intro l c hmc <;> simp [emptyNode] at hmc

/-- A committed root consisting of a single edge and no leaf does arise: the
root is never collapsed. -/
theorem build_single_edge_root :
    build [Op.ins [0] (0 : Nat)] = Node.mk none []
      [(0, Node.mk (some ([0], (0 : Nat))) [0] [])] ∧
    singleEdgeNoLeaf (build [Op.ins [0] (0 : Nat)]) := by
  have hb : build [Op.ins [0] (0 : Nat)] = Node.mk none []
      [(0, Node.mk (some ([0], (0 : Nat))) [0] [])] := by
    rw [build, applyOps, List.foldl_cons, List.foldl_nil, applyOp, txnInsert]
    rw [insert_cons_none [0] 0 (show getEdge 0 (emptyNode : Node Nat).edges = none from rfl)]
    rfl
  refine ⟨hb, ?_⟩
  rw [hb]
  exact ⟨rfl, rfl⟩

/-! ### Minimum and maximum -/

theorem leavesL_append (xs ys : List (Nat × Node V)) :
    leavesL (xs ++ ys) = leavesL xs ++ leavesL ys := by
  induction xs with
  | nil => simp
  | cons e rest ih => simp [ih]

theorem getLast?_append_right {l1 l2 : List α} (h : l2 ≠ []) :
    (l1 ++ l2).getLast? = l2.getLast? := by
  induction l1 with
  | nil => rfl
  | cons a as ih =>
    rw [List.cons_append]
    cases hx : as ++ l2 with
    | nil => exact absurd (List.append_eq_nil.mp hx).2 h
    | cons b bs =>
      rw [List.getLast?_cons_cons]
      rw [← hx, ih]

/-- Minimum returns the first walked pair. -/
theorem minimum_eq_head {n : Node V} : ∀ q, WfUnder q n →
    minimum n = (leaves n).head? := by
  induction n using node_ind with
  | _ n IH =>
    intro q hwf
    cases n with
    | mk lf p es =>
      cases lf with
      | some x =>
        rw [minimum_leaf (n := Node.mk (some x) p es) rfl]
        simp
      | none =>
        cases es with
        | nil =>
          rw [minimum_empty (n := Node.mk none p []) rfl rfl]
          simp
        | cons e erest =>
          obtain ⟨l, c⟩ := e
          rw [minimum_noleaf_cons (n := Node.mk none p ((l, c) :: erest)) rfl rfl]
          have hmemc : (l, c) ∈ (Node.mk none p ((l, c) :: erest)).edges := by simp
          have hwfc := hwf.childWf l c hmemc
          have hcne := hwf.childNonempty l c hmemc
          rw [IH l c hmemc _ hwfc]
          simp only [leaves_mk, Option.toList_none, List.nil_append, leavesL_cons]
          cases hc : leaves c with
          | nil => exact absurd hc hcne
          | cons y ys => simp

/-- Maximum returns the last walked pair. -/
theorem maximum_eq_getLast {n : Node V} : ∀ q, WfUnder q n →
    maximum n = (leaves n).getLast? := by
  induction n using node_ind with
  | _ n IH =>
    intro q hwf
    cases n with
    | mk lf p es =>
      cases hlast : es.getLast? with
      | none =>
        have hes : es = [] := by
          cases es with
          | nil => rfl
          | cons e erest => simp at hlast
        subst hes
        rw [maximum_noedges (n := Node.mk lf p []) rfl]
        cases lf <;> simp
      | some e =>
        obtain ⟨l, c⟩ := e
        rw [maximum_last (n := Node.mk lf p es)
          (show (Node.mk lf p es).edges.getLast? = some (l, c) from hlast)]
        have hmemc : (l, c) ∈ (Node.mk lf p es).edges :=
          show (l, c) ∈ es from mem_of_getLast?_eq hlast
        have hwfc := hwf.childWf l c hmemc
        have hcne := hwf.childNonempty l c hmemc
        rw [IH l c hmemc _ hwfc]
        have hne : es ≠ [] := by intro h; subst h; simp at hlast
        have hgl : es.getLast hne = (l, c) := by
          have h1 := List.getLast?_eq_getLast es hne
          rw [h1] at hlast
          exact Option.some.inj hlast
        have hsplit : es = es.dropLast ++ [(l, c)] := by
          conv_lhs => rw [← List.dropLast_append_getLast hne]
          rw [hgl]
        conv_rhs => rw [leaves_mk, hsplit, leavesL_append]
        simp only [leavesL_cons, leavesL_nil, List.append_nil]
        rw [← List.append_assoc]
        rw [getLast?_append_right hcne]

/-- Where the first element of a strictly sorted list stands. -/
theorem head_min_of_sorted {l : List (Key × V)} {kv : Key × V}
    (hs : List.Pairwise (pairKeyLt (V := V)) l) (h : l.head? = some kv) :
    kv ∈ l ∧ ∀ kv' ∈ l, keyLt kv'.1 kv.1 = false := by
  cases l with
  | nil => simp at h
  | cons x xs =>
    simp only [List.head?_cons, Option.some.injEq] at h
    subst h
    obtain ⟨hx, _⟩ := List.pairwise_cons.mp hs
    refine ⟨List.mem_cons_self _ _, ?_⟩
    intro kv' hkv'
    rcases List.mem_cons.mp hkv' with rfl | hmem
    · exact keyLt_irrefl _
    · exact keyLt_asymm (hx kv' hmem)

/-- Where the last element of a strictly sorted list stands. -/
theorem getLast_max_of_sorted {l : List (Key × V)} {kv : Key × V}
    (hs : List.Pairwise (pairKeyLt (V := V)) l) (h : l.getLast? = some kv) :
    kv ∈ l ∧ ∀ kv' ∈ l, keyLt kv.1 kv'.1 = false := by
  have hmem := mem_of_getLast?_eq h
  refine ⟨hmem, ?_⟩
  intro kv' hkv'
  have hne : l ≠ [] := by intro hx; subst hx; simp at h
  have hgl : l.getLast hne = kv := by
    have h1 := List.getLast?_eq_getLast l hne
    rw [h1] at h
    exact Option.some.inj h
  have hsplit : l = l.dropLast ++ [kv] := by
    conv_lhs => rw [← List.dropLast_append_getLast hne]
    rw [hgl]
  rw [hsplit] at hkv'
  rcases List.mem_append.mp hkv' with hinit | hlastm
  · have hpw := hsplit ▸ hs
    have := (List.pairwise_append.mp hpw).2.2 kv' hinit kv (by simp)
    exact keyLt_asymm this
  · simp only [List.mem_singleton] at hlastm
    subst hlastm
    exact keyLt_irrefl _

/-- Reachable nodes of a tree: the node itself and all descendants. -/
inductive Reach : Node V → Node V → Prop where
  | refl : ∀ n, Reach n n
  | step : ∀ (n : Node V) (l : Nat) (c m : Node V),
      (l, c) ∈ n.edges → Reach c m → Reach n m

/-- Every node reachable from a well-formed node is well-formed under some
path. -/
theorem reach_wf {n m : Node V} (h : Reach n m) :
    ∀ q, WfUnder q n → ∃ q', WfUnder q' m := by
  induction h with
  | refl n => exact fun q hwf => ⟨q, hwf⟩
  | step n l c m hmem hreach ih =>
    exact fun q hwf => ih (q ++ n.pfx) (hwf.childWf l c hmem)

/-- Full Minimum/Maximum correctness at a well-formed node: when the subtree
is empty both return none; otherwise both succeed, Minimum returns a pair of
the subtree whose key is not above any present key, and Maximum returns a
pair whose key is not below any present key. -/
theorem minmax_correct {q : Key} {n : Node V} (hwf : WfUnder q n) :
    (leaves n = [] → minimum n = none ∧ maximum n = none) ∧
    (leaves n ≠ [] → (minimum n).isSome ∧ (maximum n).isSome) ∧
    (∀ kv, minimum n = some kv →
      kv ∈ leaves n ∧ ∀ kv' ∈ leaves n, keyLt kv'.1 kv.1 = false) ∧
    (∀ kv, maximum n = some kv →
      kv ∈ leaves n ∧ ∀ kv' ∈ leaves n, keyLt kv.1 kv'.1 = false) := by
  have hmin := minimum_eq_head q hwf
  have hmax := maximum_eq_getLast q hwf
  have hsorted := sorted_leaves (n := n) q hwf
  refine ⟨?_, ?_, ?_, ?_⟩
  · intro hnil
    rw [hmin, hmax, hnil]
    exact ⟨rfl, rfl⟩
  · intro hne
    cases hl : leaves n with
    | nil => exact absurd hl hne
    | cons y ys =>
      constructor
      · rw [hmin, hl]; rfl
      · rw [hmax, hl]
        cases hys : (y :: ys).getLast? with
        | none => simp at hys
        | some z => rfl
  · intro kv hkv
    rw [hmin] at hkv
    exact head_min_of_sorted hsorted hkv
  · intro kv hkv
    rw [hmax] at hkv
    exact getLast_max_of_sorted hsorted hkv

/-! ### Seek lower bound (iterator), modelled from the spec -/

theorem filter_all {p : α → Bool} : ∀ {l : List α}, (∀ a ∈ l, p a = true) →
    l.filter p = l := by
  intro l h
  induction l with
  | nil => rfl
  | cons a as ih =>
    rw [List.filter_cons, if_pos (h a (List.mem_cons_self _ _))]
    rw [ih (fun b hb => h b (List.mem_cons_of_mem _ hb))]

theorem filter_none {p : α → Bool} : ∀ {l : List α}, (∀ a ∈ l, p a = false) →
    l.filter p = [] := by
  intro l h
  induction l with
  | nil => rfl
  | cons a as ih =>
    rw [List.filter_cons, if_neg (by simp [h a (List.mem_cons_self _ _)])]
    exact ih (fun b hb => h b (List.mem_cons_of_mem _ hb))

/-- Modelled from the spec: `getLowerBoundEdge` ("smallest edge whose label
is ≥ label"), kept together with all following siblings, which the iterator
pushes as future candidates: every deeper sibling subtree qualifies. -/
def lbEdges (label : Nat) : List (Nat × Node V) → List (Nat × Node V)
  | [] => []
  | (l, c) :: rest => if label ≤ l then (l, c) :: rest else lbEdges label rest

theorem lbEdges_suffix (label : Nat) (es : List (Nat × Node V)) :
    ∃ low, es = low ++ lbEdges label es ∧ ∀ p ∈ low, p.1 < label := by
  induction es with
  | nil => exact ⟨[], rfl, by simp⟩
  | cons e rest ih =>
    obtain ⟨l, c⟩ := e
    by_cases h : label ≤ l
    · exact ⟨[], by simp [lbEdges, h], by simp⟩
    · obtain ⟨low, h1, h2⟩ := ih
      refine ⟨(l, c) :: low, ?_, ?_⟩
      · simp only [lbEdges, if_neg h, List.cons_append]
        rw [← h1]
      · intro p hp
        rcases List.mem_cons.mp hp with rfl | hm
        · simpa using Nat.lt_of_not_le h
        · exact h2 p hm

theorem lbEdges_mem {label l : Nat} {c : Node V} {es others : List (Nat × Node V)}
    (h : lbEdges label es = (l, c) :: others) : (l, c) ∈ es := by
  obtain ⟨low, h1, _⟩ := lbEdges_suffix label es
  rw [h1, h]
  exact List.mem_append_right _ (List.mem_cons_self _ _)

theorem lbEdges_head_ge {label : Nat} {es : List (Nat × Node V)} {l : Nat}
    {c : Node V} {others : List (Nat × Node V)}
    (h : lbEdges label es = (l, c) :: others) : label ≤ l := by
  induction es with
  | nil => simp [lbEdges] at h
  | cons e rest ih =>
    obtain ⟨l1, c1⟩ := e
    by_cases hle : label ≤ l1
    · simp only [lbEdges, if_pos hle, List.cons.injEq, Prod.mk.injEq] at h
      obtain ⟨⟨rfl, rfl⟩, rfl⟩ := h
      exact hle
    · simp only [lbEdges, if_neg hle] at h
      exact ih h

/-- Modelled from the spec: the sequence of (key, value) pairs emitted by
repeated Next() after SeekLowerBound. The iterator descends: at each node it
takes the lower-bound edge for the first remaining byte; if that edge's
label is strictly greater than the byte the whole child subtree qualifies
and is walked; if the label matches, the child prefix is compared with the
corresponding slice of the key — a greater prefix means the whole subtree
qualifies, a smaller prefix means the edge is skipped, an equal prefix is
consumed and the descent continues. Siblings after the descent point are
future candidates and contribute all of their leaves, in order. -/
def seekLB (n : Node V) (search : Key) : List (Key × V) :=
  match search with
  | [] => leaves n
  | b :: rest =>
    match hE : lbEdges b n.edges with
    | [] => []
    | (l, c) :: others =>
      (if l = b then
        (if keyLt ((b :: rest).take c.pfx.length) c.pfx then leaves c
         else if keyLt c.pfx ((b :: rest).take c.pfx.length) then []
         else seekLB c ((b :: rest).drop c.pfx.length))
       else leaves c)
      ++ leavesL others
termination_by sizeOf n
decreasing_by exact sizeOf_edge_child (lbEdges_mem hE)

theorem seekLB_nil (n : Node V) : seekLB n [] = leaves n := by
  rw [seekLB]

theorem seekLB_cons_noedge {n : Node V} {b : Nat} {rest : Key}
    (h : lbEdges b n.edges = []) : seekLB n (b :: rest) = [] := by
  rw [seekLB]
  split <;> simp_all

theorem seekLB_cons_edge {n : Node V} {b : Nat} {rest : Key} {l : Nat} {c : Node V}
    {others : List (Nat × Node V)} (h : lbEdges b n.edges = (l, c) :: others) :
    seekLB n (b :: rest) =
      (if l = b then
        (if keyLt ((b :: rest).take c.pfx.length) c.pfx then leaves c
         else if keyLt c.pfx ((b :: rest).take c.pfx.length) then []
         else seekLB c ((b :: rest).drop c.pfx.length))
       else leaves c) ++ leavesL others := by
  rw [seekLB]
  split <;> simp_all

/-- The emission of SeekLowerBound at a well-formed node is exactly the
subsequence of the walk whose keys are ≥ the full seek key. -/
theorem seekLB_filter {n : Node V} : ∀ qp s, WfUnder qp n →
    seekLB n s = (leaves n).filter (fun kv => ! keyLt kv.1 ((qp ++ n.pfx) ++ s)) := by
  induction n using node_ind with
  | _ n IH =>
    intro qp s hwf
    cases s with
    | nil =>
      rw [seekLB_nil]
      symm
      apply filter_all
      intro kv hkv
      have hpre : (qp ++ n.pfx) <+: kv.1 := leaves_keyPrefix qp hwf kv hkv
      simp [keyLt_eq_false_ofPrefix hpre]
    | cons b rest =>
      obtain ⟨low, hsplit, hlow⟩ := lbEdges_suffix b n.edges
      have hleafLt : ∀ x : Key × V, n.leaf = some x →
          keyLt x.1 ((qp ++ n.pfx) ++ (b :: rest)) = true := by
        intro x hlf
        rw [hwf.leafKey x.1 x.2 hlf]
        exact keyLt_self_append _ (by simp)
      have hchildLt : ∀ l1 c1, (l1, c1) ∈ n.edges → l1 < b →
          ∀ kv ∈ leaves c1, keyLt kv.1 ((qp ++ n.pfx) ++ (b :: rest)) = true := by
        intro l1 c1 hm hlt kv hkv
        obtain ⟨t, ht⟩ := child_key_shape hwf hm kv.1 kv.2 hkv
        rw [ht]
        exact keyLt_append_head _ _ _ hlt
      have hchildGt : ∀ l1 c1, (l1, c1) ∈ n.edges → b < l1 →
          ∀ kv ∈ leaves c1, keyLt kv.1 ((qp ++ n.pfx) ++ (b :: rest)) = false := by
        intro l1 c1 hm hlt kv hkv
        obtain ⟨t, ht⟩ := child_key_shape hwf hm kv.1 kv.2 hkv
        rw [ht]
        exact keyLt_asymm (keyLt_append_head _ _ _ hlt)
      simp only [List.append_assoc] at hleafLt hchildLt hchildGt
      cases hE : lbEdges b n.edges with
      | nil =>
        rw [seekLB_cons_noedge hE]
        rw [hE] at hsplit
        symm
        apply filter_none
        intro kv hkv
        rw [leaves_eta] at hkv
        rcases List.mem_append.mp hkv with hlf | hes
        · cases hnl : n.leaf with
          | none => rw [hnl] at hlf; simp at hlf
          | some x =>
            rw [hnl] at hlf
            simp only [Option.toList_some, List.mem_singleton] at hlf
            subst hlf
            simp [hleafLt kv hnl]
        · obtain ⟨l1, c1, hm, hkv1⟩ := mem_leavesL.mp hes
          have hm1 : (l1, c1) ∈ low := by
            rw [hsplit, List.append_nil] at hm
            exact hm
          simp [hchildLt l1 c1 hm (hlow _ hm1) kv hkv1]
      | cons e others =>
        obtain ⟨l, c⟩ := e
        rw [seekLB_cons_edge hE]
        rw [hE] at hsplit
        have hmemc : (l, c) ∈ n.edges := by
          rw [hsplit]
          exact List.mem_append_right _ (List.mem_cons_self _ _)
        have hble := lbEdges_head_ge hE
        have hwfc := hwf.childWf l c hmemc
        have hothers : ∀ l1 c1, (l1, c1) ∈ others → b < l1 := by
          intro l1 c1 hm1
          have hlt : l < l1 := by
            have hsorted := hwf.sortedEdges
            rw [hsplit] at hsorted
            have h1 := (List.pairwise_append.mp hsorted).2.1
            exact List.rel_of_pairwise_cons h1 hm1
          omega
        have hA : (n.leaf.toList).filter
            (fun kv => ! keyLt kv.1 ((qp ++ n.pfx) ++ (b :: rest))) = [] := by
          apply filter_none
          intro kv hkv
          cases hnl : n.leaf with
          | none => rw [hnl] at hkv; simp at hkv
          | some x =>
            rw [hnl] at hkv
            simp only [Option.toList_some, List.mem_singleton] at hkv
            subst hkv
            simp [hleafLt kv hnl]
        have hB : (leavesL low).filter
            (fun kv => ! keyLt kv.1 ((qp ++ n.pfx) ++ (b :: rest))) = [] := by
          apply filter_none
          intro kv hkv
          obtain ⟨l1, c1, hm1, hkv1⟩ := mem_leavesL.mp hkv
          have hm2 : (l1, c1) ∈ n.edges := by
            rw [hsplit]
            exact List.mem_append_left _ hm1
          simp [hchildLt l1 c1 hm2 (hlow _ hm1) kv hkv1]
        have hD : (leavesL others).filter
            (fun kv => ! keyLt kv.1 ((qp ++ n.pfx) ++ (b :: rest))) = leavesL others := by
          apply filter_all
          intro kv hkv
          obtain ⟨l1, c1, hm1, hkv1⟩ := mem_leavesL.mp hkv
          have hm2 : (l1, c1) ∈ n.edges := by
            rw [hsplit]
            exact List.mem_append_right _ (List.mem_cons_of_mem _ hm1)
          simp [hchildGt l1 c1 hm2 (hothers _ _ hm1) kv hkv1]
        have hrhs : (leaves n).filter
            (fun kv => ! keyLt kv.1 ((qp ++ n.pfx) ++ (b :: rest)))
            = (leaves c).filter
                (fun kv => ! keyLt kv.1 ((qp ++ n.pfx) ++ (b :: rest)))
              ++ leavesL others := by
          conv_lhs => rw [leaves_eta, hsplit, leavesL_append, leavesL_cons]
          rw [List.filter_append, List.filter_append, List.filter_append]
          rw [hA, hB, hD]
          simp
        rw [hrhs]
        congr 1
        by_cases hl : l = b
        · subst hl
          by_cases h1 : keyLt ((l :: rest).take c.pfx.length) c.pfx = true
          · rw [if_pos rfl, if_pos h1]
            symm
            apply filter_all
            intro kv hkv
            have hpre := leaves_keyPrefix (qp ++ n.pfx) hwfc kv hkv
            obtain ⟨t, ht⟩ := hpre
            have hkey : kv.1 = (qp ++ n.pfx) ++ (c.pfx ++ t) := by
              rw [← ht, List.append_assoc]
            rw [hkey]
            have hgt : keyLt (l :: rest) (c.pfx ++ t) = true :=
              keyLt_of_take_lt h1 rfl
            simp [keyLt_append_append, keyLt_asymm hgt]
          · by_cases h2 : keyLt c.pfx ((l :: rest).take c.pfx.length) = true
            · rw [if_pos rfl, if_neg h1, if_pos h2]
              symm
              apply filter_none
              intro kv hkv
              have hpre := leaves_keyPrefix (qp ++ n.pfx) hwfc kv hkv
              obtain ⟨t, ht⟩ := hpre
              have hkey : kv.1 = (qp ++ n.pfx) ++ (c.pfx ++ t) := by
                rw [← ht, List.append_assoc]
              rw [hkey]
              have hlt : keyLt (c.pfx ++ t) (l :: rest) = true :=
                keyLt_of_lt_take h2 rfl
              simp [keyLt_append_append, hlt]
            · rw [if_pos rfl, if_neg h1, if_neg h2]
              have h1f : keyLt ((l :: rest).take c.pfx.length) c.pfx = false :=
                Bool.eq_false_iff.mpr h1
              have h2f : keyLt c.pfx ((l :: rest).take c.pfx.length) = false :=
                Bool.eq_false_iff.mpr h2
              have hslice : (l :: rest).take c.pfx.length = c.pfx :=
                keyLt_conn h1f h2f
              have hpre : c.pfx <+: (l :: rest) := by
                rw [← hslice]
                exact List.take_prefix _ _
              obtain ⟨s1, hs1⟩ := hpre
              have hdrop : (l :: rest).drop c.pfx.length = s1 := by
                rw [← hs1]
                exact List.drop_left _ _
              rw [hdrop]
              rw [IH l c hmemc (qp ++ n.pfx) s1 hwfc]
              congr 1
              rw [List.append_assoc, hs1]
        · rw [if_neg hl]
          have hblt : b < l := Nat.lt_of_le_of_ne hble (fun h => hl h.symm)
          symm
          apply filter_all
          intro kv hkv
          simp [hchildGt l c hmemc hblt kv hkv]

/-! ### The heap model (iradix.go pointers, writeNode, mergeChild, Commit) -/

/-- A heap cell: one Go Node object; edges hold heap addresses of children
(node.go Node with pointers made explicit). -/
structure HCell (V : Type) where
  leaf  : Option (Key × V)
  pfx   : Key
  edges : List (Nat × Nat)

/-- The heap: Go objects live at addresses 0, 1, 2, …; allocation appends a
cell at the next address. -/
abbrev Heap (V : Type) := List (HCell V)

/-- iradix.go New: a tree whose root is a fresh empty node; the heap holding
exactly that node, at address 0. -/
def hNew : Heap V := [⟨none, [], []⟩]

/-- iradix.go Txn.writeNode: allocate a fresh copy of a node; the copy's
contents equal the original's. Returns the new heap and the copy's address. -/
def hWriteNode (h : Heap V) (cell : HCell V) : Heap V × Nat :=
  (h ++ [cell], h.length)

/-- iradix.go Txn.mergeChild: collapse a node with its single child, in place
at address `a`: the prefix becomes the concatenation, leaf and edges become
the child's. `none` models an invalid read (never reached by callers). -/
def hMergeChild (h : Heap V) (a : Nat) : Option (Heap V) :=
  match h[a]? with
  | none => none
  | some cell =>
    match cell.edges with
    | [] => none
    | (_, ca) :: _ =>
      match h[ca]? with
      | none => none
      | some child =>
        some (h.set a ⟨child.leaf, cell.pfx ++ child.pfx, child.edges⟩)

/-- iradix.go Txn.insert on the heap: path-copying insertion along the
search key. Returns the new heap, the replacement root address (`none` when
the recursive call returned nil), the previous value, and the update flag;
the outer `none` models fuel exhaustion or an invalid read. -/
def hInsert (fuel : Nat) (h : Heap V) (a : Nat) (k search : Key) (v : V) :
    Option (Heap V × Option Nat × Option V × Bool) :=
  match fuel with
  | 0 => none
  | fuel + 1 =>
    match h[a]? with
    | none => none
    | some n =>
      match search with
      | [] =>
        let (h1, nc) := hWriteNode h n
        let h2 := h1.set nc ⟨some (k, v), n.pfx, n.edges⟩
        some (h2, some nc, n.leaf.map Prod.snd, n.leaf.isSome)
      | b :: _ =>
        match getEdge b n.edges with
        | none =>
          let (h1, ca) := hWriteNode h ⟨some (k, v), search, []⟩
          let (h2, nc) := hWriteNode h1 n
          let h3 := h2.set nc ⟨n.leaf, n.pfx, addEdge (b, ca) n.edges⟩
          some (h3, some nc, none, false)
        | some (idx, caddr) =>
          match h[caddr]? with
          | none => none
          | some child =>
            let cp := longestPrefix search child.pfx
            if cp = child.pfx.length then
              match hInsert fuel h caddr k (search.drop cp) v with
              | none => none
              | some (h1, some nca, oldVal, didUpdate) =>
                let (h2, nc) := hWriteNode h1 n
                let h3 := h2.set nc ⟨n.leaf, n.pfx, setEdgeNode n.edges idx nca⟩
                some (h3, some nc, oldVal, didUpdate)
              | some (h1, none, oldVal, didUpdate) =>
                some (h1, none, oldVal, didUpdate)
            else
              let (h1, nc) := hWriteNode h n
              let (h2, sa) := hWriteNode h1 ⟨none, search.take cp, []⟩
              match replaceEdge b sa n.edges with
              | none => none
              | some es1 =>
                let h3 := h2.set nc ⟨n.leaf, n.pfx, es1⟩
                let (h4, ma) := hWriteNode h3 child
                let se1 := addEdge (child.pfx.getD cp 0, ma) []
                let h5 := h4.set sa ⟨none, search.take cp, se1⟩
                let h6 := h5.set ma ⟨child.leaf, child.pfx.drop cp, child.edges⟩
                match search.drop cp with
                | [] =>
                  let h7 := h6.set sa ⟨some (k, v), search.take cp, se1⟩
                  some (h7, some nc, none, false)
                | b2 :: r2 =>
                  let (h7, la) := hWriteNode h6 ⟨some (k, v), b2 :: r2, []⟩
                  let h8 := h7.set sa ⟨none, search.take cp, addEdge (b2, la) se1⟩
                  some (h8, some nc, none, false)

/-- iradix.go Txn.delete on the heap: `root` is the transaction root address
the Go code compares against (n != t.root). Returns `some (h, none)` when
the key is absent (the Go code returns nil without allocating anything) and
the replacement root address with the removed leaf pair otherwise. -/
def hDelete (fuel : Nat) (h : Heap V) (root a : Nat) (search : Key) :
    Option (Heap V × Option (Nat × (Key × V))) :=
  match fuel with
  | 0 => none
  | fuel + 1 =>
    match h[a]? with
    | none => none
    | some n =>
      match search with
      | [] =>
        match n.leaf with
        | none => some (h, none)
        | some oldLeaf =>
          let (h1, nc) := hWriteNode h n
          let h2 := h1.set nc ⟨none, n.pfx, n.edges⟩
          if a ≠ root ∧ n.edges.length = 1 then
            match hMergeChild h2 nc with
            | none => none
            | some h3 => some (h3, some (nc, oldLeaf))
          else
            some (h2, some (nc, oldLeaf))
      | b :: _ =>
        match getEdge b n.edges with
        | none => some (h, none)
        | some (idx, caddr) =>
          match h[caddr]? with
          | none => none
          | some child =>
            if child.pfx.isPrefixOf search then
              match hDelete fuel h root caddr (search.drop child.pfx.length) with
              | none => none
              | some (h1, none) => some (h1, none)
              | some (h1, some (nca, lf)) =>
                match h1[nca]? with
                | none => none
                | some newChild =>
                  let (h2, nc) := hWriteNode h1 n
                  if newChild.leaf.isNone ∧ newChild.edges.isEmpty then
                    let h3 := h2.set nc ⟨n.leaf, n.pfx, delEdge b n.edges⟩
                    if a ≠ root ∧ (delEdge b n.edges).length = 1 ∧ n.leaf.isNone then
                      match hMergeChild h3 nc with
                      | none => none
                      | some h4 => some (h4, some (nc, lf))
                    else
                      some (h3, some (nc, lf))
                  else
                    let h3 := h2.set nc ⟨n.leaf, n.pfx, setEdgeNode n.edges idx nca⟩
                    some (h3, some (nc, lf))
            else
              some (h, none)

/-- node.go Node.Get read through the heap: the outer `none` is fuel
exhaustion or an invalid read, `some r` the Go result (`r = none` means
found = false). -/
def hGet (fuel : Nat) (h : Heap V) (a : Nat) (search : Key) : Option (Option V) :=
  match fuel with
  | 0 => none
  | fuel + 1 =>
    match h[a]? with
    | none => none
    | some n =>
      match search with
      | [] => some (n.leaf.map Prod.snd)
      | b :: _ =>
        match getEdge b n.edges with
        | none => some none
        | some (_, ca) =>
          match h[ca]? with
          | none => none
          | some child =>
            if child.pfx.isPrefixOf search then
              hGet fuel h ca (search.drop child.pfx.length)
            else some none

mutual
/-- The value tree stored at an address: a full structural (deep) read of
the heap, used to express structural deep-comparison of snapshots. -/
def reify : Nat → Heap V → Nat → Option (Node V)
  | 0, _, _ => none
  | fuel + 1, h, a =>
    match h[a]? with
    | none => none
    | some n =>
      match reifyEdges fuel h n.edges with
      | none => none
      | some cs => some (Node.mk n.leaf n.pfx cs)
termination_by fuel _ _ => (fuel, 0)

/-- Deep read of an edge list. -/
def reifyEdges : Nat → Heap V → List (Nat × Nat) → Option (List (Nat × Node V))
  | _, _, [] => some []
  | fuel, h, (l, ca) :: rest =>
    match reify fuel h ca, reifyEdges fuel h rest with
    | some c, some cs => some ((l, c) :: cs)
    | _, _ => none
termination_by fuel _ es => (fuel, es.length + 1)
end

/-- A transaction (iradix.go Txn): working root and original root address. -/
structure HTxn where
  root : Nat
  orig : Nat

/-- iradix.go Tree.Txn: both roots start at the committed root. -/
def hTxnOf (r : Nat) : HTxn := ⟨r, r⟩

/-- iradix.go Txn.Insert: recursive insert from the working root; replace
the working root when a replacement was produced. -/
def hTxnInsert (fuel : Nat) (h : Heap V) (t : HTxn) (k : Key) (v : V) :
    Option (Heap V × HTxn × Option V × Bool) :=
  match hInsert fuel h t.root k k v with
  | none => none
  | some (h1, some r, oldVal, didUpdate) => some (h1, ⟨r, t.orig⟩, oldVal, didUpdate)
  | some (h1, none, oldVal, didUpdate) => some (h1, t, oldVal, didUpdate)

/-- iradix.go Txn.Delete. -/
def hTxnDelete (fuel : Nat) (h : Heap V) (t : HTxn) (k : Key) :
    Option (Heap V × HTxn × Option V) :=
  match hDelete fuel h t.root t.root k with
  | none => none
  | some (h1, none) => some (h1, t, none)
  | some (h1, some (r, lf)) => some (h1, ⟨r, t.orig⟩, some lf.2)

/-- iradix.go Txn.Commit: the committed root together with the mutated flag,
the pointer comparison t.root != t.orig. -/
def hCommit (t : HTxn) : Nat × Bool := (t.root, decide (t.root ≠ t.orig))

/-- One transactional operation on the heap. -/
def hApplyOp (fuel : Nat) (h : Heap V) (t : HTxn) : Op V → Option (Heap V × HTxn)
  | Op.ins k v => (hTxnInsert fuel h t k v).map (fun r => (r.1, r.2.1))
  | Op.del k => (hTxnDelete fuel h t k).map (fun r => (r.1, r.2.1))

/-- A sequence of transactional operations on the heap. -/
def hRunOps (fuel : Nat) (h : Heap V) (t : HTxn) : List (Op V) → Option (Heap V × HTxn)
  | [] => some (h, t)
  | op :: rest =>
    match hApplyOp fuel h t op with
    | none => none
    | some (h1, t1) => hRunOps fuel h1 t1 rest

/-- Heap extension: the new heap has at least the old cells, unchanged, at
their old addresses. -/
def hExt (h0 h1 : Heap V) : Prop :=
  h0.length ≤ h1.length ∧ ∀ a, a < h0.length → h1[a]? = h0[a]?

/-- Closedness: every edge of every cell targets a valid address. -/
def hClosed (h : Heap V) : Prop :=
  ∀ cell ∈ h, ∀ e ∈ cell.edges, e.2 < h.length

theorem hExt_refl (h : Heap V) : hExt h h := ⟨le_refl _, fun _ _ => rfl⟩

theorem hExt_trans {h0 h1 h2 : Heap V} (e1 : hExt h0 h1) (e2 : hExt h1 h2) :
    hExt h0 h2 :=
  ⟨le_trans e1.1 e2.1,
   fun a ha => (e2.2 a (lt_of_lt_of_le ha e1.1)).trans (e1.2 a ha)⟩

theorem hExt_append (h : Heap V) (cell : HCell V) : hExt h (h ++ [cell]) := by
  refine ⟨by simp, fun a ha => ?_⟩
  rw [List.getElem?_append, if_pos ha]

theorem hExt_set {h0 h1 : Heap V} (he : hExt h0 h1) {a : Nat}
    (ha : h0.length ≤ a) (cell : HCell V) : hExt h0 (h1.set a cell) := by
  refine ⟨by simpa using he.1, fun b hb => ?_⟩
  rw [List.getElem?_set_ne (by omega)]
  exact he.2 b hb

theorem hMergeChild_shape {h : Heap V} {a : Nat} {h1 : Heap V}
    (hm : hMergeChild h a = some h1) : ∃ cell, h1 = h.set a cell := by
  rw [hMergeChild] at hm
  split at hm
  · exact absurd hm (by simp)
  · split at hm
    · exact absurd hm (by simp)
    · split at hm
      · exact absurd hm (by simp)
      · exact ⟨_, (Option.some.inj hm).symm⟩

/-- Extension survives allocation. -/
theorem hExt_snoc {h0 h1 : Heap V} (he : hExt h0 h1) (cell : HCell V) :
    hExt h0 (h1 ++ [cell]) := hExt_trans he (hExt_append h1 cell)

/-- Framing of the heap insert: the original cells are untouched (every
write targets a freshly allocated address) and the returned replacement
root is always produced, at a fresh address. -/
theorem hInsert_frame :
    ∀ (fuel : Nat) (h : Heap V) (a : Nat) (k s : Key) (v : V)
      (h1 : Heap V) (nr : Option Nat) (o : Option V) (u : Bool),
      hInsert fuel h a k s v = some (h1, nr, o, u) →
      hExt h h1 ∧ ∃ r, nr = some r ∧ h.length ≤ r ∧ r < h1.length := by
  intro fuel
  induction fuel with
  | zero =>
    intro h a k s v h1 nr o u heq
    simp [hInsert] at heq
  | succ fuel ih =>
    intro h a k s v h1 nr o u heq
    simp only [hInsert] at heq
    cases hna : h[a]? with
    | none => simp only [hna] at heq; exact absurd heq (by simp)
    | some n =>
      simp only [hna] at heq
      cases s with
      | nil =>
        simp only [hWriteNode, Option.some.injEq, Prod.mk.injEq] at heq
        obtain ⟨rfl, rfl, rfl, rfl⟩ := heq
        refine ⟨hExt_set (hExt_append h n) (le_refl _) _, h.length, rfl, le_refl _, ?_⟩
        simp
      | cons b brest =>
        cases hge : getEdge b n.edges with
        | none =>
          simp only [hge, hWriteNode, Option.some.injEq, Prod.mk.injEq] at heq
          obtain ⟨rfl, rfl, rfl, rfl⟩ := heq
          refine ⟨?_, _, rfl, ?_, ?_⟩
          · refine hExt_set ?_ ?_ _
            · exact hExt_snoc (hExt_snoc (hExt_refl h) _) _
            · try simp only [List.length_append, List.length_cons, List.length_nil]
              omega
          · try simp only [List.length_append, List.length_cons, List.length_nil]
            omega
          · try simp only [List.length_set, List.length_append, List.length_cons,
              List.length_nil]
            omega
        | some ic =>
          obtain ⟨idx, caddr⟩ := ic
          simp only [hge] at heq
          cases hnc : h[caddr]? with
          | none => simp only [hnc] at heq; exact absurd heq (by simp)
          | some child =>
            simp only [hnc] at heq
            by_cases hcp : longestPrefix (b :: brest) child.pfx = child.pfx.length
            · rw [if_pos hcp] at heq
              cases hrec : hInsert fuel h caddr k ((b :: brest).drop (longestPrefix (b :: brest) child.pfx)) v with
              | none => simp only [hrec] at heq; exact absurd heq (by simp)
              | some res =>
                obtain ⟨hr, nrr, orr, urr⟩ := res
                obtain ⟨hext, r, hnr, hrlo, hrhi⟩ :=
                  ih h caddr k _ v hr nrr orr urr hrec
                subst hnr
                simp only [hrec, hWriteNode, Option.some.injEq, Prod.mk.injEq] at heq
                obtain ⟨rfl, rfl, rfl, rfl⟩ := heq
                refine ⟨?_, hr.length, rfl, le_trans hrlo (le_of_lt hrhi), ?_⟩
                · exact hExt_set (hExt_snoc hext _) hext.1 _
                · try simp only [List.length_set, List.length_append, List.length_cons,
                    List.length_nil]
                  omega
            · rw [if_neg hcp] at heq
              simp only [hWriteNode] at heq
              cases hre : replaceEdge b (h ++ [n]).length n.edges with
              | none => simp only [hre] at heq; exact absurd heq (by simp)
              | some es1 =>
                simp only [hre] at heq
                cases hdr : (b :: brest).drop (longestPrefix (b :: brest) child.pfx) with
                | nil =>
                  simp only [hdr, Option.some.injEq, Prod.mk.injEq] at heq
                  obtain ⟨rfl, rfl, rfl, rfl⟩ := heq
                  refine ⟨?_, h.length, rfl, le_refl _, ?_⟩
                  · refine hExt_set ?_ ?_ _
                    · refine hExt_set ?_ ?_ _
                      · refine hExt_set ?_ ?_ _
                        · refine hExt_snoc ?_ _
                          refine hExt_set ?_ ?_ _
                          · exact hExt_snoc (hExt_snoc (hExt_refl h) _) _
                          · try simp only [List.length_append, List.length_cons,
                              List.length_nil]
                            omega
                        · try simp only [List.length_set, List.length_append,
                            List.length_cons, List.length_nil]
                          omega
                      · try simp only [List.length_set, List.length_append,
                          List.length_cons, List.length_nil]
                        omega
                    · try simp only [List.length_set, List.length_append,
                        List.length_cons, List.length_nil]
                      omega
                  · try simp only [List.length_set, List.length_append,
                      List.length_cons, List.length_nil]
                    omega
                | cons b2 r2 =>
                  simp only [hdr, Option.some.injEq, Prod.mk.injEq] at heq
                  obtain ⟨rfl, rfl, rfl, rfl⟩ := heq
                  refine ⟨?_, h.length, rfl, le_refl _, ?_⟩
                  · refine hExt_set ?_ ?_ _
                    · refine hExt_snoc ?_ _
                      refine hExt_set ?_ ?_ _
                      · refine hExt_set ?_ ?_ _
                        · refine hExt_snoc ?_ _
                          refine hExt_set ?_ ?_ _
                          · exact hExt_snoc (hExt_snoc (hExt_refl h) _) _
                          · try simp only [List.length_append, List.length_cons,
                              List.length_nil]
                            omega
                        · try simp only [List.length_set, List.length_append,
                            List.length_cons, List.length_nil]
                          omega
                      · try simp only [List.length_set, List.length_append,
                          List.length_cons, List.length_nil]
                        omega
                    · try simp only [List.length_set, List.length_append,
                        List.length_cons, List.length_nil]
                      omega
                  · try simp only [List.length_set, List.length_append,
                      List.length_cons, List.length_nil]
                    omega

/-- Framing of the heap delete: the original cells are untouched; a
not-found result leaves the heap untouched altogether (the Go code returns
nil before allocating anything); a found result returns a fresh root. -/
theorem hDelete_frame :
    ∀ (fuel : Nat) (h : Heap V) (root a : Nat) (s : Key) (h1 : Heap V)
      (res : Option (Nat × (Key × V))),
      hDelete fuel h root a s = some (h1, res) →
      hExt h h1 ∧ (res = none → h1 = h) ∧
        ∀ r lf, res = some (r, lf) → h.length ≤ r ∧ r < h1.length := by
  intro fuel
  induction fuel with
  | zero =>
    intro h root a s h1 res heq
    simp [hDelete] at heq
  | succ fuel ih =>
    intro h root a s h1 res heq
    simp only [hDelete] at heq
    cases hna : h[a]? with
    | none => simp only [hna] at heq; exact absurd heq (by simp)
    | some n =>
      simp only [hna] at heq
      cases s with
      | nil =>
        cases hnl : n.leaf with
        | none =>
          simp only [hnl, Option.some.injEq, Prod.mk.injEq] at heq
          obtain ⟨rfl, rfl⟩ := heq
          exact ⟨hExt_refl h, fun _ => rfl, fun r lf hr => by simp at hr⟩
        | some oldLeaf =>
          simp only [hnl, hWriteNode] at heq
          by_cases hmrg : a ≠ root ∧ n.edges.length = 1
          · rw [if_pos hmrg] at heq
            cases hmc : hMergeChild ((h ++ [n]).set h.length ⟨none, n.pfx, n.edges⟩) h.length with
            | none => simp only [hmc] at heq; exact absurd heq (by simp)
            | some h3 =>
              simp only [hmc, Option.some.injEq, Prod.mk.injEq] at heq
              obtain ⟨rfl, rfl⟩ := heq
              obtain ⟨cell, rfl⟩ := hMergeChild_shape hmc
              refine ⟨?_, by simp, ?_⟩
              · refine hExt_set ?_ ?_ _
                · exact hExt_set (hExt_snoc (hExt_refl h) _) (le_refl _) _
                · try simp only [List.length_append, List.length_cons, List.length_nil]
                  omega
              · intro r lf hr
                simp only [Option.some.injEq, Prod.mk.injEq] at hr
                obtain ⟨rfl, rfl⟩ := hr
                constructor
                · try simp only [List.length_append, List.length_cons, List.length_nil]
                  omega
                · try simp only [List.length_set, List.length_append, List.length_cons, List.length_nil]
                  omega
          · rw [if_neg hmrg] at heq
            simp only [Option.some.injEq, Prod.mk.injEq] at heq
            obtain ⟨rfl, rfl⟩ := heq
            refine ⟨hExt_set (hExt_snoc (hExt_refl h) _) (le_refl _) _, by simp, ?_⟩
            intro r lf hr
            simp only [Option.some.injEq, Prod.mk.injEq] at hr
            obtain ⟨rfl, rfl⟩ := hr
            constructor
            · try simp only [List.length_append, List.length_cons, List.length_nil]
              omega
            · try simp only [List.length_set, List.length_append, List.length_cons, List.length_nil]
              omega
      | cons b brest =>
        cases hge : getEdge b n.edges with
        | none =>
          simp only [hge, Option.some.injEq, Prod.mk.injEq] at heq
          obtain ⟨rfl, rfl⟩ := heq
          exact ⟨hExt_refl h, fun _ => rfl, fun r lf hr => by simp at hr⟩
        | some ic =>
          obtain ⟨idx, caddr⟩ := ic
          simp only [hge] at heq
          cases hnc : h[caddr]? with
          | none => simp only [hnc] at heq; exact absurd heq (by simp)
          | some child =>
            simp only [hnc] at heq
            by_cases hpf : child.pfx.isPrefixOf (b :: brest) = true
            · rw [if_pos hpf] at heq
              cases hrec : hDelete fuel h root caddr ((b :: brest).drop child.pfx.length) with
              | none => simp only [hrec] at heq; exact absurd heq (by simp)
              | some r1 =>
                obtain ⟨hr, res1⟩ := r1
                obtain ⟨hext, hnone, hsome⟩ := ih h root caddr _ hr res1 hrec
                cases res1 with
                | none =>
                  simp only [hrec, Option.some.injEq, Prod.mk.injEq] at heq
                  obtain ⟨rfl, rfl⟩ := heq
                  exact ⟨hext, fun _ => hnone rfl, fun r lf hr2 => by simp at hr2⟩
                | some p =>
                  obtain ⟨nca, lf1⟩ := p
                  obtain ⟨hlo, hhi⟩ := hsome nca lf1 rfl
                  simp only [hrec] at heq
                  cases hnc2 : hr[nca]? with
                  | none => simp only [hnc2] at heq; exact absurd heq (by simp)
                  | some newChild =>
                    simp only [hnc2, hWriteNode] at heq
                    by_cases hempty : newChild.leaf.isNone = true ∧ newChild.edges.isEmpty = true
                    · rw [if_pos hempty] at heq
                      by_cases hmrg : a ≠ root ∧ (delEdge b n.edges).length = 1 ∧ n.leaf.isNone = true
                      · rw [if_pos hmrg] at heq
                        cases hmc : hMergeChild ((hr ++ [n]).set hr.length ⟨n.leaf, n.pfx, delEdge b n.edges⟩) hr.length with
                        | none => simp only [hmc] at heq; exact absurd heq (by simp)
                        | some h4 =>
                          simp only [hmc, Option.some.injEq, Prod.mk.injEq] at heq
                          obtain ⟨rfl, rfl⟩ := heq
                          obtain ⟨cell, rfl⟩ := hMergeChild_shape hmc
                          refine ⟨?_, by simp, ?_⟩
                          · refine hExt_set ?_ ?_ _
                            · exact hExt_set (hExt_snoc hext _) hext.1 _
                            · try simp only [List.length_append, List.length_cons, List.length_nil]
                              omega
                          · intro r lf hr2
                            simp only [Option.some.injEq, Prod.mk.injEq] at hr2
                            obtain ⟨rfl, rfl⟩ := hr2
                            constructor
                            · try simp only [List.length_append, List.length_cons, List.length_nil]
                              omega
                            · try simp only [List.length_set, List.length_append, List.length_cons, List.length_nil]
                              omega
                      · rw [if_neg hmrg] at heq
                        simp only [Option.some.injEq, Prod.mk.injEq] at heq
                        obtain ⟨rfl, rfl⟩ := heq
                        refine ⟨hExt_set (hExt_snoc hext _) hext.1 _, by simp, ?_⟩
                        intro r lf hr2
                        simp only [Option.some.injEq, Prod.mk.injEq] at hr2
                        obtain ⟨rfl, rfl⟩ := hr2
                        constructor
                        · exact le_trans hext.1 (by omega)
                        · try simp only [List.length_set, List.length_append, List.length_cons, List.length_nil]
                          omega
                    · rw [if_neg hempty] at heq
                      simp only [Option.some.injEq, Prod.mk.injEq] at heq
                      obtain ⟨rfl, rfl⟩ := heq
                      refine ⟨hExt_set (hExt_snoc hext _) hext.1 _, by simp, ?_⟩
                      intro r lf hr2
                      simp only [Option.some.injEq, Prod.mk.injEq] at hr2
                      obtain ⟨rfl, rfl⟩ := hr2
                      constructor
                      · exact le_trans hext.1 (by omega)
                      · try simp only [List.length_set, List.length_append, List.length_cons, List.length_nil]
                        omega
            · rw [if_neg hpf] at heq
              simp only [Option.some.injEq, Prod.mk.injEq] at heq
              obtain ⟨rfl, rfl⟩ := heq
              exact ⟨hExt_refl h, fun _ => rfl, fun r lf hr => by simp at hr⟩

theorem reify_zero {h : Heap V} {a : Nat} : reify 0 h a = none := by
  rw [reify]

theorem reify_succ (fuel : Nat) (h : Heap V) (a : Nat) :
    reify (fuel + 1) h a =
      match h[a]? with
      | none => none
      | some n =>
        match reifyEdges fuel h n.edges with
        | none => none
        | some cs => some (Node.mk n.leaf n.pfx cs) := by
  rw [reify]

theorem reifyEdges_nil {fuel : Nat} {h : Heap V} : reifyEdges fuel h [] = some [] := by
  rw [reifyEdges]

theorem reifyEdges_cons (fuel : Nat) (h : Heap V) (l ca : Nat)
    (rest : List (Nat × Nat)) :
    reifyEdges fuel h ((l, ca) :: rest) =
      match reify fuel h ca, reifyEdges fuel h rest with
      | some c, some cs => some ((l, c) :: cs)
      | _, _ => none := by
  rw [reifyEdges]

theorem mem_of_getElem?_some {l : List α} {i : Nat} {x : α} (h : l[i]? = some x) :
    x ∈ l := by
  have hi : i < l.length := by
    by_contra hcon
    rw [List.getElem?_eq_none_iff.mpr (by omega)] at h
    exact absurd h (by simp)
  rw [List.getElem?_eq_getElem hi] at h
  rw [← Option.some.inj h]
  exact List.getElem_mem hi

/-- Reads through an untouched address agree between a heap and any
extension of it, provided the original heap is closed. -/
theorem hGet_ext {h0 h1 : Heap V} (hc : hClosed h0) (he : hExt h0 h1) :
    ∀ fuel a k, a < h0.length → hGet fuel h1 a k = hGet fuel h0 a k := by
  intro fuel
  induction fuel with
  | zero => intro a k ha; rfl
  | succ fuel ihf =>
    intro a k ha
    simp only [hGet]
    rw [he.2 a ha]
    cases hn0 : h0[a]? with
    | none => rfl
    | some n =>
      have hmem : n ∈ h0 := mem_of_getElem?_some hn0
      dsimp only
      cases k with
      | nil => rfl
      | cons b brest =>
        dsimp only
        cases hge : getEdge b n.edges with
        | none => rfl
        | some ic =>
          obtain ⟨i, ca⟩ := ic
          have hca : ca < h0.length := hc n hmem (b, ca) (getEdge_mem hge)
          dsimp only
          rw [he.2 ca hca]
          cases hc0 : h0[ca]? with
          | none => rfl
          | some child =>
            dsimp only
            by_cases hpf : child.pfx.isPrefixOf (b :: brest) = true
            · rw [if_pos hpf, if_pos hpf]
              exact ihf ca _ hca
            · rw [if_neg hpf, if_neg hpf]

/-- Deep reads through an untouched address agree between a heap and any
extension of it: the structural snapshot of an old root is preserved. -/
theorem reify_ext {h0 h1 : Heap V} (hc : hClosed h0) (he : hExt h0 h1) :
    ∀ fuel, (∀ a, a < h0.length → reify fuel h1 a = reify fuel h0 a) ∧
      (∀ es : List (Nat × Nat), (∀ e ∈ es, e.2 < h0.length) →
        reifyEdges fuel h1 es = reifyEdges fuel h0 es) := by
  intro fuel
  induction fuel with
  | zero =>
    refine ⟨fun a _ => by rw [reify_zero, reify_zero], ?_⟩
    intro es hes
    induction es with
    | nil => rw [reifyEdges_nil, reifyEdges_nil]
    | cons e rest ihe =>
      obtain ⟨l, ca⟩ := e
      rw [reifyEdges_cons, reifyEdges_cons, reify_zero, reify_zero]
  | succ fuel ihf =>
    have hr : ∀ a, a < h0.length → reify (fuel + 1) h1 a = reify (fuel + 1) h0 a := by
      intro a ha
      rw [reify_succ, reify_succ, he.2 a ha]
      cases hn0 : h0[a]? with
      | none => rfl
      | some n =>
        have hmem : n ∈ h0 := mem_of_getElem?_some hn0
        dsimp only
        rw [ihf.2 n.edges (fun e hee => hc n hmem e hee)]
    refine ⟨hr, ?_⟩
    intro es
    induction es with
    | nil => intro _; rw [reifyEdges_nil, reifyEdges_nil]
    | cons e rest ihe =>
      intro hes
      obtain ⟨l, ca⟩ := e
      rw [reifyEdges_cons, reifyEdges_cons]
      rw [hr ca (hes (l, ca) (List.mem_cons_self _ _))]
      rw [ihe (fun e hee => hes e (List.mem_cons_of_mem _ hee))]

/-- Framing of one transactional operation. -/
theorem hApplyOp_frame {fuel : Nat} {h : Heap V} {t : HTxn} {op : Op V}
    {h1 : Heap V} {t1 : HTxn} (heq : hApplyOp fuel h t op = some (h1, t1)) :
    hExt h h1 := by
  cases op with
  | ins k v =>
    simp only [hApplyOp, hTxnInsert] at heq
    cases hin : hInsert fuel h t.root k k v with
    | none => simp only [hin] at heq; exact absurd heq (by simp)
    | some res =>
      obtain ⟨hr, nrr, orr, urr⟩ := res
      obtain ⟨hext, r, hnr, _, _⟩ := hInsert_frame fuel h t.root k k v hr nrr orr urr hin
      subst hnr
      simp only [hin, Option.map_some, Option.some.injEq, Prod.mk.injEq] at heq
      obtain ⟨rfl, rfl⟩ := heq
      exact hext
  | del k =>
    simp only [hApplyOp, hTxnDelete] at heq
    cases hdl : hDelete fuel h t.root t.root k with
    | none => simp only [hdl] at heq; exact absurd heq (by simp)
    | some res =>
      obtain ⟨hr, res1⟩ := res
      obtain ⟨hext, _, _⟩ := hDelete_frame fuel h t.root t.root k hr res1 hdl
      cases res1 with
      | none =>
        simp only [hdl, Option.map_some, Option.some.injEq, Prod.mk.injEq] at heq
        obtain ⟨rfl, rfl⟩ := heq
        exact hext
      | some p =>
        simp only [hdl, Option.map_some, Option.some.injEq, Prod.mk.injEq] at heq
        obtain ⟨rfl, rfl⟩ := heq
        exact hext

/-- Framing of a whole sequence of transactional operations. -/
theorem hRunOps_ext :
    ∀ (ops : List (Op V)) (fuel : Nat) (h : Heap V) (t : HTxn) (h1 : Heap V)
      (t1 : HTxn), hRunOps fuel h t ops = some (h1, t1) → hExt h h1 := by
  intro ops
  induction ops with
  | nil =>
    intro fuel h t h1 t1 heq
    simp only [hRunOps, Option.some.injEq, Prod.mk.injEq] at heq
    obtain ⟨rfl, rfl⟩ := heq
    exact hExt_refl h
  | cons op rest ih =>
    intro fuel h t h1 t1 heq
    simp only [hRunOps] at heq
    cases hop : hApplyOp fuel h t op with
    | none => simp only [hop] at heq; exact absurd heq (by simp)
    | some p =>
      obtain ⟨h2, t2⟩ := p
      simp only [hop] at heq
      exact hExt_trans (hApplyOp_frame hop) (ih fuel h2 t2 h1 t1 heq)

/-- Mutation isolation: after any number of transactional operations, every
address of the original heap still holds the same cell, point reads through
it are unchanged, and a structural deep read of it is unchanged. -/
theorem mutation_isolation {fuel : Nat} {h0 : Heap V} {t0 : HTxn}
    {ops : List (Op V)} {h1 : Heap V} {t1 : HTxn} (hc : hClosed h0)
    (hrun : hRunOps fuel h0 t0 ops = some (h1, t1)) :
    ∀ a, a < h0.length →
      h1[a]? = h0[a]? ∧
      (∀ f k, hGet f h1 a k = hGet f h0 a k) ∧
      (∀ f, reify f h1 a = reify f h0 a) := by
  have hext := hRunOps_ext ops fuel h0 t0 h1 t1 hrun
  intro a ha
  exact ⟨hext.2 a ha, fun f k => hGet_ext hc hext f a k ha,
    fun f => (reify_ext hc hext f).1 a ha⟩

/-- Txn.Insert always replaces the working root with a freshly allocated
node, so a commit after it always reports mutated. -/
theorem hTxnInsert_mutates {fuel : Nat} {h : Heap V} {t : HTxn} {k : Key}
    {v : V} {h1 : Heap V} {t1 : HTxn} {o : Option V} {u : Bool}
    (heq : hTxnInsert fuel h t k v = some (h1, t1, o, u))
    (horig : t.orig < h.length) :
    t1.orig = t.orig ∧ h.length ≤ t1.root ∧ (hCommit t1).2 = true := by
  simp only [hTxnInsert] at heq
  cases hin : hInsert fuel h t.root k k v with
  | none => simp only [hin] at heq; exact absurd heq (by simp)
  | some res =>
    obtain ⟨hr, nrr, orr, urr⟩ := res
    obtain ⟨hext, r, hnr, hrlo, hrhi⟩ :=
      hInsert_frame fuel h t.root k k v hr nrr orr urr hin
    subst hnr
    simp only [hin, Option.some.injEq, Prod.mk.injEq] at heq
    obtain ⟨rfl, rfl, rfl, rfl⟩ := heq
    refine ⟨rfl, hrlo, ?_⟩
    simp only [hCommit, decide_eq_true_eq]
    omega

/-- Deleting an absent key answers not-found and leaves the heap untouched:
the recursive delete mirrors the failed lookup and returns before
allocating anything. -/
theorem hDelete_absent :
    ∀ (f : Nat) (h : Heap V) (a : Nat) (k : Key), hGet f h a k = some none →
      ∀ (root fuel : Nat), f ≤ fuel → hDelete fuel h root a k = some (h, none) := by
  intro f
  induction f with
  | zero =>
    intro h a k hg
    simp [hGet] at hg
  | succ f ihf =>
    intro h a k hg root fuel hle
    cases fuel with
    | zero => omega
    | succ fuel =>
      simp only [hGet] at hg
      simp only [hDelete]
      cases hn0 : h[a]? with
      | none => simp only [hn0] at hg; exact absurd hg (by simp)
      | some n =>
        simp only [hn0] at hg ⊢
        cases k with
        | nil =>
          simp only [Option.some.injEq] at hg
          dsimp only
          cases hnl : n.leaf with
          | none => rfl
          | some x => rw [hnl] at hg; simp at hg
        | cons b brest =>
          dsimp only at hg ⊢
          cases hge : getEdge b n.edges with
          | none => rfl
          | some ic =>
            obtain ⟨i, ca⟩ := ic
            simp only [hge] at hg
            dsimp only
            cases hc0 : h[ca]? with
            | none => simp only [hc0] at hg; exact absurd hg (by simp)
            | some child =>
              simp only [hc0] at hg
              dsimp only
              by_cases hpf : child.pfx.isPrefixOf (b :: brest) = true
              · rw [if_pos hpf] at hg ⊢
                rw [ihf h ca _ hg root fuel (by omega)]
              · rw [if_neg hpf] at hg
                rw [if_neg hpf]

/-- Txn.Delete of an absent key leaves heap and transaction untouched. -/
theorem hTxnDelete_absent {f fuel : Nat} {h : Heap V} {t : HTxn} {k : Key}
    (hg : hGet f h t.root k = some none) (hle : f ≤ fuel) :
    hTxnDelete fuel h t k = some (h, t, none) := by
  simp only [hTxnDelete, hDelete_absent f h t.root k hg t.root fuel hle]

/-- A transaction that only deletes absent keys changes nothing at all. -/
theorem hRunDels_absent {f fuel : Nat} {h : Heap V} {t : HTxn} (hle : f ≤ fuel) :
    ∀ ks : List Key, (∀ k ∈ ks, hGet f h t.root k = some none) →
      hRunOps fuel h t (ks.map Op.del) = some (h, t) := by
  intro ks
  induction ks with
  | nil => intro _; rfl
  | cons k rest ih =>
    intro habs
    simp only [List.map_cons, hRunOps, hApplyOp,
      hTxnDelete_absent (habs k (List.mem_cons_self _ _)) hle, Option.map_some]
    exact ih (fun k2 hk2 => habs k2 (List.mem_cons_of_mem _ hk2))

/-- The one-node heap of New() is closed. -/
theorem hClosed_hNew : hClosed (hNew : Heap V) := by
  intro cell hcell e he
  simp only [hNew, List.mem_singleton] at hcell
  subst hcell
  simp at he

/-! ### The claims -/

/-- C1: for every committed Tree obtained from New() by any sequence of
Insert and Delete operations, and every key K, Get(K) returns the value of
the last Insert of K not followed by a Delete of K, and reports absent when
K was never inserted or was deleted after its last insert — the fold
modelFind computes exactly that answer from the operation history. -/
theorem spec_c1_get_models_mutation_history (ops : List (Op V)) (K : Key) :
    get (build ops) K = modelFind ops K :=
  get_build_models ops K

/-- C2: mutation isolation and structural sharing — after any number of
Insert/Delete performed through transactions on a closed heap, every
pre-existing address still holds the very same cell, point reads (Get)
through any pre-existing root are unchanged, and a structural deep read of
any pre-existing root is unchanged: no node reachable from a committed root
or another transaction root is ever mutated. -/
theorem spec_c2_mutation_isolation {fuel : Nat} {h0 : Heap V} {t0 : HTxn}
    {ops : List (Op V)} {h1 : Heap V} {t1 : HTxn} (hc : hClosed h0)
    (hrun : hRunOps fuel h0 t0 ops = some (h1, t1)) :
    ∀ a, a < h0.length →
      h1[a]? = h0[a]? ∧
      (∀ f k, hGet f h1 a k = hGet f h0 a k) ∧
      (∀ f, reify f h1 a = reify f h0 a) :=
  mutation_isolation hc hrun

theorem spec_c2_mutation_isolation_witness :
    ([⟨none, [], []⟩, ⟨some ([0], 5), [0], []⟩, ⟨none, [], [(0, 1)]⟩] : Heap Nat)[0]? =
      (hNew (V := Nat))[0]? :=
  (spec_c2_mutation_isolation hClosed_hNew
    (show hRunOps 2 hNew (hTxnOf 0) [Op.ins [0] 5] =
        some ([⟨none, [], []⟩, ⟨some ([0], 5), [0], []⟩, ⟨none, [], [(0, 1)]⟩],
          ⟨2, 0⟩) from rfl)
    0 (by decide)).1

/-- C3: for any sequence of Inserts, the keys delivered by the in-order walk
(visit the leaf if present, then the children in ascending label order) are
in strict lexicographic order, hence duplicate-free. -/
theorem spec_c3_walk_sorted (l : List (Key × V)) :
    List.Pairwise (fun K1 K2 : Key => keyLt K1 K2 = true)
      ((leaves (build (l.map (fun kv => Op.ins kv.1 kv.2)))).map Prod.fst) := by
  rw [List.pairwise_map]
  exact (sorted_leaves [] (build_wfRoot _).1).imp (fun h => h)

/-- C4: merge-child invariant — after any operation sequence from the empty
tree no node strictly below the root has the collapsible single-edge-no-leaf
shape, while a committed root itself may legally have that shape (the root
is never collapsed), witnessed by an actual committed tree. -/
theorem spec_c4_merge_child_invariant :
    (∀ (V : Type) (ops : List (Op V)), NoLonely (build ops)) ∧
    (∃ ops : List (Op Nat), singleEdgeNoLeaf (build ops)) :=
  ⟨fun _ ops => build_noLonely ops, ⟨[Op.ins [0] 0], build_single_edge_root.2⟩⟩

/-- C5 (the iterator is modelled from the spec; its code is not among the
staged sources): for any insert sequence and any seek key Q, the pairs
emitted by repeated Next() after SeekLowerBound(Q) are exactly the walk
pairs whose key is ≥ Q, in walk order — the lexicographically sorted
subsequence of present keys ≥ Q, and that emission is strictly sorted. -/
theorem spec_c5_seek_lower_bound (l : List (Key × V)) (Q : Key) :
    seekLB (build (l.map (fun kv => Op.ins kv.1 kv.2))) Q =
      (leaves (build (l.map (fun kv => Op.ins kv.1 kv.2)))).filter
        (fun kv => ! keyLt kv.1 Q) ∧
    List.Pairwise (fun x y : Key × V => keyLt x.1 y.1 = true)
      (seekLB (build (l.map (fun kv => Op.ins kv.1 kv.2))) Q) := by
  obtain ⟨hwf, hpfx⟩ := build_wfRoot (l.map (fun kv => Op.ins kv.1 kv.2))
  have h1 := seekLB_filter [] Q hwf
  rw [hpfx] at h1
  simp only [List.nil_append] at h1
  refine ⟨h1, ?_⟩
  rw [h1]
  exact ((sorted_leaves [] hwf).sublist (List.filter_sublist _)).imp (fun h => h)

/-- C6 counterexample: on the tree holding the single pair [0] ↦ 0,
Insert([0], 1) followed by Delete([0]) yields the empty listing, not the
original one — the claim fails for a key already present. -/
theorem spec_c6_counterexample :
    leaves ((txnDelete ((txnInsert (build [Op.ins [0] (0 : Nat)]) [0] 1).1) [0]).1) ≠
      leaves (build [Op.ins [0] (0 : Nat)]) := by
  have hb := build_single_edge_root.1
  have hins : (txnInsert (build [Op.ins [0] (0 : Nat)]) [0] 1).1 =
      Node.mk none [] [(0, Node.mk (some ([0], 1)) [0] [])] := by
    rw [hb, txnInsert]
    rw [insert_cons_descend [0] 1
      (show getEdge 0 (Node.mk none []
          [(0, Node.mk (some ([0], (0 : Nat))) [0] [])]).edges
        = some (0, Node.mk (some ([0], (0 : Nat))) [0] []) from rfl)
      (show longestPrefix ([0] : Key)
          (Node.mk (some ([0], (0 : Nat))) [0] []).pfx
        = (Node.mk (some ([0], (0 : Nat))) [0] []).pfx.length from rfl)]
    rw [show List.drop (longestPrefix ([0] : Key)
        (Node.mk (some ([0], (0 : Nat))) [0] []).pfx) [0] = ([] : Key) from rfl]
    rw [insert_nil]
    rfl
  have hdel : (txnDelete (Node.mk none []
      [(0, Node.mk (some ([0], (1 : Nat))) [0] [])]) [0]).1 = Node.mk none [] [] := by
    rw [txnDelete]
    rw [delete_cons_some true
      (show getEdge 0 (Node.mk none []
          [(0, Node.mk (some ([0], (1 : Nat))) [0] [])]).edges
        = some (0, Node.mk (some ([0], (1 : Nat))) [0] []) from rfl)
      (show (Node.mk (some ([0], (1 : Nat))) [0] []).pfx.isPrefixOf
          ([0] : Key) = true from rfl)]
    rw [show List.drop
        (Node.mk (some ([0], (1 : Nat))) [0] []).pfx.length ([0] : Key)
        = ([] : Key) from rfl]
    rw [delete_nil_some false
      (show (Node.mk (some ([0], (1 : Nat))) [0] []).leaf
        = some ([0], (1 : Nat)) from rfl)]
    simp [delEdge]
  rw [hins, hdel, hb]
  simp

/-- C6 (amended): for a well-formed committed tree and a key absent from
it, Insert(K, v) followed by Delete(K) restores the original in-order
key/value listing; the original claim, quantified over every tree, fails
when K is already present (its previously stored pair is removed). -/
theorem spec_c6_insert_delete_absent {t : Node V} (hwf : WfRoot t) (k : Key)
    (v : V) (habs : get t k = none) :
    leaves ((txnDelete ((txnInsert t k v).1) k).1) = leaves t :=
  insert_delete_leaves hwf k v habs

theorem spec_c6_insert_delete_absent_witness :
    leaves ((txnDelete ((txnInsert (build ([] : List (Op Nat))) [0] 1).1) [0]).1) =
      leaves (build ([] : List (Op Nat))) :=
  spec_c6_insert_delete_absent (build_wfRoot []) [0] 1
    (get_cons_none (show getEdge 0 (build ([] : List (Op Nat))).edges = none from rfl))

/-- C7: deleting a key absent from a well-formed committed tree returns the
unchanged tree together with no previous value (present = false). -/
theorem spec_c7_delete_absent_unchanged {t : Node V} (hwf : WfRoot t) (k : Key)
    (habs : get t k = none) : txnDelete t k = (t, none) :=
  txnDelete_absent hwf k habs

theorem spec_c7_delete_absent_unchanged_witness :
    txnDelete (build [Op.ins [0] (0 : Nat)]) [1] = (build [Op.ins [0] (0 : Nat)], none) :=
  spec_c7_delete_absent_unchanged (build_wfRoot _) [1]
    (by rw [build_single_edge_root.1]; exact get_cons_none rfl)

/-- C8: the fatal "replacing missing edge" assertion is never reached: for
every committed tree and every insertion the recursive insert returns a
result (`none` encodes that fatal path; the split case's replaceEdge looks
up the very label getEdge just found). -/
theorem spec_c8_replace_missing_edge_unreachable (ops : List (Op V)) (k : Key) (v : V) :
    (insert (build ops) k k v).isSome = true :=
  insert_isSome (build ops) k k v

/-- C9: at every node reachable in a committed tree, Minimum and Maximum
report absent exactly on an empty subtree; otherwise both succeed, Minimum
returns a present pair whose key no present key precedes, and Maximum one
whose key no present key exceeds (so a leaf at an internal node, which a
descent past the last edge skips, is never the maximum). -/
theorem spec_c9_minimum_maximum (ops : List (Op V)) (m : Node V)
    (hreach : Reach (build ops) m) :
    (leaves m = [] → minimum m = none ∧ maximum m = none) ∧
    (leaves m ≠ [] → (minimum m).isSome ∧ (maximum m).isSome) ∧
    (∀ kv, minimum m = some kv →
      kv ∈ leaves m ∧ ∀ kv2 ∈ leaves m, keyLt kv2.1 kv.1 = false) ∧
    (∀ kv, maximum m = some kv →
      kv ∈ leaves m ∧ ∀ kv2 ∈ leaves m, keyLt kv.1 kv2.1 = false) := by
  obtain ⟨q, hq⟩ := reach_wf hreach [] (build_wfRoot ops).1
  exact minmax_correct hq

theorem spec_c9_minimum_maximum_witness :
    (leaves (build [Op.ins [0] (5 : Nat)]) = [] →
      minimum (build [Op.ins [0] (5 : Nat)]) = none ∧
      maximum (build [Op.ins [0] (5 : Nat)]) = none) ∧
    (leaves (build [Op.ins [0] (5 : Nat)]) ≠ [] →
      (minimum (build [Op.ins [0] (5 : Nat)])).isSome ∧
      (maximum (build [Op.ins [0] (5 : Nat)])).isSome) ∧
    (∀ kv, minimum (build [Op.ins [0] (5 : Nat)]) = some kv →
      kv ∈ leaves (build [Op.ins [0] (5 : Nat)]) ∧
      ∀ kv2 ∈ leaves (build [Op.ins [0] (5 : Nat)]), keyLt kv2.1 kv.1 = false) ∧
    (∀ kv, maximum (build [Op.ins [0] (5 : Nat)]) = some kv →
      kv ∈ leaves (build [Op.ins [0] (5 : Nat)]) ∧
      ∀ kv2 ∈ leaves (build [Op.ins [0] (5 : Nat)]), keyLt kv.1 kv2.1 = false) :=
  spec_c9_minimum_maximum [Op.ins [0] 5] _ (Reach.refl _)

/-- C10: Commit reports mutated through the pointer comparison of working
and original roots. Every successful Txn.Insert installs a freshly
allocated working root, so a following commit reports mutated — even when
it re-inserts an existing key with the value it already has — while a
transaction that performs only Deletes of absent keys (or no operations at
all) leaves heap and working root untouched and commits unmutated, with the
committed tree sharing the original root. -/
theorem spec_c10_commit_mutated {h0 : Heap V} {r : Nat} (hr : r < h0.length) :
    (∀ fuel k v h1 t1 o u,
        hTxnInsert fuel h0 (hTxnOf r) k v = some (h1, t1, o, u) →
        (hCommit t1).2 = true) ∧
    (∀ f fuel (ks : List Key), f ≤ fuel →
        (∀ k ∈ ks, hGet f h0 r k = some none) →
        hRunOps fuel h0 (hTxnOf r) (ks.map Op.del) = some (h0, hTxnOf r) ∧
        hCommit (hTxnOf r) = (r, false)) := by
  constructor
  · intro fuel k v h1 t1 o u heq
    exact (hTxnInsert_mutates heq hr).2.2
  · intro f fuel ks hle habs
    refine ⟨hRunDels_absent hle ks habs, ?_⟩
    simp [hCommit, hTxnOf]

theorem spec_c10_commit_mutated_witness :
    (hCommit (⟨2, 0⟩ : HTxn)).2 = true ∧
    (hRunOps 1 (hNew (V := Nat)) (hTxnOf 0) ([[1]].map Op.del) =
        some (hNew, hTxnOf 0) ∧
      hCommit (hTxnOf 0) = (0, false)) :=
  ⟨(spec_c10_commit_mutated
      (show (0 : Nat) < (hNew (V := Nat)).length from by decide)).1 2 [0] 5
      [⟨none, [], []⟩, ⟨some ([0], 5), [0], []⟩, ⟨none, [], [(0, 1)]⟩]
      ⟨2, 0⟩ none false rfl,
   (spec_c10_commit_mutated
      (show (0 : Nat) < (hNew (V := Nat)).length from by decide)).2 1 1 [[1]]
      (by decide) (by
        intro k hk
        simp only [List.mem_singleton] at hk
        subst hk
        rfl)⟩

end Iradix
